import Mathlib

/-!
Verification development for the flux-ci CI-file parser/evaluator
(`src/flux/cifile.py`).

The Python module is shallowly embedded: YAML/Python values become the

inductive type `Flux.Val`, Python dicts become insertion-ordered association
lists with string keys (the code filters out non-string top-level keys in its
first pass, and every key it ever uses is a string), and every operation that
can raise (`TypeError`, `KeyError`, `AttributeError`, `IndexError`) returns
`Except String`.  Modelling notes:

* floats are carried as their printed representation (`str(f)`); the module
  never does float arithmetic, only `str()` coercion and truthiness;
* Python `==` is modelled by `Flux.pyEq`, including the `bool`/`int`
  cross-equalities; `float`-to-`int` numeric equality is out of the modelled
  YAML fragment (it never arises in the code paths below);
* `str.lower()` is modelled on ASCII (`ref` names in this domain are ASCII);
* string manipulation is done on `List Char` to keep everything kernel
  evaluable.
-/

set_option autoImplicit false

namespace Flux

/-- A Python/YAML value as manipulated by `cifile.py`: strings, ints, bools,
floats (kept as their printed representation), `None`, lists and
string-keyed dicts (insertion ordered). -/
inductive Val where
  | str (s : String)
  | int (n : Int)
  | bool (b : Bool)
  | float (repr : String)
  | none
  | list (xs : List Val)
  | dict (d : List (String × Val))

/-- A Python dict with string keys, as an insertion-ordered association
list. -/
abbrev PyDict := List (String × Val)

/-- Lookup of a key in an association list (first match). -/
def getKey? {α : Type} (d : List (String × α)) (k : String) : Option α :=
  match d with
  | [] => Option.none
  | (k', v) :: rest => if k' = k then some v else getKey? rest k

/-- Python `k in d` for a dict. -/
def hasKey {α : Type} (d : List (String × α)) (k : String) : Bool :=
  match d with
  | [] => false
  | (k', _) :: rest => if k' = k then true else hasKey rest k

/-- Python `d[k] = v`: replace in place if the key exists, else append
(Python dicts keep the original position of an updated key). -/
def setKey {α : Type} (d : List (String × α)) (k : String) (v : α) :
    List (String × α) :=
  match d with
  | [] => [(k, v)]
  | (k', v') :: rest =>
    if k' = k then (k, v) :: rest else (k', v') :: setKey rest k v

/-- Python `d.pop(k)` / `del d[k]` (ignoring the returned value): remove the
entry with key `k`. -/
def popKey {α : Type} (d : List (String × α)) (k : String) :
    List (String × α) :=
  d.filter (fun kv => kv.1 ≠ k)

/-- Python `==` on values.  Structural, plus the `bool`/`int`
cross-equalities (`True == 1`).  Dicts compare entry lists (order included;
the module never compares dicts where the order could differ). -/
def pyEq : Val → Val → Bool
  | .str a, .str b => a = b
  | .int a, .int b => a = b
  | .bool a, .bool b => a = b
  | .bool a, .int b => (if a then (1 : Int) else 0) = b
  | .int a, .bool b => a = (if b then (1 : Int) else 0)
  | .float a, .float b => a = b
  | .none, .none => true
  | .list a, .list b => pyEqList a b
  | .dict a, .dict b => pyEqDict a b
  | _, _ => false
where
  /-- Elementwise Python `==` on lists. -/
  pyEqList : List Val → List Val → Bool
    | [], [] => true
    | a :: as_, b :: bs => pyEq a b && pyEqList as_ bs
    | _, _ => false
  /-- Entrywise Python `==` on dict entry lists. -/
  pyEqDict : List (String × Val) → List (String × Val) → Bool
    | [], [] => true
    | (ka, va) :: as_, (kb, vb) :: bs => ka = kb && pyEq va vb && pyEqDict as_ bs
    | _, _ => false

/-- Python truthiness of a value (`bool(v)`).  For floats the printed
representations of the zero floats are the falsy ones. -/
def pyTruthy : Val → Bool
  | .str s => s ≠ ""
  | .int n => n ≠ 0
  | .bool b => b
  | .float r => r ≠ "0.0" && r ≠ "-0.0"
  | .none => false
  | .list xs => !xs.isEmpty
  | .dict d => !d.isEmpty

/-- Python `len(v)`; raises `TypeError` on non-sized values. -/
def pyLen : Val → Except String Nat
  | .str s => .ok s.length
  | .list xs => .ok xs.length
  | .dict d => .ok d.length
  | _ => .error "TypeError: object has no len"

/-- Membership test for a `List Char` needle inside a `List Char`
haystack (Python `sub in s` on strings). -/
def subL (needle : List Char) : List Char → Bool
  | [] => needle.isEmpty
  | c :: rest => needle.isPrefixOf (c :: rest) || subL needle rest

/-- Python `s in v` where `s` is a string: key membership for dicts,
substring for strings, `==`-membership for lists; `TypeError` otherwise. -/
def pyInStr (s : String) : Val → Except String Bool
  | .dict d => .ok (hasKey d s)
  | .str t => .ok (subL s.data t.data)
  | .list xs => .ok (xs.any (fun x => pyEq x (.str s)))
  | _ => .error "TypeError: argument is not iterable"

/-- Python `v[s]` with a string subscript: only dicts support it (string and
list subscripts must be integers). -/
def pyGetItemStr (v : Val) (s : String) : Except String Val :=
  match v with
  | .dict d =>
    match getKey? d s with
    | some x => .ok x
    | Option.none => .error "KeyError"
  | _ => .error "TypeError: indices must be integers"

/-- Python `v[s] = x` with a string subscript: only dicts support it. -/
def pySetItemStr (v : Val) (s : String) (x : Val) : Except String Val :=
  match v with
  | .dict d => .ok (.dict (setKey d s x))
  | _ => .error "TypeError: object does not support item assignment"

/-- Python `v[0]`: first element of a list, first character of a string,
`KeyError` for a (string-keyed) dict, `TypeError` otherwise. -/
def pySubscript0 : Val → Except String Val
  | .list (x :: _) => .ok x
  | .list [] => .error "IndexError"
  | .str t =>
    match t.data with
    | c :: _ => .ok (.str (String.mk [c]))
    | [] => .error "IndexError"
  | .dict _ => .error "KeyError: 0"
  | _ => .error "TypeError: object is not subscriptable"

/-- Python `v.append(x)`: lists only. -/
def pyAppend (v : Val) (x : Val) : Except String Val :=
  match v with
  | .list xs => .ok (.list (xs ++ [x]))
  | _ => .error "AttributeError: object has no attribute append"

/-- Python iteration `for x in v`: list elements, string characters, dict
keys; `TypeError` otherwise. -/
def pyIter : Val → Except String (List Val)
  | .list xs => .ok xs
  | .str t => .ok (t.data.map (fun c => .str (String.mk [c])))
  | .dict d => .ok (d.map (fun kv => .str kv.1))
  | _ => .error "TypeError: object is not iterable"

/-- Python `str()` of a scalar (`str`, `int`, `bool`, `float`); `none`
for everything else. -/
def pyStr? : Val → Option String
  | .str s => some s
  | .int n => some (toString n)
  | .bool b => some (if b then "True" else "False")
  | .float r => some r
  | _ => Option.none

/-- Whitespace characters removed by Python `str.strip()`. -/
def isPySpace (c : Char) : Bool :=
  c = ' ' || c = '\t' || c = '\n' || c = '\x0d' || c = '\x0b' || c = '\x0c'

/-- Drop characters satisfying `p` from both ends of a character list
(Python `str.strip` family). -/
def stripEnds (p : Char → Bool) (cs : List Char) : List Char :=
  ((cs.dropWhile p).reverse.dropWhile p).reverse

/-- Python `s.strip()` on a character list. -/
def pyStrip (cs : List Char) : List Char := stripEnds isPySpace cs

/-- Python `s.strip(ch)` for a single strip character. -/
def pyStripChar (ch : Char) (cs : List Char) : List Char :=
  stripEnds (fun c => c = ch) cs

/-- Python `s.startswith(p)` for a one-character head test. -/
def startsWithChar (ch : Char) (s : String) : Bool :=
  match s.data with
  | c :: _ => c = ch
  | [] => false

/-- Python `s.replace(a, b)` where `a` and `b` are single characters
(used for `"before_script".replace('_', ':')`). -/
def replaceChar (a b : Char) (s : String) : String :=
  String.mk (s.data.map (fun c => if c = a then b else c))

/-- Split a character list on the two-character separator `==`
(Python `condition.split("==")`: leftmost, non-overlapping). -/
def splitOnEqEq : List Char → List (List Char)
  | [] => [[]]
  | '=' :: '=' :: rest => [] :: splitOnEqEq rest
  | c :: rest =>
    match splitOnEqEq rest with
    | [] => [[c]]
    | part :: parts => (c :: part) :: parts

/-- Character class of `re.ASCII` `\w`: letters, digits, underscore. -/
def isVarChar (c : Char) : Bool :=
  ('a' ≤ c && c ≤ 'z') || ('A' ≤ c && c ≤ 'Z') || ('0' ≤ c && c ≤ '9') || c = '_'

/-- Split a character list at the first `}`: returns the part before it
and the tail after it, or `none` when there is no `}`. -/
def braceSplit : List Char → Option (List Char × List Char)
  | [] => Option.none
  | c :: rest =>
    if c = '}' then some ([], rest)
    else (braceSplit rest).map (fun p => (c :: p.1, p.2))

/-- `os.path.expandvars` with an explicit step bound: replace `$NAME` /
`${NAME}` by the environment value when `NAME` is defined, leave the token
unchanged otherwise; a substituted value is not rescanned (scanning resumes
after it).  Every step consumes at least one character, so the initial fuel
`cs.length` of `expandvarsL` is always sufficient; the fuel only makes the
recursion structural. -/
def expandvarsFuel (env : List (String × String)) : Nat → List Char → List Char
  | _, [] => []
  | 0, cs => cs
  | fuel+1, '$' :: rest =>
    match rest with
    | '{' :: rest2 =>
      (match braceSplit rest2 with
       | some (inner, tail) =>
         (match getKey? env (String.mk inner) with
          | some v => v.data ++ expandvarsFuel env fuel tail
          | Option.none => '$' :: '{' :: (inner ++ '}' :: expandvarsFuel env fuel tail))
       | Option.none => '$' :: expandvarsFuel env fuel ('{' :: rest2))
    | c :: rest2 =>
      if isVarChar c then
        (match getKey? env (String.mk ((c :: rest2).takeWhile isVarChar)) with
         | some v => v.data ++ expandvarsFuel env fuel ((c :: rest2).dropWhile isVarChar)
         | Option.none =>
           '$' :: ((c :: rest2).takeWhile isVarChar ++
             expandvarsFuel env fuel ((c :: rest2).dropWhile isVarChar)))
      else '$' :: expandvarsFuel env fuel (c :: rest2)
    | [] => ['$']
  | fuel+1, c :: rest => c :: expandvarsFuel env fuel rest

/-- `os.path.expandvars` on a character list. -/
def expandvarsL (env : List (String × String)) (cs : List Char) : List Char :=
  expandvarsFuel env cs.length cs

/-- The reserved pipeline keys `PIPELINES_KEYS` of `cifile.py`. -/
def PIPELINES_KEYS : List String :=
  ["stages", "image", "before_script", "after_script", "variables", "services"]

/-- Whether a top-level key is reserved (`jobname in PIPELINES_KEYS`). -/
def isReserved (k : String) : Bool := PIPELINES_KEYS.contains k

/-- Core of `CiFile.extract_str` (lines 221-232): `some` is the string the
Python function returns, `none` means it fell back to `noneval`.  A list
yields its first `str` element (ints etc. inside lists are ignored here). -/
def extract_str_core : Val → Option String
  | .str s => some s
  | .int n => some (toString n)
  | .bool b => some (if b then "True" else "False")
  | .float r => some r
  | .list xs =>
    xs.findSome? (fun o => match o with | .str s => some s | _ => Option.none)
  | _ => Option.none

/-- `CiFile.extract_str(obj, noneval)` with a string fallback. -/
def extract_str (obj : Val) (noneval : String) : String :=
  (extract_str_core obj).getD noneval

/-- Core of `CiFile.extract_str_list` (lines 204-219): `some` is the
returned list, `none` means the `noneval` fallback was returned
(for `None`, dicts and other non-coercible values). -/
def extract_str_list_core : Val → Option (List String)
  | .none => Option.none
  | .str s => some [s]
  | .int n => some [toString n]
  | .bool b => some [if b then "True" else "False"]
  | .float r => some [r]
  | .list xs => some (xs.filterMap pyStr?)
  | .dict _ => Option.none

/-- `CiFile.extract_str_list(obj, noneval)` with a list fallback. -/
def extract_str_list (obj : Val) (noneval : List String) : List String :=
  (extract_str_list_core obj).getD noneval

/-- `CiFile.extract_str_dict` (lines 234-247): apply `extract_str(v, None)`
to every value and keep the entry only when the result is truthy, i.e. a
nonempty string.  Non-dict inputs are treated as `{}`. -/
def extract_str_dict (d : Val) : List (String × String) :=
  match d with
  | .dict kvs =>
    kvs.foldl
      (fun ret kv =>
        match extract_str_core kv.2 with
        | some s => if s ≠ "" then setKey ret kv.1 s else ret
        | Option.none => ret)
      []
  | _ => []

/-- Wrap a string-to-string dict as a `Val.dict`. -/
def strDictToVal (d : List (String × String)) : Val :=
  .dict (d.map (fun kv => (kv.1, .str kv.2)))

/-- The constructor configuration of a `CiFile` object: the defaults and the
caller-supplied forced variables (`CiFile.__init__`, lines 86-103). -/
structure Config where
  default_stage : String := "test"
  default_image : String := "local_system_shell"
  default_artifact_expire_in : String := "3 days"
  default_artifact_name : String := "${CI_JOB_NAME}_${CI_COMMIT_REF_NAME}_${CI_JOB_ID}"
  forced_variables : List (String × Val) := []

/-- ASCII `str.lower()` on a character code. -/
def lowerCode (n : Nat) : Nat :=
  if 65 ≤ n ∧ n ≤ 90 then n + 32 else n

/-- Character class `[0-9a-zA-Z]` of the slug regex in line 461, on codes. -/
def slugKeepCode (n : Nat) : Bool :=
  (48 ≤ n && n ≤ 57) || (97 ≤ n && n ≤ 122) || (65 ≤ n && n ≤ 90)

/-- Character class `[0-9a-z]` — the class named by the specification for
the slug ("everything except 0-9 and a-z"), on codes. -/
def slugKeepCodeSpec (n : Nat) : Bool :=
  (48 ≤ n && n ≤ 57) || (97 ≤ n && n ≤ 122)

/-- Worker for `collapseRuns`: `inRun` records whether the previous code
was part of a run being replaced, so a run contributes exactly one `-`. -/
def collapseGo (keep : Nat → Bool) (inRun : Bool) : List Nat → List Nat
  | [] => []
  | n :: rest =>
    if keep n then n :: collapseGo keep false rest
    else if inRun then collapseGo keep true rest
    else 45 :: collapseGo keep true rest

/-- Replace every maximal run of non-kept codes by a single `-` (code 45):
the effect of `re.sub('[^...]+', '-', s)`. -/
def collapseRuns (keep : Nat → Bool) (l : List Nat) : List Nat :=
  collapseGo keep false l

/-- `CI_COMMIT_REF_SLUG` exactly as computed in line 461:
`re.sub('[^0-9a-zA-Z]+', '-', ref.lower())[:63].strip('-')`. -/
def ci_commit_ref_slug (ref : String) : String :=
  let codes := (ref.data.map Char.toNat).map lowerCode
  let collapsed := collapseRuns slugKeepCode codes
  let truncated := collapsed.take 63
  let stripped :=
    ((truncated.dropWhile (fun n => n = 45)).reverse.dropWhile
      (fun n => n = 45)).reverse
  String.mk (stripped.map Char.ofNat)

/-- The slug as the specification words it: lowercase the ref name, replace
every maximal run of characters outside `[0-9a-z]` by a single `-`,
truncate to 63 characters, trim leading/trailing `-`. -/
def ci_commit_ref_slug_spec (ref : String) : String :=
  let codes := (ref.data.map Char.toNat).map lowerCode
  let collapsed := collapseRuns slugKeepCodeSpec codes
  let truncated := collapsed.take 63
  let stripped :=
    ((truncated.dropWhile (fun n => n = 45)).reverse.dropWhile
      (fun n => n = 45)).reverse
  String.mk (stripped.map Char.ofNat)

/-- `CI_COMMIT_TITLE` (line 463): the part of the message before the first
line break (`msg.split('\n')[0]`). -/
def commitTitle (msg : String) : String :=
  String.mk (msg.data.takeWhile (fun c => c ≠ '\n'))

/-- `re.sub(r'^[^\n]*\n', '', msg)` (line 465): drop the first line
including its newline when the message contains one. -/
def dropFirstLine (msg : String) : String :=
  if msg.data.any (fun c => c = '\n') then
    String.mk ((msg.data.dropWhile (fun c => c ≠ '\n')).drop 1)
  else msg

/-- Apply `f` to every entry value of a dict, in order, short-circuiting on
the first raised error: the shape of the `for jobname, job in
self._cidict.items()` loops whose bodies only replace the current value. -/
def eachEntry (f : String → Val → Except String Val) : PyDict → Except String PyDict
  | [] => .ok []
  | (k, v) :: rest => do
    let v' ← f k v
    let rest' ← eachEntry f rest
    pure ((k, v') :: rest')

/-- `CiFile._pipeline_various_tweaks` (lines 249-259): drop template keys
starting with `.` (non-string keys are outside this embedding, dicts here
are string-keyed), then coerce `image` to one string with the default as
fallback. -/
def pipeline_various_tweaks (cfg : Config) (cd : PyDict) : PyDict :=
  let cd := cd.filter (fun kv => !startsWithChar '.' kv.1)
  let tmp := extract_str ((getKey? cd "image").getD (.str cfg.default_image)) cfg.default_image
  setKey cd "image" (.str tmp)

/-- The scan loop of `CiFile._job_scan_apply_stages` (lines 270-274):
append to `stages` every nonempty coerced job stage not already contained
(`in` and `append` raise on non-list `stages` values, as in Python). -/
def scanStages : PyDict → Val → Except String Val
  | [], st => .ok st
  | (job, v) :: rest, st =>
    match v with
    | .dict d =>
      if isReserved job then scanStages rest st
      else if hasKey d "stage" then
        let stage := extract_str ((getKey? d "stage").getD .none) ""
        if stage ≠ "" then do
          let mem ← pyInStr stage st
          if mem then scanStages rest st
          else do
            let st' ← pyAppend st (.str stage)
            scanStages rest st'
        else scanStages rest st
      else scanStages rest st
    | _ => scanStages rest st

/-- `CiFile._job_scan_apply_stages` (lines 261-285): pop `stages`, scan the
jobs for declared stages, default to `[default_stage]` when falsy, assign
every non-reserved dict job its coerced stage (with `stages[0]` both as the
value for stage-less jobs and as the coercion fallback), and store `stages`
back. -/
def job_scan_apply_stages (cfg : Config) (cd : PyDict) : Except String PyDict := do
  let stages0 := (getKey? cd "stages").getD (.list [])
  let cd0 := popKey cd "stages"
  let stages1 ← scanStages cd0 stages0
  let stages := if pyTruthy stages1 then stages1 else .list [.str cfg.default_stage]
  let cd1 ← eachEntry
    (fun jobname v =>
      match v with
      | .dict d =>
        if isReserved jobname then pure (.dict d)
        else do
          let s0 ← pySubscript0 stages
          let obj := (getKey? d "stage").getD s0
          let stage :=
            match extract_str_core obj with
            | some s => Val.str s
            | Option.none => s0
          pure (.dict (setKey d "stage" stage))
      | _ => pure v)
    cd0
  pure (setKey cd1 "stages" stages)

/-- `CiFile._job_convert_list_to_script` (lines 304-316): a non-reserved
entry that is a bare list with at least one coercible element becomes
`{script: that list}`. -/
def job_convert_list_to_script (cd : PyDict) : PyDict :=
  cd.map (fun kv =>
    if !isReserved kv.1 then
      match kv.2 with
      | .list xs =>
        let script := (extract_str_list_core (.list xs)).getD []
        if script ≠ [] then (kv.1, .dict [("script", .list (script.map .str))])
        else kv
      | _ => kv
    else kv)

/-- One key of `CiFile._job_convert_before_after_script` (lines 287-302):
turn a non-empty `before_script`/`after_script` into a synthetic job named
`before:script`/`after:script` and splice the synthetic stage into
`stages`. -/
def convertScriptKey (jobkey : String) (cd : PyDict) : Except String PyDict := do
  let scriptVal := (getKey? cd jobkey).getD (.list [])
  let n ← pyLen scriptVal
  if n > 0 then do
    let cd := popKey cd jobkey
    let cd := setKey cd (replaceChar '_' ':' jobkey)
      (.dict [("stage", .str jobkey), ("script", scriptVal)])
    match getKey? cd "stages" with
    | some stagesV =>
      if jobkey = "before_script" then
        match stagesV with
        | .list xs => pure (setKey cd "stages" (.list (.str jobkey :: xs)))
        | _ => .error "AttributeError: object has no attribute insert"
      else do
        let st2 ← pyAppend stagesV (.str jobkey)
        pure (setKey cd "stages" st2)
    | Option.none => .error "KeyError: stages"
  else pure cd

/-- `CiFile._job_convert_before_after_script` (lines 287-302). -/
def job_convert_before_after_script (cd : PyDict) : Except String PyDict := do
  let cd ← convertScriptKey "before_script" cd
  convertScriptKey "after_script" cd

/-- Shared body of `CiFile._job_various_tweaks` (lines 395-408) for one of
`tags` / `dependencies`: read the key if present (note: `in`, item reads and
item assignment raise on non-dict jobs, as in Python) and store the coerced
string list. -/
def ensureStrList (job : Val) (key : String) : Except String Val := do
  let c ← pyInStr key job
  let tmp ← if c then pyGetItemStr job key else pure (.list [])
  pySetItemStr job key (.list ((extract_str_list tmp []).map .str))

/-- `CiFile._job_various_tweaks` (lines 395-408). -/
def job_various_tweaks (cd : PyDict) : Except String PyDict :=
  eachEntry
    (fun jobname job =>
      if isReserved jobname then pure job
      else do
        let job ← ensureStrList job "tags"
        ensureStrList job "dependencies")
    cd

/-- `CiFile._job_script_always_list` (lines 318-332): give every job a
`script` key, and replace it by the coerced string list when that list is
nonempty (a falsy coercion leaves the original value in place). -/
def job_script_always_list (cd : PyDict) : Except String PyDict :=
  eachEntry
    (fun jobname job =>
      if isReserved jobname then pure job
      else do
        let c ← pyInStr "script" job
        let job ← if c then pure job else pySetItemStr job "script" (.list [])
        let sv ← pyGetItemStr job "script"
        let script := (extract_str_list_core sv).getD []
        if script ≠ [] then pySetItemStr job "script" (.list (script.map .str))
        else pure job)
    cd

/-- Coerce a `variables` value into string-valued entries wrapped back as
`Val`s. -/
def coercedVars (v : Val) : List (String × Val) :=
  (extract_str_dict v).map (fun kv => (kv.1, .str kv.2))

/-- The per-job body of `CiFile._job_combine_variables` (lines 421-438):
coerce the job's own variables, fill in the (already coerced) pipeline
variables where missing, overlay the coerced forced variables, overlay the
raw `injectdict` values. -/
def combineJobVars (cfg : Config) (pvars : List (String × String))
    (injectdict : List (String × Val)) (kv : String × Val) : String × Val :=
  match kv.2 with
  | .dict d =>
    if isReserved kv.1 then kv
    else
      let jvars := coercedVars ((getKey? d "variables").getD (.dict []))
      let jvars := pvars.foldl
        (fun jv pv => if hasKey jv pv.1 then jv else setKey jv pv.1 (.str pv.2)) jvars
      let jvars := (extract_str_dict (.dict cfg.forced_variables)).foldl
        (fun jv cv => setKey jv cv.1 (.str cv.2)) jvars
      let jvars := injectdict.foldl (fun jv iv => setKey jv iv.1 iv.2) jvars
      (kv.1, .dict (setKey d "variables" (.dict jvars)))
  | _ => kv

/-- `CiFile._job_combine_variables` (lines 410-441): coerce the pipeline
variables, store them back, apply `combineJobVars` to every job, and
finally pop the pipeline `variables` key. -/
def job_combine_variables (cfg : Config) (cd : PyDict)
    (injectdict : List (String × Val)) : PyDict :=
  let pvars := extract_str_dict ((getKey? cd "variables").getD (.dict []))
  let cd := setKey cd "variables" (strDictToVal pvars)
  popKey (cd.map (combineJobVars cfg pvars injectdict)) "variables"

/-- `CiFile._job_streamline_only` (lines 362-393): flatten every token
reachable from `only` (bare value, `variables` key, `refs` key), drop the
literal tokens `refs`/`variables`, and split into refs (no `$` prefix) and
variable conditions (`$` prefix). -/
def job_streamline_only (cd : PyDict) : Except String PyDict :=
  eachEntry
    (fun jobname job =>
      if isReserved jobname then pure job
      else do
        let c ← pyInStr "only" job
        let job ← if c then pure job else pySetItemStr job "only" (.dict [])
        let only ← pyGetItemStr job "only"
        let found := extract_str_list only []
        let cv ← pyInStr "variables" only
        let found ←
          if cv then do
            let x ← pyGetItemStr only "variables"
            pure (found ++ extract_str_list x [])
          else pure found
        let cr ← pyInStr "refs" only
        let found ←
          if cr then do
            let x ← pyGetItemStr only "refs"
            pure (found ++ extract_str_list x [])
          else pure found
        let found := found.filter (fun v => v ≠ "refs" && v ≠ "variables")
        pySetItemStr job "only" (.dict
          [("refs", .list ((found.filter (fun v => !startsWithChar '$' v)).map .str)),
           ("variables", .list ((found.filter (fun v => startsWithChar '$' v)).map .str))]))
    cd

/-- `CiFile._job_streamline_artifacts` (lines 334-360), including the
faithful reproduction of line 359, which copies the declared artifact
`name` value into `expire_in` whenever an `expire_in` key is present. -/
def job_streamline_artifacts (cfg : Config) (cd : PyDict) : Except String PyDict :=
  eachEntry
    (fun jobname job =>
      if isReserved jobname then pure job
      else do
        let hasArt ← pyInStr "artifacts" job
        if hasArt then do
          let av ← pyGetItemStr job "artifacts"
          let paths0 : List String :=
            match av with
            | .list _ => extract_str_list av []
            | _ => []
          let cp ← pyInStr "paths" av
          let paths1 ←
            if cp then do
              let x ← pyGetItemStr av "paths"
              pure (extract_str_list x [])
            else pure paths0
          let cn ← pyInStr "name" av
          let nameV ← if cn then pyGetItemStr av "name" else pure (.str cfg.default_artifact_name)
          let ce ← pyInStr "expire_in" av
          let expV ← if ce then pyGetItemStr av "name" else pure (.str cfg.default_artifact_expire_in)
          pySetItemStr job "artifacts" (.dict
            [("name", nameV), ("expire_in", expV), ("paths", .list (paths1.map .str))])
        else
          pySetItemStr job "artifacts" (.dict
            [("name", .str cfg.default_artifact_name),
             ("expire_in", .str cfg.default_artifact_expire_in),
             ("paths", .list [])]))
    cd

/-- `CiFile._parse_cidict` (lines 141-168): the only hard type check is
that the root is a dict, followed by the fixed, order-dependent sequence of
normalization passes. -/
def parse_cidict (cfg : Config) (v : Val) : Except String PyDict :=
  match v with
  | .dict cd => do
    let cd := pipeline_various_tweaks cfg cd
    let cd ← job_scan_apply_stages cfg cd
    let cd := job_convert_list_to_script cd
    let cd ← job_scan_apply_stages cfg cd
    let cd ← job_convert_before_after_script cd
    let cd ← job_various_tweaks cd
    let cd ← job_script_always_list cd
    let cd := job_combine_variables cfg cd []
    let cd ← job_streamline_only cd
    job_streamline_artifacts cfg cd
  | _ => .error "TypeError: expected dict"

/-- `CiFile._pipeline_add_buildinfo` (lines 443-479): build the predefined
variable dict (note booleans for `CI` and `CI_PIPELINE_TRIGGERED`), inject
it through `_job_combine_variables`, then re-coerce every job's variables
and add `CI_JOB_NAME` / `CI_JOB_STAGE`. -/
def pipeline_add_buildinfo (cfg : Config) (cd : PyDict)
    (refName source msg sha : String) (tag : Option String) :
    Except String PyDict := do
  let pd : List (String × Val) :=
    [("CI", .bool true),
     ("CI_COMMIT_REF_NAME", .str refName),
     ("CI_PIPELINE_SOURCE", .str source),
     ("CI_COMMIT_MESSAGE", .str msg),
     ("CI_COMMIT_SHA", .str sha),
     ("CI_COMMIT_REF_SLUG", .str (ci_commit_ref_slug refName)),
     ("CI_COMMIT_TITLE", .str (commitTitle msg)),
     ("CI_COMMIT_DESCRIPTION", .str (if msg.length < 100 then msg else dropFirstLine msg)),
     ("CI_PIPELINE_TRIGGERED",
      .bool (["trigger", "api", "pipeline", "schedule", "web"].contains source))]
  let pd :=
    match tag with
    | some t => if t ≠ "" then pd ++ [("CI_COMMIT_TAG", .str t)] else pd
    | Option.none => pd
  let cd := job_combine_variables cfg cd pd
  eachEntry
    (fun jobname job =>
      match job with
      | .dict d =>
        if isReserved jobname then pure job
        else do
          let jvars := coercedVars ((getKey? d "variables").getD (.dict []))
          let jvars := setKey jvars "CI_JOB_NAME" (.str jobname)
          let stageV ← pyGetItemStr (.dict d) "stage"
          let jvars := setKey jvars "CI_JOB_STAGE" stageV
          pure (.dict (setKey d "variables" (.dict jvars)))
      | _ => pure job)
    cd

/-- Evaluate one `only.variables` condition string (lines 519-543):
split on `==`, strip/unquote, substitute through `os.path.expandvars`
against the current process environment, then apply the four matching
rules in their `if`/`elif` order. -/
def evalCondition (env : List (String × String)) (c : String) : Bool :=
  match splitOnEqEq c.data with
  | [] => false
  | s0 :: rest =>
    let left := expandvarsL env (pyStripChar '"' (pyStrip s0))
    match rest with
    | [] => !left.isEmpty
    | s1 :: _ =>
      let r := pyStripChar '"' (pyStrip (expandvarsL env s1))
      if !left.isEmpty && r.isEmpty then true
      else if left.any (fun ch => ch = '$') && !r.isEmpty &&
        (r = "null".data || r = "nil".data || r = "None".data) then true
      else if !r.isEmpty && left = r then true
      else false

/-- The per-job body of the filter loop in `CiFile._evaluate_jobs`
(lines 490-547): set the job's variables into the (shared, process-wide)
environment, compute script/ref/variable eligibility and return the updated
environment together with whether the job runs. -/
def evalOneJob (env : List (String × String)) (d : List (String × Val)) :
    Except String (List (String × String) × Bool) := do
  let onlyV ← pyGetItemStr (.dict d) "only"
  let onlyVarsV ← pyGetItemStr onlyV "variables"
  let nvars ← pyLen onlyVarsV
  let refVars0 : Bool := nvars == 0
  let varsV ← pyGetItemStr (.dict d) "variables"
  let env ←
    match varsV with
    | .dict jv =>
      jv.foldlM
        (fun e kv =>
          match kv.2 with
          | .str s => pure (setKey e kv.1 s)
          | _ => Except.error "TypeError: str expected for environ")
        env
    | _ => Except.error "AttributeError: items"
  let runScript :=
    (hasKey d "script" && pyTruthy ((getKey? d "script").getD .none)) ||
    (hasKey d "dependencies" && pyTruthy ((getKey? d "dependencies").getD .none) &&
     hasKey d "artifacts" && pyTruthy ((getKey? d "artifacts").getD .none))
  let refsV ← pyGetItemStr onlyV "refs"
  let r1 := !pyTruthy refsV && !pyTruthy onlyVarsV
  let mTrig ← pyInStr "triggers" refsV
  let r2 ←
    if mTrig then do
      let t ← pyGetItemStr varsV "CI_PIPELINE_TRIGGERED"
      pure (pyTruthy t)
    else pure false
  let mTags ← pyInStr "tags" refsV
  let r3 ← if mTags then pyInStr "CI_COMMIT_TAG" varsV else pure false
  let refsL ← pyIter refsV
  let r4 ← refsL.foldlM
    (fun acc ref =>
      if !pyEq ref (.str "tags") && !pyEq ref (.str "triggers") then do
        let crn ← pyGetItemStr varsV "CI_COMMIT_REF_NAME"
        pure (acc || pyEq crn ref)
      else pure acc)
    false
  let refOk := r1 || r2 || r3 || r4
  let condsL ← pyIter onlyVarsV
  let refVars ← condsL.foldlM
    (fun acc cv =>
      match cv with
      | .str c => pure (acc || evalCondition env c)
      | _ => Except.error "AttributeError: split")
    refVars0
  pure (env, refOk && refVars && runScript)

/-- The filter loop of `CiFile._evaluate_jobs` (lines 487-547): the
environment accumulates across jobs (`os.environ = bak_env` rebinds the
name to the same mutated mapping and restores nothing). -/
def evalFilter : PyDict → List (String × String) → List String →
    Except String (List (String × String) × List String)
  | [], env, toRemove => .ok (env, toRemove)
  | (jobname, job) :: rest, env, toRemove =>
    match job with
    | .dict d =>
      if isReserved jobname then evalFilter rest env toRemove
      else do
        let (env2, run) ← evalOneJob env d
        evalFilter rest env2 (if run then toRemove else toRemove ++ [jobname])
    | _ => evalFilter rest env toRemove

/-- Python `dep in self._cidict.keys()` (line 557): the dependency value
compares equal to some key of the dict — reserved keys included. -/
def depMatched (cd : PyDict) (dep : Val) : Bool :=
  cd.any (fun kv => pyEq dep (.str kv.1))

/-- One scan of the pruning loop (lines 550-559): the last non-reserved
dict job, in dict order, that lists a dependency matching no key of the
dict (note: reserved keys such as `image` and `stages` do count as
matches, since `jobnames = self._cidict.keys()`). -/
def findRemovableAux (cd : PyDict) : PyDict → Option String →
    Except String (Option String)
  | [], acc => .ok acc
  | (jobname, job) :: rest, acc =>
    match job with
    | .dict d =>
      if isReserved jobname then findRemovableAux cd rest acc
      else do
        let depsV ← pyGetItemStr (.dict d) "dependencies"
        let deps ← pyIter depsV
        if deps.any (fun dep => !depMatched cd dep) then
          findRemovableAux cd rest (some jobname)
        else findRemovableAux cd rest acc
    | _ => findRemovableAux cd rest acc

/-- The job picked for removal by one scan of the pruning loop. -/
def findRemovable (cd : PyDict) : Except String (Option String) :=
  findRemovableAux cd cd Option.none

/-- The fixed-point loop of lines 550-561 with an explicit pass bound:
repeatedly remove the picked job until a whole scan picks none.  Every
iteration removes one existing key, so the initial fuel `cd.length + 1` of
`pruneLoop` is always sufficient (`pruneLoopFuel_fixed` below); the fuel
only makes the recursion structural. -/
def pruneLoopFuel : Nat → PyDict → Except String PyDict
  | 0, cd => .ok cd
  | fuel+1, cd =>
    match findRemovable cd with
    | .error e => .error e
    | .ok Option.none => .ok cd
    | .ok (some j) => pruneLoopFuel fuel (cd.filter (fun kv => kv.1 ≠ j))

/-- The pruning loop of `CiFile._evaluate_jobs`. -/
def pruneLoop (cd : PyDict) : Except String PyDict :=
  pruneLoopFuel (cd.length + 1) cd

/-- `CiFile._evaluate_jobs` (lines 481-562): filter out ineligible jobs,
then prune to the dependency fixed point.  The environment mutations
survive the call (the `os.environ = bak_env` rebindings are no-ops). -/
def evaluate_jobs (cd : PyDict) (env0 : List (String × String)) :
    Except String (PyDict × List (String × String)) := do
  let (env, toRemove) ← evalFilter cd env0 []
  let cd := cd.filter (fun kv => ¬ toRemove.contains kv.1)
  let cd ← pruneLoop cd
  pure (cd, env)

/-- The job names grouped under one stage value, in dict order
(`CiFile.convert_to_matrix` lines 122-127, as used by `_assign_ids`). -/
def groupJobs (cd : PyDict) (stageV : Val) : Except String (List String) :=
  cd.foldlM
    (fun acc kv =>
      if isReserved kv.1 then pure acc
      else
        match kv.2 with
        | .dict d => do
          let sv ← pyGetItemStr (.dict d) "stage"
          pure (if pyEq sv stageV then acc ++ [kv.1] else acc)
        | _ => pure acc)
    []

/-- Replace the `variables` value of the job named `j`. -/
def updateJobVars (cd : PyDict) (j : String) (vars : List (String × Val)) : PyDict :=
  cd.map (fun kv =>
    if kv.1 = j then
      match kv.2 with
      | .dict d => (kv.1, .dict (setKey d "variables" (.dict vars)))
      | _ => kv
    else kv)

/-- The per-job body of `CiFile._assign_ids` (lines 574-578): re-coerce the
job's variables and set `CI_PIPELINE_ID` and `CI_JOB_ID`. -/
def assignJob (cd : PyDict) (j : String) (pipelineId jobId : String) : PyDict :=
  match getKey? cd j with
  | some (.dict d) =>
    let jvars := coercedVars ((getKey? d "variables").getD (.dict []))
    let jvars := setKey jvars "CI_PIPELINE_ID" (.str pipelineId)
    let jvars := setKey jvars "CI_JOB_ID" (.str jobId)
    updateJobVars cd j jvars
  | _ => cd

/-- One stage of `CiFile._assign_ids`: collect the stage's job group and
give each job in it the next job id. -/
def assignStageStep (pipelineId : String) (acc : PyDict × Nat) (stageV : Val) :
    Except String (PyDict × Nat) := do
  let group ← groupJobs acc.1 stageV
  pure (group.foldl
    (fun (acc2 : PyDict × Nat) j =>
      (assignJob acc2.1 j pipelineId (toString (acc2.2 + 1)), acc2.2 + 1))
    acc)

/-- `CiFile._assign_ids` (lines 564-578): take the next pipeline id, walk
the jobs stage by stage in `stages` order and give each a fresh job id.
Returns the updated dict with the new last job id and last pipeline id. -/
def assign_ids (cd : PyDict) (lastJobId lastPipelineId : Nat) :
    Except String (PyDict × Nat × Nat) := do
  let pipelineId := lastPipelineId + 1
  let stagesV ←
    match getKey? cd "stages" with
    | some v => Except.ok v
    | Option.none => Except.error "KeyError: stages"
  match getKey? cd "image" with
  | some _ =>
    (do
      let stages ← pyIter stagesV
      let res ← stages.foldlM (assignStageStep (toString pipelineId)) (cd, lastJobId)
      pure (res.1, res.2, pipelineId))
  | Option.none => Except.error "KeyError: image"

/-- `CiFile.prepare_run_with` (lines 170-182): buildinfo injection, job
evaluation, id assignment.  Besides the updated pipeline dict it returns
the final process environment and the id-generator counters, which the
Python code mutates in place. -/
def prepare_run_with (cfg : Config) (cd : PyDict) (env0 : List (String × String))
    (lastJobId lastPipelineId : Nat) (refName source msg sha : String)
    (tag : Option String) :
    Except String (PyDict × List (String × String) × Nat × Nat) := do
  let cd ← pipeline_add_buildinfo cfg cd refName source msg sha tag
  let (cd, env) ← evaluate_jobs cd env0
  let (cd, g) ← assign_ids cd lastJobId lastPipelineId
  pure (cd, env, g)

/-- The default `CiFile` configuration (`CiFile.__init__` defaults, no
forced variables). -/
def defaultConfig : Config := {}

/-- All values of a variables association list are nonempty strings. -/
def strVals (m : List (String × Val)) : Bool :=
  m.all (fun kv =>
    match kv.2 with
    | .str s => decide (s ≠ "")
    | _ => false)

/-- Whether a normalization result is a success. -/
def isOkE (r : Except String PyDict) : Bool :=
  match r with
  | .ok _ => true
  | .error _ => false

/-- The dict of a successful normalization result (`[]` on error). -/
def resultDict (r : Except String PyDict) : PyDict :=
  match r with
  | .ok cd => cd
  | .error _ => []

/-- Whether a value is a dict root. -/
def isDictB : Val → Bool
  | .dict _ => true
  | _ => false

/-- A field of the job named `j`. -/
def jobField? (cd : PyDict) (j k : String) : Option Val :=
  match getKey? cd j with
  | some (.dict d) => getKey? d k
  | _ => Option.none

/-- Whether an optional value is a list. -/
def isListValB : Option Val → Bool
  | some (.list _) => true
  | _ => false

/-- Extract a string from an optional value. -/
def strVal? : Option Val → Option String
  | some (.str s) => some s
  | _ => Option.none

/-- Extract a string list from an optional list-of-strings value. -/
def strListVal? : Option Val → Option (List String)
  | some (.list xs) =>
    xs.mapM (fun v => match v with | .str s => some s | _ => Option.none)
  | _ => Option.none

/-- A field of the job's `artifacts` record. -/
def artifactField? (cd : PyDict) (j k : String) : Option Val :=
  match jobField? cd j "artifacts" with
  | some (.dict a) => getKey? a k
  | _ => Option.none

/-- The string value of variable `X` of job `j`. -/
def jobVar? (cd : PyDict) (j X : String) : Option String :=
  strVal? (match jobField? cd j "variables" with
           | some (.dict vs) => getKey? vs X
           | _ => Option.none)

/-- Whether `j` names a job in the pipeline dict: a non-reserved key whose
value is a dict. -/
def isJobB (cd : PyDict) (j : String) : Bool :=
  !isReserved j &&
    (match getKey? cd j with
     | some (.dict _) => true
     | _ => false)

/-- The pipeline dict of a `prepare_run_with` result. -/
def runDict (r : Except String (PyDict × List (String × String) × Nat × Nat)) : PyDict :=
  match r with
  | .ok x => x.1
  | .error _ => []

/-- The final process environment of a `prepare_run_with` result. -/
def runEnv (r : Except String (PyDict × List (String × String) × Nat × Nat)) :
    List (String × String) :=
  match r with
  | .ok x => x.2.1
  | .error _ => []

/-- C1 counterexample input: a mapping root whose job declares `script` as
a mapping; `extract_str_list` falls back to `[]`, which is falsy, so
`_job_script_always_list` leaves the mapping in place. -/
def c1input : Val := .dict [("job1", .dict [("script", .dict [("a", .str "b")])])]

/-- C4 counterexample input: a mapping root with a scalar-valued job. -/
def c4input : Val := .dict [("job1", .str "hello")]

/-- C8 failing input: artifacts declaring both `name` and `expire_in`. -/
def c8input : Val := .dict [("j", .dict [("script", .list [.str "x"]),
  ("artifacts", .dict [("name", .str "N"), ("expire_in", .str "7 days")])])]

/-- The same job without a declared `expire_in`. -/
def c8inputNoExpire : Val := .dict [("j", .dict [("script", .list [.str "x"]),
  ("artifacts", .dict [("name", .str "N")])])]

/-- C3 failing input: a job restricted to `only.refs = ["triggers"]`. -/
def c3input : Val := .dict [("t", .dict [("script", .list [.str "make"]),
  ("only", .dict [("refs", .list [.str "triggers"])])])]

/-- The parsed form of the C3 pipeline. -/
def c3parsed : PyDict := resultDict (parse_cidict defaultConfig c3input)

/-- C6: a job declaring `FOO=x`. -/
def c6jobA : Val := .dict [("script", .list [.str "x"]),
  ("variables", .dict [("FOO", .str "x")])]

/-- C6: a job whose eligibility condition reads `$FOO`. -/
def c6jobB : Val := .dict [("script", .list [.str "x"]),
  ("only", .dict [("refs", .list [.str "master"]),
    ("variables", .list [.str "$FOO == \"x\""])])]

/-- C6 pipeline with `a` evaluated before `b`. -/
def c6inputAB : Val := .dict [("a", c6jobA), ("b", c6jobB)]

/-- C6 pipeline with `b` evaluated before `a`. -/
def c6inputBA : Val := .dict [("b", c6jobB), ("a", c6jobA)]

/-- C2 counterexample input: a job depending on the reserved key `image`. -/
def c2input : Val := .dict [("a", .dict [("script", .list [.str "x"]),
  ("dependencies", .list [.str "image"])])]

/-- The C2 counterexample run. -/
def c2run : Except String (PyDict × List (String × String) × Nat × Nat) :=
  prepare_run_with defaultConfig (resultDict (parse_cidict defaultConfig c2input))
    [] 0 0 "master" "push" "m" "s" Option.none

/-- C5 counterexample input: pipeline `X=1`, job-declared `X=""`. -/
def c5input : Val := .dict [("variables", .dict [("X", .str "1")]),
  ("j", .dict [("script", .list [.str "s"]), ("variables", .dict [("X", .str "")])])]

/-- Job dict used by the C5 witness. -/
def c5wd : List (String × Val) := [("variables", Val.dict [("A", Val.str "x")])]

/-- Pipeline dict used by the C5 witness. -/
def c5wcd : PyDict := [("job1", Val.dict c5wd)]

/-- Heap values for the object-identity model of `convert_to_matrix` and
`get_cidict`: strings are immutable, lists and dicts are mutable cells
designated by addresses. -/
inductive HVal where
  | str (s : String)
  | listRef (a : Nat)
  | dictRef (a : Nat)
  deriving DecidableEq

/-- A heap of mutable Python list and dict objects. -/
structure Heap where
  lists : List (Nat × List HVal)
  dicts : List (Nat × List (String × HVal))
  next : Nat

/-- Content of the list object at address `a`. -/
def heapListGet (h : Heap) (a : Nat) : List HVal :=
  match h.lists.find? (fun kv => kv.1 == a) with
  | some kv => kv.2
  | Option.none => []

/-- Overwrite the list object at address `a`. -/
def heapListSet (h : Heap) (a : Nat) (xs : List HVal) : Heap :=
  { h with lists := h.lists.map (fun kv => if kv.1 == a then (kv.1, xs) else kv) }

/-- Python `lst.append(x)` through a reference. -/
def heapListAppend (h : Heap) (a : Nat) (x : HVal) : Heap :=
  heapListSet h a (heapListGet h a ++ [x])

/-- Content of the dict object at address `a`. -/
def heapDictGet (h : Heap) (a : Nat) : List (String × HVal) :=
  match h.dicts.find? (fun kv => kv.1 == a) with
  | some kv => kv.2
  | Option.none => []

/-- Allocate a fresh list object. -/
def allocList (h : Heap) (xs : List HVal) : Heap × Nat :=
  ({ h with lists := h.lists ++ [(h.next, xs)], next := h.next + 1 }, h.next)

/-- Allocate a fresh dict object. -/
def allocDict (h : Heap) (kvs : List (String × HVal)) : Heap × Nat :=
  ({ h with dicts := h.dicts ++ [(h.next, kvs)], next := h.next + 1 }, h.next)

/-- Python `==` on heap values as needed here: every stage value compared
by the matrix construction is a string in this model. -/
def hEq : HVal → HVal → Bool
  | .str a, .str b => a = b
  | .listRef a, .listRef b => a = b
  | .dictRef a, .dictRef b => a = b
  | _, _ => false

/-- `CiFile.convert_to_matrix` (lines 105-128) in the heap model.  The dict
literal of lines 117-121 stores `self._cidict["stages"]` and
`self._cidict["image"]` values as they are — for the mutable `stages` list
that is the reference, not a copy — and the groups of lines 122-127 store
the job dict objects themselves (`jobs[jobname] = job`).  Only the `jobs`
list, the per-stage group dicts and the pipeline dict are freshly
allocated. -/
def convert_to_matrix_heap (h0 : Heap) (cdAddr : Nat) : Heap × Nat :=
  let cd := heapDictGet h0 cdAddr
  let stagesV := (getKey? cd "stages").getD (.str "")
  let imageV := (getKey? cd "image").getD (.str "")
  let stageNames :=
    match stagesV with
    | .listRef a => heapListGet h0 a
    | _ => []
  let hg := stageNames.foldl
    (fun (acc : Heap × List HVal) stageV =>
      let group := cd.foldl
        (fun g kv =>
          if isReserved kv.1 then g
          else
            match kv.2 with
            | .dictRef ja =>
              (match getKey? (heapDictGet acc.1 ja) "stage" with
               | some sv => if hEq sv stageV then g ++ [(kv.1, HVal.dictRef ja)] else g
               | Option.none => g)
            | _ => g)
        []
      let hga := allocDict acc.1 group
      (hga.1, acc.2 ++ [HVal.dictRef hga.2]))
    (h0, [])
  let hjobs := allocList hg.1 hg.2
  let hp := allocDict hjobs.1
    [("jobs", .listRef hjobs.2), ("stages", stagesV), ("image", imageV)]
  (hp.1, hp.2)

/-- `copy.deepcopy` in the heap model: fuel-bounded recursion over the
reference structure (the fuel is ample for the finite, acyclic structures
built here); every reachable list and dict object is copied into a fresh
cell. -/
def deepcopyHVal (fuel : Nat) (h : Heap) (v : HVal) : Heap × HVal :=
  match fuel with
  | 0 => (h, v)
  | fuel+1 =>
    match v with
    | .str s => (h, .str s)
    | .listRef a =>
      let hxs := (heapListGet h a).foldl
        (fun (acc : Heap × List HVal) x =>
          let hx := deepcopyHVal fuel acc.1 x
          (hx.1, acc.2 ++ [hx.2]))
        (h, [])
      let hb := allocList hxs.1 hxs.2
      (hb.1, .listRef hb.2)
    | .dictRef a =>
      let hkvs := (heapDictGet h a).foldl
        (fun (acc : Heap × List (String × HVal)) kv =>
          let hv := deepcopyHVal fuel acc.1 kv.2
          (hv.1, acc.2 ++ [(kv.1, hv.2)]))
        (h, [])
      let hb := allocDict hkvs.1 hkvs.2
      (hb.1, .dictRef hb.2)

/-- `CiFile.get_cidict` (lines 197-202): `deepcopy(self._cidict)`. -/
def get_cidict_heap (h : Heap) (cdAddr : Nat) : Heap × Nat :=
  match deepcopyHVal (h.lists.length + h.dicts.length + 1) h (.dictRef cdAddr) with
  | (h2, .dictRef b) => (h2, b)
  | (h2, _) => (h2, cdAddr)

/-- The content of the `stages` list reachable from the pipeline dict at
`cdAddr`. -/
def stagesListOfPipeline (h : Heap) (cdAddr : Nat) : List HVal :=
  match getKey? (heapDictGet h cdAddr) "stages" with
  | some (.listRef a) => heapListGet h a
  | _ => []

/-- The address of the `stages` list stored in the dict at `a`
(999 when absent; never hit in the concrete instances below). -/
def stagesAddrOf (h : Heap) (a : Nat) : Nat :=
  match getKey? (heapDictGet h a) "stages" with
  | some (.listRef b) => b
  | _ => 999

/-- A concrete canonical pipeline laid out in the heap: the internal
cidict at dict address 0, its stages list at list address 1, the job dict
at address 2, its script list at address 3. -/
def c7heap : Heap :=
  { lists := [(1, [.str "test"]), (3, [.str "make"])],
    dicts := [(0, [("stages", .listRef 1), ("image", .str "img"), ("job1", .dictRef 2)]),
              (2, [("stage", .str "test"), ("script", .listRef 3)])],
    next := 4 }

/-- The heap and matrix address after `convert_to_matrix`. -/
def c7afterMatrix : Heap × Nat := convert_to_matrix_heap c7heap 0

/-- The heap after appending `"X"` to the stages list obtained FROM THE
MATRIX (i.e. through the reference the caller received). -/
def c7mutatedViaMatrix : Heap :=
  heapListAppend c7afterMatrix.1 (stagesAddrOf c7afterMatrix.1 c7afterMatrix.2) (.str "X")

/-- The heap and copy address after `get_cidict`. -/
def c7afterCopy : Heap × Nat := get_cidict_heap c7heap 0

/-- The heap after appending `"X"` to the stages list of the `get_cidict`
copy. -/
def c7mutatedViaCopy : Heap :=
  heapListAppend c7afterCopy.1 (stagesAddrOf c7afterCopy.1 c7afterCopy.2) (.str "X")

/-- The dependency values a non-reserved dict job subjects to the pruning
check (`none` for reserved keys, non-dict entries, or entries the scan
would raise on before checking). -/
def entryDeps? (kv : String × Val) : Option (List Val) :=
  match kv.2 with
  | .dict d =>
    if isReserved kv.1 then Option.none
    else
      match pyGetItemStr (.dict d) "dependencies" with
      | .ok depsV =>
        match pyIter depsV with
        | .ok deps => some deps
        | .error _ => Option.none
      | .error _ => Option.none
  | _ => Option.none

/-- One entry's dependency check: a non-reserved dict job whose
`dependencies` value is present and iterable has all its dependency values
matched against the keys of `cd`. -/
def entryDepsOk (cd : PyDict) (kv : String × Val) : Bool :=
  match entryDeps? kv with
  | some deps => deps.all (fun dep => depMatched cd dep)
  | Option.none => true

/-- The whole dict is closed under the dependency relation, up to dict
keys: every remaining job's dependencies all name keys of the dict. -/
def depsClosedB (cd : PyDict) : Bool :=
  cd.all (entryDepsOk cd)

/-- The dependency-closure observation on a whole `prepare_run_with`
result (errors are not in the claim's scope). -/
def runClosed (r : Except String (PyDict × List (String × String) × Nat × Nat)) : Bool :=
  match r with
  | .ok x => depsClosedB x.1
  | .error _ => true

/-- The pruning loop reaches its fixed point: whenever it returns
successfully, another scan would remove nothing. -/
def pruneFixedB (cd : PyDict) : Bool :=
  match pruneLoop cd with
  | .ok cd2 =>
    (match findRemovable cd2 with
     | .ok Option.none => true
     | _ => false)
  | .error _ => true

/-- Python `x in xs` membership of a value in a list, by `==`. -/
def memV (x : Val) (L : List Val) : Bool := L.any (fun y => pyEq y x)

/-- Every element of a stages list is a nonempty string. -/
def stagesStrs (L : List Val) : Bool :=
  L.all (fun x => match x with | .str s => !(s == "") | _ => false)

/-- The field `k` of a job dict holds a list. -/
def fieldIsList (d : List (String × Val)) (k : String) : Bool :=
  match getKey? d k with | some (.list _) => true | _ => false

/-- The field `k` of a dict is absent or holds a dict. -/
def fieldAbsentOrDict (d : List (String × Val)) (k : String) : Bool :=
  match getKey? d k with
  | Option.none => true
  | some (.dict _) => true
  | some _ => false

/-- Well-formed declared `stage`: absent, or not coercing to the empty
string (a value `extract_str` maps to `""` would escape the stages list). -/
def stageShapeW (d : List (String × Val)) : Bool :=
  match getKey? d "stage" with
  | Option.none => true
  | some v => !(extract_str_core v == some "")

/-- Well-formed declared `script`: absent, a string, or a list. -/
def scriptShapeW (d : List (String × Val)) : Bool :=
  match getKey? d "script" with
  | Option.none => true
  | some (.str _) => true
  | some (.list _) => true
  | some _ => false

/-- Well-formed declared `artifacts`: absent, or a dict that declares `name`
whenever it declares `expire_in` (line 359 reads `name` under the
`expire_in` presence test). -/
def artifactsShapeW (d : List (String × Val)) : Bool :=
  match getKey? d "artifacts" with
  | Option.none => true
  | some (.dict a) => !hasKey a "expire_in" || hasKey a "name"
  | some _ => false

/-- A bare-list job convertible by `_job_convert_list_to_script`: the
coerced string list is nonempty. -/
def listConvertible (xs : List Val) : Bool :=
  !((extract_str_list_core (.list xs)).getD []).isEmpty

/-- Shape of a declared `before_script`/`after_script` value. -/
def basValB (v : Val) : Bool :=
  match v with | .str _ => true | .list _ => true | _ => false

/-- Pipeline-level `before_script`/`after_script` key: absent, string or
list (anything else makes `len()` raise in the conversion pass). -/
def basShapeW (cd : PyDict) (k : String) : Bool :=
  match getKey? cd k with
  | Option.none => true
  | some v => basValB v

/-- Pipeline-level `stages` key: absent or a list of nonempty strings. -/
def stagesShapeW (cd : PyDict) : Bool :=
  match getKey? cd "stages" with
  | Option.none => true
  | some (.list L) => stagesStrs L
  | some _ => false

/-- The field conditions of a well-formed job dict other than `stage`. -/
def jobRestW (d : List (String × Val)) : Bool :=
  scriptShapeW d && fieldAbsentOrDict d "variables" &&
  fieldAbsentOrDict d "only" && artifactsShapeW d

/-- A well-formed non-reserved entry: a dict with well-formed fields, or a
convertible bare list. -/
def jobW (v : Val) : Bool :=
  match v with
  | .dict d => stageShapeW d && jobRestW d
  | .list xs => listConvertible xs
  | _ => false

/-- Every non-reserved entry of the pipeline dict satisfies `JP`. -/
def allJobs (cd : PyDict) (JP : Val → Bool) : Bool :=
  cd.all (fun kv => isReserved kv.1 || JP kv.2)

/-- The well-formed input class of the amended C1 claim. -/
def WinputB (cfg : Config) (cd : PyDict) : Bool :=
  !(cfg.default_stage == "") && stagesShapeW cd &&
  basShapeW cd "before_script" && basShapeW cd "after_script" &&
  allJobs cd jobW

/-- An assigned job stage: a nonempty string that is `==`-contained in the
stages list `L`. -/
def stageAssigned (L : List Val) (d : List (String × Val)) : Bool :=
  match getKey? d "stage" with
  | some (.str s) => !(s == "") && memV (.str s) L
  | _ => false

/-- Job shape between the list conversion and the second stage scan. -/
def jobDW (v : Val) : Bool :=
  match v with
  | .dict d => stageShapeW d && jobRestW d
  | _ => false

/-- Job shape after the second stage scan. -/
def jobM4 (L : List Val) (v : Val) : Bool :=
  match v with
  | .dict d => stageAssigned L d && jobRestW d
  | _ => false

/-- Job shape after `_job_various_tweaks`. -/
def jobM6 (L : List Val) (v : Val) : Bool :=
  match v with
  | .dict d => stageAssigned L d && jobRestW d &&
      fieldIsList d "tags" && fieldIsList d "dependencies"
  | _ => false

/-- Job shape after `_job_script_always_list`. -/
def jobM7 (L : List Val) (v : Val) : Bool :=
  match v with
  | .dict d => stageAssigned L d && fieldIsList d "script" &&
      fieldAbsentOrDict d "variables" && fieldAbsentOrDict d "only" &&
      artifactsShapeW d && fieldIsList d "tags" && fieldIsList d "dependencies"
  | _ => false

/-- Job shape after `_job_combine_variables`. -/
def jobM8 (L : List Val) (v : Val) : Bool :=
  match v with
  | .dict d => stageAssigned L d && fieldIsList d "script" &&
      fieldAbsentOrDict d "only" && artifactsShapeW d &&
      fieldIsList d "tags" && fieldIsList d "dependencies"
  | _ => false

/-- A fully populated `only` record. -/
def onlyFull (d : List (String × Val)) : Bool :=
  match getKey? d "only" with
  | some (.dict o) => fieldIsList o "refs" && fieldIsList o "variables"
  | _ => false

/-- A fully populated `artifacts` record. -/
def artifactsFull (d : List (String × Val)) : Bool :=
  match getKey? d "artifacts" with
  | some (.dict a) => hasKey a "name" && hasKey a "expire_in" && hasKey a "paths"
  | _ => false

/-- Job shape after `_job_streamline_only`. -/
def jobM9 (L : List Val) (v : Val) : Bool :=
  match v with
  | .dict d => stageAssigned L d && fieldIsList d "script" &&
      onlyFull d && artifactsShapeW d &&
      fieldIsList d "tags" && fieldIsList d "dependencies"
  | _ => false

/-- The canonical job shape claimed by the spec: a dict with a stage
contained in the stages list, list-valued script, tags and dependencies,
and fully populated artifacts and only records. -/
def canonJobB (L : List Val) (v : Val) : Bool :=
  match v with
  | .dict d => stageAssigned L d && fieldIsList d "script" &&
      fieldIsList d "tags" && fieldIsList d "dependencies" &&
      artifactsFull d && onlyFull d
  | _ => false

/-- The canonical-pipeline shape: normalization succeeded, `stages` is a
list, and every non-reserved entry is a canonical job. -/
def canonOKB (r : Except String PyDict) : Bool :=
  match r with
  | .ok cd =>
    (match getKey? cd "stages" with
     | some (.list L) => allJobs cd (canonJobB L)
     | _ => false)
  | _ => false

/-- The per-entry body of the apply loop of `_job_scan_apply_stages`, with
the stages value as a parameter. -/
def scanApplyBody (stages : Val) : String → Val → Except String Val :=
  fun jobname v =>
    match v with
    | .dict d =>
      if isReserved jobname then pure (.dict d)
      else do
        let s0 ← pySubscript0 stages
        let obj := (getKey? d "stage").getD s0
        let stage :=
          match extract_str_core obj with
          | some s => Val.str s
          | Option.none => s0
        pure (.dict (setKey d "stage" stage))
    | _ => pure v

/-- The per-entry body of `_job_convert_list_to_script`. -/
def convListBody (kv : String × Val) : String × Val :=
  if !isReserved kv.1 then
    match kv.2 with
    | Val.list xs =>
      if ((extract_str_list_core (.list xs)).getD []) ≠ [] then
        (kv.1, Val.dict
          [("script", .list (((extract_str_list_core (.list xs)).getD []).map .str))])
      else kv
    | _ => kv
  else kv

/-- The stages-splicing branch of `convertScriptKey`, taken when the
declared value has positive length. -/
def convertBranch (jobkey : String) (cd : PyDict) (sv : Val) : Except String PyDict :=
  match getKey? (setKey (popKey cd jobkey) (replaceChar '_' ':' jobkey)
      (.dict [("stage", .str jobkey), ("script", sv)])) "stages" with
  | some stagesV =>
    if jobkey = "before_script" then
      match stagesV with
      | .list xs => pure (setKey (setKey (popKey cd jobkey) (replaceChar '_' ':' jobkey)
          (.dict [("stage", .str jobkey), ("script", sv)])) "stages"
          (.list (.str jobkey :: xs)))
      | _ => .error "AttributeError: object has no attribute insert"
    else
      pyAppend stagesV (.str jobkey) >>= fun st2 =>
        pure (setKey (setKey (popKey cd jobkey) (replaceChar '_' ':' jobkey)
          (.dict [("stage", .str jobkey), ("script", sv)])) "stages" st2)
  | Option.none => .error "KeyError: stages"

/-- The per-entry body of `_job_various_tweaks`. -/
def variousTweaksBody : String → Val → Except String Val :=
  fun jobname job =>
    if isReserved jobname then pure job
    else do
      let job ← ensureStrList job "tags"
      ensureStrList job "dependencies"

/-- The per-entry body of `_job_script_always_list`. -/
def scriptAlwaysBody : String → Val → Except String Val :=
  fun jobname job =>
    if isReserved jobname then pure job
    else do
      let c ← pyInStr "script" job
      let job ← if c then pure job else pySetItemStr job "script" (.list [])
      let sv ← pyGetItemStr job "script"
      let script := (extract_str_list_core sv).getD []
      if script ≠ [] then pySetItemStr job "script" (.list (script.map .str))
      else pure job

/-- The per-entry body of `_job_streamline_only`. -/
def streamlineOnlyBody : String → Val → Except String Val :=
  fun jobname job =>
    if isReserved jobname then pure job
    else do
      let c ← pyInStr "only" job
      let job ← if c then pure job else pySetItemStr job "only" (.dict [])
      let only ← pyGetItemStr job "only"
      let found := extract_str_list only []
      let cv ← pyInStr "variables" only
      let found ←
        if cv then do
          let x ← pyGetItemStr only "variables"
          pure (found ++ extract_str_list x [])
        else pure found
      let cr ← pyInStr "refs" only
      let found ←
        if cr then do
          let x ← pyGetItemStr only "refs"
          pure (found ++ extract_str_list x [])
        else pure found
      let found := found.filter (fun v => v ≠ "refs" && v ≠ "variables")
      pySetItemStr job "only" (.dict
        [("refs", .list ((found.filter (fun v => !startsWithChar '$' v)).map .str)),
         ("variables", .list ((found.filter (fun v => startsWithChar '$' v)).map .str))])

/-- The per-entry body of `_job_streamline_artifacts`. -/
def streamlineArtifactsBody (cfg : Config) : String → Val → Except String Val :=
  fun jobname job =>
    if isReserved jobname then pure job
    else do
      let hasArt ← pyInStr "artifacts" job
      if hasArt then do
        let av ← pyGetItemStr job "artifacts"
        let paths0 : List String :=
          match av with
          | .list _ => extract_str_list av []
          | _ => []
        let cp ← pyInStr "paths" av
        let paths1 ←
          if cp then do
            let x ← pyGetItemStr av "paths"
            pure (extract_str_list x [])
          else pure paths0
        let cn ← pyInStr "name" av
        let nameV ← if cn then pyGetItemStr av "name"
          else pure (.str cfg.default_artifact_name)
        let ce ← pyInStr "expire_in" av
        let expV ← if ce then pyGetItemStr av "name"
          else pure (.str cfg.default_artifact_expire_in)
        pySetItemStr job "artifacts" (.dict
          [("name", nameV), ("expire_in", expV), ("paths", .list (paths1.map .str))])
      else
        pySetItemStr job "artifacts" (.dict
          [("name", .str cfg.default_artifact_name),
           ("expire_in", .str cfg.default_artifact_expire_in),
           ("paths", .list [])])

/-- C1 witness input: a single list-script job. -/
def c1w : PyDict := [("job1", Val.dict [("script", Val.list [Val.str "make"])])]

theorem lengthDropWhileLe {α : Type} (p : α → Bool) (l : List α) :
    (l.dropWhile p).length ≤ l.length := by
  induction l with
  | nil => simp [List.dropWhile]
  | cons a l ih =>
    simp only [List.dropWhile]
    cases p a
    · simp
    · simpa using Nat.le_succ_of_le ih

theorem braceSplit_tail_lt :
    ∀ (cs inner tail : List Char), braceSplit cs = some (inner, tail) →
      tail.length < cs.length := by
  intro cs
  induction cs with
  | nil => intro inner tail h; simp [braceSplit] at h
  | cons c rest ih =>
    intro inner tail h
    simp only [braceSplit] at h
    by_cases hc : c = '}'
    · rw [if_pos hc] at h
      cases h
      simp
    · rw [if_neg hc] at h
      match hb : braceSplit rest with
      | Option.none => rw [hb] at h; simp at h
      | some (i2, t2) =>
        rw [hb] at h
        simp only [Option.map_some'] at h
        cases h
        exact Nat.lt_succ_of_lt (ih _ _ hb)

theorem findRemovableAux_mem (cd : PyDict) :
    ∀ (l : PyDict) (acc : Option String) (j : String),
      findRemovableAux cd l acc = .ok (some j) →
      (∃ kv ∈ l, kv.1 = j) ∨ acc = some j := by
  intro l
  induction l with
  | nil =>
    intro acc j h
    simp only [findRemovableAux] at h
    cases h
    exact Or.inr rfl
  | cons kv rest ih =>
    intro acc j h
    obtain ⟨jobname, job⟩ := kv
    have hA : findRemovableAux cd rest acc = .ok (some j) →
        (∃ kv2 ∈ (jobname, job) :: rest, kv2.1 = j) ∨ acc = some j := by
      intro hh
      rcases ih acc j hh with h1 | h2
      · obtain ⟨kv2, hm, hk⟩ := h1
        exact Or.inl ⟨kv2, List.mem_cons_of_mem _ hm, hk⟩
      · exact Or.inr h2
    have hB : findRemovableAux cd rest (some jobname) = .ok (some j) →
        (∃ kv2 ∈ (jobname, job) :: rest, kv2.1 = j) ∨ acc = some j := by
      intro hh
      rcases ih (some jobname) j hh with h1 | h2
      · obtain ⟨kv2, hm, hk⟩ := h1
        exact Or.inl ⟨kv2, List.mem_cons_of_mem _ hm, hk⟩
      · injection h2 with h2
        exact Or.inl ⟨(jobname, job), List.mem_cons_self _ _, h2⟩
    cases job
    case dict d =>
      simp only [findRemovableAux] at h
      by_cases hres : isReserved jobname = true
      · rw [if_pos hres] at h
        exact hA h
      · rw [if_neg hres] at h
        simp only [Bind.bind] at h
        cases hd : pyGetItemStr (.dict d) "dependencies" with
        | error e => rw [hd] at h; simp [Except.bind] at h
        | ok depsV =>
          rw [hd] at h
          simp only [Except.bind] at h
          cases hi : pyIter depsV with
          | error e => rw [hi] at h; simp [Except.bind] at h
          | ok deps =>
            rw [hi] at h
            simp only [Except.bind] at h
            by_cases hmiss : (deps.any (fun dep => !depMatched cd dep)) = true
            · rw [if_pos hmiss] at h
              exact hB h
            · rw [if_neg hmiss] at h
              exact hA h
    all_goals (simp only [findRemovableAux] at h; exact hA h)

theorem findRemovable_mem (cd : PyDict) (j : String)
    (h : findRemovable cd = .ok (some j)) : ∃ kv ∈ cd, kv.1 = j := by
  rcases findRemovableAux_mem cd cd Option.none j h with h1 | h2
  · exact h1
  · cases h2

theorem filterNe_length_lt (j : String) :
    ∀ (l : PyDict), (∃ kv ∈ l, kv.1 = j) →
      (l.filter (fun kv => kv.1 ≠ j)).length < l.length := by
  intro l
  induction l with
  | nil => intro h; obtain ⟨kv, hmem, _⟩ := h; simp at hmem
  | cons kv rest ih =>
    intro h
    by_cases hk : kv.1 = j
    · have hle : (rest.filter (fun kv => kv.1 ≠ j)).length ≤ rest.length :=
        List.length_filter_le _ rest
      have heq2 : List.filter (fun kv => decide (kv.1 ≠ j)) (kv :: rest)
          = rest.filter (fun kv => kv.1 ≠ j) := by
        simp [List.filter_cons, hk]
      rw [heq2]
      simp only [List.length_cons]
      omega
    · obtain ⟨kv2, hmem, hk2⟩ := h
      rcases List.mem_cons.mp hmem with heq | hmem2
      · exact absurd (heq ▸ hk2) hk
      · have hlt := ih ⟨kv2, hmem2, hk2⟩
        have heq2 : List.filter (fun kv => decide (kv.1 ≠ j)) (kv :: rest)
            = kv :: rest.filter (fun kv => kv.1 ≠ j) := by
          simp [List.filter_cons, hk]
        rw [heq2]
        simp only [List.length_cons]
        omega

/-- With enough fuel the pruning loop really reaches the fixed point: a
successful result is never picked from again. -/
theorem pruneLoopFuel_fixed :
    ∀ (fuel : Nat) (cd cd2 : PyDict), cd.length < fuel →
      pruneLoopFuel fuel cd = .ok cd2 → findRemovable cd2 = .ok Option.none := by
  intro fuel
  induction fuel with
  | zero => intro cd cd2 hlen _; omega
  | succ fuel ih =>
    intro cd cd2 hlen h
    simp only [pruneLoopFuel] at h
    cases hf : findRemovable cd with
    | error e => rw [hf] at h; cases h
    | ok o =>
      cases o with
      | none => rw [hf] at h; cases h; exact hf
      | some j =>
        rw [hf] at h
        have hmem := findRemovable_mem cd j hf
        have hlt := filterNe_length_lt j cd hmem
        exact ih _ _ (by omega) h

/-- The pruning loop reaches the fixed point: starting from any dict, the
result (when no error is raised) has no removable job left. -/
theorem pruneLoop_fixed (cd cd2 : PyDict) (h : pruneLoop cd = .ok cd2) :
    findRemovable cd2 = .ok Option.none :=
  pruneLoopFuel_fixed (cd.length + 1) cd cd2 (Nat.lt_succ_self _) h

theorem getKey?_setKey_self {α : Type} (d : List (String × α)) (k : String) (v : α) :
    getKey? (setKey d k v) k = some v := by
  induction d with
  | nil => simp [setKey, getKey?]
  | cons kv rest ih =>
    obtain ⟨k', v'⟩ := kv
    by_cases hk : k' = k
    · simp [setKey, hk, getKey?]
    · simp only [setKey]
      rw [if_neg hk]
      simp only [getKey?]
      rw [if_neg hk]
      exact ih

theorem getKey?_setKey_ne {α : Type} (d : List (String × α)) (k k' : String) (v : α)
    (h : k' ≠ k) : getKey? (setKey d k v) k' = getKey? d k' := by
  induction d with
  | nil =>
    simp only [setKey, getKey?]
    rw [if_neg (fun hh => h hh.symm)]
  | cons kv rest ih =>
    obtain ⟨k0, v0⟩ := kv
    by_cases hk : k0 = k
    · subst hk
      simp only [setKey, if_pos rfl, getKey?]
      rw [if_neg (fun hh => h hh.symm), if_neg (fun hh => h hh.symm)]
    · simp only [setKey, if_neg hk, getKey?]
      by_cases hk2 : k0 = k'
      · rw [if_pos hk2, if_pos hk2]
      · rw [if_neg hk2, if_neg hk2]
        exact ih

theorem getKey?_eq_none_of_not_hasKey {α : Type} (d : List (String × α)) (k : String)
    (h : hasKey d k = false) : getKey? d k = Option.none := by
  induction d with
  | nil => simp [getKey?]
  | cons kv rest ih =>
    simp only [hasKey] at h
    simp only [getKey?]
    by_cases hk : kv.1 = k
    · rw [if_pos hk] at h; cases h
    · rw [if_neg hk] at h
      rw [if_neg hk]
      exact ih h

theorem hasKey_of_getKey?_some {α : Type} (d : List (String × α)) (k : String) {v : α}
    (h : getKey? d k = some v) : hasKey d k = true := by
  induction d with
  | nil => simp [getKey?] at h
  | cons kv rest ih =>
    simp only [getKey?] at h
    simp only [hasKey]
    by_cases hk : kv.1 = k
    · rw [if_pos hk]
    · rw [if_neg hk] at h
      rw [if_neg hk]
      exact ih h

theorem hasKey_setKey_self {α : Type} (d : List (String × α)) (k : String) (v : α) :
    hasKey (setKey d k v) k = true := by
  induction d with
  | nil => simp [setKey, hasKey]
  | cons kv rest ih =>
    obtain ⟨k0, v0⟩ := kv
    by_cases hk : k0 = k
    · simp [setKey, hk, hasKey]
    · simp only [setKey]
      rw [if_neg hk]
      simp only [hasKey]
      rw [if_neg hk]
      exact ih

theorem hasKey_setKey_ne {α : Type} (d : List (String × α)) (k k' : String) (v : α)
    (h : k' ≠ k) : hasKey (setKey d k v) k' = hasKey d k' := by
  induction d with
  | nil =>
    simp only [setKey, hasKey]
    rw [if_neg (fun hh => h hh.symm)]
  | cons kv rest ih =>
    obtain ⟨k0, v0⟩ := kv
    by_cases hk : k0 = k
    · subst hk
      simp [setKey, hasKey]
    · simp only [setKey]
      rw [if_neg hk]
      simp only [hasKey]
      by_cases hk2 : k0 = k'
      · rw [if_pos hk2, if_pos hk2]
      · rw [if_neg hk2, if_neg hk2]
        exact ih

theorem getKey?_popKey_ne {α : Type} (d : List (String × α)) (k k' : String)
    (h : k' ≠ k) : getKey? (popKey d k) k' = getKey? d k' := by
  induction d with
  | nil => rfl
  | cons kv rest ih =>
    obtain ⟨k0, v0⟩ := kv
    by_cases hk : k0 = k
    · have : popKey ((k0, v0) :: rest) k = popKey rest k := by
        simp [popKey, List.filter_cons, hk]
      rw [this, ih]
      simp only [getKey?]
      rw [if_neg (fun hh => h (by rw [← hh]; exact hk))]
    · have : popKey ((k0, v0) :: rest) k = (k0, v0) :: popKey rest k := by
        simp [popKey, List.filter_cons, hk]
      rw [this]
      simp only [getKey?]
      by_cases hk2 : k0 = k'
      · rw [if_pos hk2, if_pos hk2]
      · rw [if_neg hk2, if_neg hk2]
        exact ih

theorem hasKey_popKey_self {α : Type} (d : List (String × α)) (k : String) :
    hasKey (popKey d k) k = false := by
  induction d with
  | nil => rfl
  | cons kv rest ih =>
    obtain ⟨k0, v0⟩ := kv
    by_cases hk : k0 = k
    · have : popKey ((k0, v0) :: rest) k = popKey rest k := by
        simp [popKey, List.filter_cons, hk]
      rw [this, ih]
    · have : popKey ((k0, v0) :: rest) k = (k0, v0) :: popKey rest k := by
        simp [popKey, List.filter_cons, hk]
      rw [this]
      simp only [hasKey]
      rw [if_neg hk]
      exact ih

theorem setKey_id {α : Type} (d : List (String × α)) (k : String) (v : α)
    (h : getKey? d k = some v) : setKey d k v = d := by
  induction d with
  | nil => simp [getKey?] at h
  | cons kv rest ih =>
    obtain ⟨k0, v0⟩ := kv
    simp only [getKey?] at h
    by_cases hk : k0 = k
    · rw [if_pos hk] at h
      injection h with h
      simp [setKey, hk, ← h]
    · rw [if_neg hk] at h
      simp only [setKey]
      rw [if_neg hk, ih h]

theorem setKey_append_of_not_hasKey {α : Type} (d : List (String × α)) (k : String)
    (v : α) (h : hasKey d k = false) : setKey d k v = d ++ [(k, v)] := by
  induction d with
  | nil => rfl
  | cons kv rest ih =>
    obtain ⟨k0, v0⟩ := kv
    simp only [hasKey] at h
    by_cases hk : k0 = k
    · rw [if_pos hk] at h
      cases h
    · rw [if_neg hk] at h
      simp only [setKey]
      rw [if_neg hk, ih h]
      rfl

theorem keys_setKey {α : Type} (d : List (String × α)) (k : String) (v : α) :
    (setKey d k v).map Prod.fst =
      if hasKey d k then d.map Prod.fst else d.map Prod.fst ++ [k] := by
  induction d with
  | nil => simp [setKey, hasKey]
  | cons kv rest ih =>
    obtain ⟨k0, v0⟩ := kv
    by_cases hk : k0 = k
    · simp [setKey, hk, hasKey]
    · simp only [setKey]
      rw [if_neg hk]
      simp only [List.map_cons, ih, hasKey]
      rw [if_neg hk]
      by_cases hh : hasKey rest k
      · rw [if_pos hh, if_pos hh]
      · rw [if_neg hh, if_neg hh]
        simp

theorem mem_keys_of_hasKey {α : Type} (d : List (String × α)) (k : String)
    (h : hasKey d k = true) : k ∈ d.map Prod.fst := by
  induction d with
  | nil => simp [hasKey] at h
  | cons kv rest ih =>
    simp only [hasKey] at h
    by_cases hk : kv.1 = k
    · simp [← hk]
    · rw [if_neg hk] at h
      simp only [List.map_cons, List.mem_cons]
      exact Or.inr (ih h)

theorem hasKey_of_mem_keys {α : Type} (d : List (String × α)) (k : String)
    (h : k ∈ d.map Prod.fst) : hasKey d k = true := by
  induction d with
  | nil => simp at h
  | cons kv rest ih =>
    simp only [List.map_cons, List.mem_cons] at h
    simp only [hasKey]
    by_cases hk : kv.1 = k
    · rw [if_pos hk]
    · rw [if_neg hk]
      rcases h with h1 | h2
      · exact absurd h1.symm hk
      · exact ih h2

theorem keysNodup_setKey {α : Type} (d : List (String × α)) (k : String) (v : α)
    (h : (d.map Prod.fst).Nodup) : ((setKey d k v).map Prod.fst).Nodup := by
  rw [keys_setKey]
  by_cases hh : hasKey d k
  · rw [if_pos hh]
    exact h
  · rw [if_neg hh]
    apply List.Nodup.append h (List.nodup_singleton k)
    intro a ha hb
    simp only [List.mem_singleton] at hb
    subst hb
    exact hh (hasKey_of_mem_keys d a ha)

theorem mem_setKey {α : Type} (d : List (String × α)) (k : String) (v : α) :
    ∀ kv ∈ setKey d k v, kv ∈ d ∨ kv = (k, v) := by
  induction d with
  | nil =>
    intro kv h
    simp only [setKey, List.mem_singleton] at h
    exact Or.inr h
  | cons kv0 rest ih =>
    intro kv h
    obtain ⟨k0, v0⟩ := kv0
    simp only [setKey] at h
    by_cases hk : k0 = k
    · rw [if_pos hk] at h
      rcases List.mem_cons.mp h with h1 | h2
      · exact Or.inr h1
      · exact Or.inl (List.mem_cons_of_mem _ h2)
    · rw [if_neg hk] at h
      rcases List.mem_cons.mp h with h1 | h2
      · exact Or.inl (h1 ▸ List.mem_cons_self _ _)
      · rcases ih kv h2 with h3 | h4
        · exact Or.inl (List.mem_cons_of_mem _ h3)
        · exact Or.inr h4

theorem extract_str_dict_keysNodup (v : Val) :
    ((extract_str_dict v).map Prod.fst).Nodup := by
  cases v
  case dict kvs =>
    have main : ∀ (l : List (String × Val)) (ret : List (String × String)),
        (ret.map Prod.fst).Nodup →
        ((l.foldl
          (fun ret kv =>
            match extract_str_core kv.2 with
            | some s => if s ≠ "" then setKey ret kv.1 s else ret
            | Option.none => ret)
          ret).map Prod.fst).Nodup := by
      intro l
      induction l with
      | nil => intro ret h; exact h
      | cons kv rest ih =>
        intro ret h
        simp only [List.foldl_cons]
        apply ih
        cases hes : extract_str_core kv.2 with
        | none => simpa [hes] using h
        | some s =>
          by_cases hs : s = ""
          · simpa [hes, hs] using h
          · simp only [hes, ne_eq, hs, not_false_eq_true, if_true]
            exact keysNodup_setKey ret kv.1 s h
    exact main kvs [] (by simp)
  all_goals simp [extract_str_dict]

theorem getKey?_fillFold (pv : List (String × String)) :
    ∀ (m : List (String × Val)) (X : String),
      getKey? (pv.foldl
        (fun jv p => if hasKey jv p.1 then jv else setKey jv p.1 (.str p.2)) m) X =
        if hasKey m X then getKey? m X
        else (getKey? pv X).map (fun s => Val.str s) := by
  induction pv with
  | nil =>
    intro m X
    simp only [List.foldl_nil]
    by_cases hh : hasKey m X
    · rw [if_pos hh]
    · rw [if_neg hh, getKey?_eq_none_of_not_hasKey m X
        (by cases hb : hasKey m X; rfl; exact absurd hb hh)]
      rfl
  | cons p pv ih =>
    intro m X
    obtain ⟨k0, s0⟩ := p
    simp only [List.foldl_cons]
    by_cases hk : k0 = X
    · subst hk
      by_cases hh : hasKey m k0
      · rw [show (if hasKey m k0 then m else setKey m k0 (.str s0)) = m from
          by rw [if_pos hh]]
        rw [ih m k0, if_pos hh, if_pos hh]
      · rw [show (if hasKey m k0 then m else setKey m k0 (.str s0))
            = setKey m k0 (.str s0) from by rw [if_neg hh]]
        rw [ih _ k0, if_pos (hasKey_setKey_self m k0 _), if_neg hh]
        rw [getKey?_setKey_self]
        simp [getKey?]
    · by_cases hh : hasKey m k0
      · rw [show (if hasKey m k0 then m else setKey m k0 (.str s0)) = m from
          by rw [if_pos hh]]
        rw [ih m X]
        simp only [getKey?]
        rw [if_neg hk]
      · rw [show (if hasKey m k0 then m else setKey m k0 (.str s0))
            = setKey m k0 (.str s0) from by rw [if_neg hh]]
        rw [ih _ X]
        rw [hasKey_setKey_ne m k0 X _ (fun hx => hk hx.symm)]
        rw [getKey?_setKey_ne m k0 X _ (fun hx => hk hx.symm)]
        simp only [getKey?]
        rw [if_neg hk]

theorem getKey?_setFold (fv : List (String × String)) :
    ∀ (m : List (String × Val)) (X : String), (fv.map Prod.fst).Nodup →
      getKey? (fv.foldl (fun jv cv => setKey jv cv.1 (.str cv.2)) m) X =
        (match getKey? fv X with
         | some s => some (Val.str s)
         | Option.none => getKey? m X) := by
  induction fv with
  | nil =>
    intro m X _
    rfl
  | cons p fv ih =>
    intro m X hnd
    obtain ⟨k0, s0⟩ := p
    simp only [List.map_cons, List.nodup_cons] at hnd
    obtain ⟨hk0, hndtail⟩ := hnd
    simp only [List.foldl_cons]
    rw [ih _ X hndtail]
    by_cases hk : k0 = X
    · subst hk
      have hfv : getKey? fv k0 = Option.none := getKey?_eq_none_of_not_hasKey _ _ (by
        cases hb : hasKey fv k0
        · rfl
        · exact absurd (mem_keys_of_hasKey fv k0 hb) hk0)
      rw [hfv]
      have hcons : getKey? ((k0, s0) :: fv) k0 = some s0 := by
        simp [getKey?]
      rw [hcons]
      show getKey? (setKey m k0 (Val.str s0)) k0 = some (Val.str s0)
      exact getKey?_setKey_self m k0 _
    · have hcons : getKey? ((k0, s0) :: fv) X = getKey? fv X := by
        simp only [getKey?]
        rw [if_neg hk]
      rw [hcons]
      cases hfv : getKey? fv X with
      | some s => rfl
      | none =>
        simp only
        exact getKey?_setKey_ne m k0 X _ (fun hx => hk hx.symm)

theorem getKey?_isSome_of_hasKey {α : Type} (d : List (String × α)) (k : String)
    (h : hasKey d k = true) : ∃ v, getKey? d k = some v := by
  induction d with
  | nil => simp [hasKey] at h
  | cons kv rest ih =>
    simp only [hasKey] at h
    simp only [getKey?]
    by_cases hk : kv.1 = k
    · rw [if_pos hk]
      exact ⟨kv.2, rfl⟩
    · rw [if_neg hk] at h
      rw [if_neg hk]
      exact ih h

theorem getKey?_of_mem_nodup {α : Type} (d : List (String × α)) (k : String) (v : α)
    (hmem : (k, v) ∈ d) (hnd : (d.map Prod.fst).Nodup) : getKey? d k = some v := by
  induction d with
  | nil => simp at hmem
  | cons kv rest ih =>
    simp only [List.map_cons, List.nodup_cons] at hnd
    obtain ⟨hk0, hndtail⟩ := hnd
    simp only [getKey?]
    rcases List.mem_cons.mp hmem with h1 | h2
    · rw [← h1]
      simp
    · by_cases hk : kv.1 = k
      · exfalso
        apply hk0
        rw [hk]
        exact List.mem_map.mpr ⟨(k, v), h2, rfl⟩
      · rw [if_neg hk]
        exact ih h2 hndtail

theorem popKey_id_of_not_hasKey {α : Type} (d : List (String × α)) (k : String)
    (h : hasKey d k = false) : popKey d k = d := by
  induction d with
  | nil => rfl
  | cons kv rest ih =>
    simp only [hasKey] at h
    by_cases hk : kv.1 = k
    · rw [if_pos hk] at h
      cases h
    · rw [if_neg hk] at h
      simp only [popKey, List.filter_cons]
      rw [if_pos (by simpa using hk)]
      have := ih h
      simp only [popKey] at this
      rw [this]

theorem strVals_mem {m : List (String × Val)} (h : strVals m = true)
    {kv : String × Val} (hmem : kv ∈ m) :
    ∃ s, kv.2 = Val.str s ∧ s ≠ "" := by
  have := (List.all_eq_true.mp h) kv hmem
  cases hv : kv.2 <;> rw [hv] at this <;> try cases this
  case str s => exact ⟨s, rfl, by simpa using this⟩

theorem strVals_setKey {m : List (String × Val)} (k : String) (s : String)
    (h : strVals m = true) (hs : s ≠ "") :
    strVals (setKey m k (.str s)) = true := by
  rw [strVals, List.all_eq_true]
  intro kv hmem
  rcases mem_setKey m k (.str s) kv hmem with h1 | h2
  · exact (List.all_eq_true.mp h) kv h1
  · subst h2
    simpa using hs

theorem extract_str_dict_vals_ne (v : Val) :
    ∀ kv ∈ extract_str_dict v, kv.2 ≠ "" := by
  cases v
  case dict kvs =>
    have main : ∀ (l : List (String × Val)) (ret : List (String × String)),
        (∀ kv ∈ ret, kv.2 ≠ "") →
        ∀ kv ∈ (l.foldl
          (fun ret kv =>
            match extract_str_core kv.2 with
            | some s => if s ≠ "" then setKey ret kv.1 s else ret
            | Option.none => ret)
          ret), kv.2 ≠ "" := by
      intro l
      induction l with
      | nil => intro ret h; exact h
      | cons kv0 rest ih =>
        intro ret h
        simp only [List.foldl_cons]
        apply ih
        intro kv hmem
        cases hes : extract_str_core kv0.2 with
        | none =>
          rw [hes] at hmem
          exact h kv hmem
        | some s =>
          simp only [hes] at hmem
          by_cases hs : s = ""
          · rw [if_neg (not_not_intro hs)] at hmem
            exact h kv hmem
          · rw [if_pos hs] at hmem
            rcases mem_setKey ret kv0.1 s kv hmem with h1 | h2
            · exact h kv h1
            · rw [h2]
              exact hs
    exact main kvs [] (by intro kv h; simp at h)
  all_goals (intro kv h; simp [extract_str_dict] at h)

theorem strVals_coercedVars (v : Val) : strVals (coercedVars v) = true := by
  rw [strVals, List.all_eq_true]
  intro kv hmem
  unfold coercedVars at hmem
  obtain ⟨kv0, hmem0, heq⟩ := List.mem_map.mp hmem
  rw [← heq]
  simpa using extract_str_dict_vals_ne v kv0 hmem0

theorem coercedVars_keys (v : Val) :
    (coercedVars v).map Prod.fst = (extract_str_dict v).map Prod.fst := by
  unfold coercedVars
  rw [List.map_map]
  rfl

theorem map_congr_own {α β : Type} (f g : α → β) (l : List α)
    (h : ∀ a ∈ l, f a = g a) : l.map f = l.map g := by
  induction l with
  | nil => rfl
  | cons x rest ih =>
    simp only [List.map_cons]
    rw [h x (List.mem_cons_self _ _), ih (fun a ha => h a (List.mem_cons_of_mem _ ha))]

theorem esd_fold_append (l : List (String × Val)) :
    ∀ (ret : List (String × String)),
      strVals l = true → (ret.map Prod.fst ++ l.map Prod.fst).Nodup →
      l.foldl
        (fun ret kv =>
          match extract_str_core kv.2 with
          | some s => if s ≠ "" then setKey ret kv.1 s else ret
          | Option.none => ret)
        ret =
      ret ++ l.map (fun kv => (kv.1, match kv.2 with | .str s => s | _ => "")) := by
  induction l with
  | nil => intro ret _ _; simp
  | cons kv0 rest ih =>
    intro ret hsv hnd
    obtain ⟨k0, v0⟩ := kv0
    obtain ⟨s0, hv0, hs0⟩ :=
      strVals_mem (m := (k0, v0) :: rest) hsv (List.mem_cons_self _ _)
    simp only at hv0
    subst hv0
    have hsvrest : strVals rest = true := by
      rw [strVals] at hsv
      rw [List.all_cons, Bool.and_eq_true] at hsv
      exact hsv.2
    have hk0ret : hasKey ret k0 = false := by
      cases hb : hasKey ret k0
      · rfl
      · exfalso
        have hk0mem : k0 ∈ ret.map Prod.fst := mem_keys_of_hasKey ret k0 hb
        have hdisj := List.disjoint_of_nodup_append hnd
        exact hdisj hk0mem (by simp)
    have he : extract_str_core (Val.str s0) = some s0 := rfl
    simp only [List.foldl_cons, he]
    rw [if_pos hs0]
    rw [setKey_append_of_not_hasKey ret k0 s0 hk0ret]
    rw [ih (ret ++ [(k0, s0)]) hsvrest (by
      simp only [List.map_append, List.map_cons] at hnd ⊢
      simpa using hnd)]
    simp

theorem coercedVars_id (m : List (String × Val)) (hsv : strVals m = true)
    (hnd : (m.map Prod.fst).Nodup) : coercedVars (.dict m) = m := by
  unfold coercedVars
  have hfold : extract_str_dict (.dict m) =
      m.map (fun kv => (kv.1, match kv.2 with | .str s => s | _ => "")) := by
    have := esd_fold_append m [] hsv (by simpa using hnd)
    simpa [extract_str_dict] using this
  rw [hfold, List.map_map]
  have hid : ∀ kv ∈ m,
      ((fun (kv : String × String) => (kv.1, Val.str kv.2)) ∘
        (fun (kv : String × Val) =>
          (kv.1, match kv.2 with | Val.str s => s | _ => ""))) kv = id kv := by
    intro kv hmem
    obtain ⟨k1, v1⟩ := kv
    obtain ⟨s, hv, _⟩ := strVals_mem hsv hmem
    simp only at hv
    subst hv
    rfl
  rw [map_congr_own _ _ m hid, List.map_id]

theorem strVals_fillFold (pv : List (String × String))
    (hvals : ∀ kv ∈ pv, kv.2 ≠ "") :
    ∀ (m : List (String × Val)), strVals m = true →
      strVals (pv.foldl
        (fun jv p => if hasKey jv p.1 then jv else setKey jv p.1 (.str p.2)) m)
        = true := by
  induction pv with
  | nil => intro m h; exact h
  | cons p pvt ih =>
    intro m h
    simp only [List.foldl_cons]
    apply ih (fun kv hm => hvals kv (List.mem_cons_of_mem _ hm))
    by_cases hh : hasKey m p.1
    · rw [if_pos hh]
      exact h
    · rw [if_neg hh]
      exact strVals_setKey p.1 p.2 h (hvals p (List.mem_cons_self _ _))

theorem keysNodup_fillFold (pv : List (String × String)) :
    ∀ (m : List (String × Val)), (m.map Prod.fst).Nodup →
      ((pv.foldl
        (fun jv p => if hasKey jv p.1 then jv else setKey jv p.1 (.str p.2)) m).map
          Prod.fst).Nodup := by
  induction pv with
  | nil => intro m h; exact h
  | cons p pvt ih =>
    intro m h
    simp only [List.foldl_cons]
    apply ih
    by_cases hh : hasKey m p.1
    · rw [if_pos hh]
      exact h
    · rw [if_neg hh]
      exact keysNodup_setKey m p.1 _ h

theorem strVals_setFold (fv : List (String × String))
    (hvals : ∀ kv ∈ fv, kv.2 ≠ "") :
    ∀ (m : List (String × Val)), strVals m = true →
      strVals (fv.foldl (fun jv cv => setKey jv cv.1 (.str cv.2)) m) = true := by
  induction fv with
  | nil => intro m h; exact h
  | cons cv fvt ih =>
    intro m h
    simp only [List.foldl_cons]
    exact ih (fun kv hm => hvals kv (List.mem_cons_of_mem _ hm)) _
      (strVals_setKey cv.1 cv.2 h (hvals cv (List.mem_cons_self _ _)))

theorem keysNodup_setFold (fv : List (String × String)) :
    ∀ (m : List (String × Val)), (m.map Prod.fst).Nodup →
      ((fv.foldl (fun jv cv => setKey jv cv.1 (.str cv.2)) m).map Prod.fst).Nodup := by
  induction fv with
  | nil => intro m h; exact h
  | cons cv fvt ih =>
    intro m h
    simp only [List.foldl_cons]
    exact ih _ (keysNodup_setKey m cv.1 _ h)

theorem setFold_id (fv : List (String × String)) :
    ∀ (m : List (String × Val)),
      (∀ kv ∈ fv, getKey? m kv.1 = some (.str kv.2)) →
      fv.foldl (fun jv cv => setKey jv cv.1 (.str cv.2)) m = m := by
  induction fv with
  | nil => intro m _; rfl
  | cons cv fvt ih =>
    intro m h
    simp only [List.foldl_cons]
    rw [setKey_id m cv.1 _ (h cv (List.mem_cons_self _ _))]
    exact ih m (fun kv hm => h kv (List.mem_cons_of_mem _ hm))

theorem setFold_getKey_mem (fv : List (String × String))
    (hnd : (fv.map Prod.fst).Nodup) (m : List (String × Val)) :
    ∀ kv ∈ fv, getKey? (fv.foldl (fun jv cv => setKey jv cv.1 (.str cv.2)) m) kv.1
      = some (.str kv.2) := by
  intro kv hmem
  rw [getKey?_setFold fv m kv.1 hnd]
  rw [getKey?_of_mem_nodup fv kv.1 kv.2 hmem hnd]

theorem combineJobVars_dict_eq (cfg : Config) (pvars : List (String × String))
    (inj : List (String × Val)) (k0 : String) (d : List (String × Val)) :
    combineJobVars cfg pvars inj (k0, .dict d)
      = (if isReserved k0 = true then (k0, Val.dict d)
         else (k0, Val.dict (setKey d "variables" (Val.dict
           (List.foldl (fun jv iv => setKey jv iv.1 iv.2)
             (List.foldl (fun jv cv => setKey jv cv.1 (Val.str cv.2))
               (List.foldl (fun jv pv =>
                   if hasKey jv pv.1 = true then jv else setKey jv pv.1 (Val.str pv.2))
                 (coercedVars ((getKey? d "variables").getD (Val.dict []))) pvars)
               (extract_str_dict (Val.dict cfg.forced_variables))) inj))))) := rfl

theorem combineJobVars_fst (cfg : Config) (pvars : List (String × String))
    (inj : List (String × Val)) (kv : String × Val) :
    (combineJobVars cfg pvars inj kv).1 = kv.1 := by
  obtain ⟨k0, v0⟩ := kv
  cases v0 <;> try rfl
  case dict d =>
    rw [combineJobVars_dict_eq]
    by_cases hres : isReserved k0 = true
    · rw [if_pos hres]
    · rw [if_neg hres]

theorem combineJobVars_idem (cfg : Config) (pvars : List (String × String))
    (hpvals : ∀ kv ∈ pvars, kv.2 ≠ "") (kv : String × Val) :
    combineJobVars cfg [] [] (combineJobVars cfg pvars [] kv)
      = combineJobVars cfg pvars [] kv := by
  obtain ⟨k0, v0⟩ := kv
  cases v0
  case dict d =>
    by_cases hres : isReserved k0 = true
    · rw [combineJobVars_dict_eq, if_pos hres, combineJobVars_dict_eq, if_pos hres]
    · have hfvnd : ((extract_str_dict (.dict cfg.forced_variables)).map Prod.fst).Nodup :=
        extract_str_dict_keysNodup _
      have hfvvals : ∀ kv2 ∈ extract_str_dict (.dict cfg.forced_variables), kv2.2 ≠ "" :=
        extract_str_dict_vals_ne _
      set fv := extract_str_dict (.dict cfg.forced_variables) with hfv
      set jv0 := coercedVars ((getKey? d "variables").getD (.dict [])) with hjv0
      set jv1 := pvars.foldl
        (fun jv pv => if hasKey jv pv.1 then jv else setKey jv pv.1 (.str pv.2)) jv0
        with hjv1
      set jvf := fv.foldl (fun jv cv => setKey jv cv.1 (.str cv.2)) jv1 with hjvf
      have h1 : combineJobVars cfg pvars [] (k0, .dict d)
          = (k0, .dict (setKey d "variables" (.dict jvf))) := by
        rw [combineJobVars_dict_eq, if_neg hres]
        simp only [List.foldl_nil]
      rw [h1]
      have hsv0 : strVals jv0 = true := strVals_coercedVars _
      have hnd0 : (jv0.map Prod.fst).Nodup := by
        rw [hjv0, coercedVars_keys]
        exact extract_str_dict_keysNodup _
      have hsv1 : strVals jv1 = true := strVals_fillFold pvars hpvals jv0 hsv0
      have hnd1 : (jv1.map Prod.fst).Nodup := keysNodup_fillFold pvars jv0 hnd0
      have hsvf : strVals jvf = true := strVals_setFold fv hfvvals jv1 hsv1
      have hndf : (jvf.map Prod.fst).Nodup := keysNodup_setFold fv jv1 hnd1
      rw [combineJobVars_dict_eq, if_neg hres]
      have hget : (getKey? (setKey d "variables" (.dict jvf)) "variables").getD (.dict [])
          = .dict jvf := by
        rw [getKey?_setKey_self]
        rfl
      rw [hget]
      rw [coercedVars_id jvf hsvf hndf]
      simp only [List.foldl_nil]
      rw [setFold_id fv jvf (fun kv2 hm => by
        rw [hjvf]
        exact setFold_getKey_mem fv hfvnd jv1 kv2 hm)]
      rw [setKey_id (setKey d "variables" (.dict jvf)) "variables" (.dict jvf)
        (getKey?_setKey_self _ _ _)]
  all_goals rfl

theorem combine_idem (cfg : Config) (cd : PyDict) :
    job_combine_variables cfg (job_combine_variables cfg cd []) []
      = job_combine_variables cfg cd [] := by
  have hnovar : hasKey (job_combine_variables cfg cd []) "variables" = false := by
    unfold job_combine_variables
    exact hasKey_popKey_self _ _
  set cd1 := job_combine_variables cfg cd [] with hcd1
  have hp2 : extract_str_dict ((getKey? cd1 "variables").getD (.dict [])) = [] := by
    rw [getKey?_eq_none_of_not_hasKey cd1 "variables" hnovar]
    rfl
  show popKey
    ((setKey cd1 "variables"
      (strDictToVal (extract_str_dict ((getKey? cd1 "variables").getD (.dict []))))).map
      (combineJobVars cfg (extract_str_dict ((getKey? cd1 "variables").getD (.dict []))) []))
    "variables" = cd1
  rw [hp2]
  rw [show strDictToVal [] = Val.dict [] from rfl]
  rw [setKey_append_of_not_hasKey cd1 "variables" _ hnovar]
  rw [List.map_append]
  have hmape : ∀ x ∈ cd1, combineJobVars cfg [] [] x = x := by
    intro x hx
    rw [hcd1] at hx
    unfold job_combine_variables at hx
    have hx2 := List.mem_of_mem_filter hx
    obtain ⟨kv, _, heq⟩ := List.mem_map.mp hx2
    rw [← heq]
    exact combineJobVars_idem cfg _ (extract_str_dict_vals_ne _) kv
  rw [map_congr_own _ id cd1 (fun a ha => hmape a ha)]
  rw [List.map_id]
  have hvarentry : (List.map (combineJobVars cfg [] []) [("variables", Val.dict [])])
      = [("variables", Val.dict [])] := by
    simp only [List.map_cons, List.map_nil]
    rw [show combineJobVars cfg [] [] ("variables", Val.dict [])
      = ("variables", Val.dict []) from rfl]
  rw [hvarentry]
  have happend : popKey (cd1 ++ [("variables", Val.dict [])]) "variables"
      = popKey cd1 "variables" := by
    unfold popKey
    rw [List.filter_append]
    simp
  rw [happend]
  exact popKey_id_of_not_hasKey cd1 "variables" hnovar

theorem getKey?_map_keyfix (g : (String × Val) → (String × Val))
    (hg : ∀ kv, (g kv).1 = kv.1) :
    ∀ (l : PyDict) (j : String) (v : Val), getKey? l j = some v →
      getKey? (l.map g) j = some (g (j, v)).2 := by
  intro l
  induction l with
  | nil => intro j v h; simp [getKey?] at h
  | cons kv rest ih =>
    intro j v h
    obtain ⟨k0, v0⟩ := kv
    simp only [getKey?] at h
    simp only [List.map_cons, getKey?]
    rw [hg (k0, v0)]
    by_cases hk : k0 = j
    · rw [if_pos hk] at h
      injection h with h
      rw [if_pos hk]
      subst hk
      subst h
      rfl
    · rw [if_neg hk] at h
      rw [if_neg hk]
      exact ih j v h

theorem dropWhile_congr {α : Type} (f g : α → Bool) :
    ∀ (l : List α), (∀ x ∈ l, f x = g x) → l.dropWhile f = l.dropWhile g := by
  intro l
  induction l with
  | nil => intro _; rfl
  | cons x rest ih =>
    intro h
    simp only [List.dropWhile]
    rw [h x (List.mem_cons_self _ _)]
    cases g x
    · rfl
    · exact ih (fun y hy => h y (List.mem_cons_of_mem _ hy))

theorem collapseGo_congr (p q : Nat → Bool) :
    ∀ (l : List Nat) (inRun : Bool), (∀ n ∈ l, p n = q n) →
      collapseGo p inRun l = collapseGo q inRun l := by
  intro l
  induction l with
  | nil => intro _ _; rfl
  | cons n rest ih =>
    intro inRun h
    have hn := h n (List.mem_cons_self _ _)
    have hr : ∀ m ∈ rest, p m = q m := fun m hm => h m (List.mem_cons_of_mem _ hm)
    simp only [collapseGo]
    rw [hn]
    cases hq : q n <;> simp [hq, ih false hr, ih true hr]

/-- The congruence lemma for `collapseRuns`: the replacement only looks at
the keep-predicate on the list's members. -/
theorem collapseRuns_congr (p q : Nat → Bool) (l : List Nat)
    (h : ∀ n ∈ l, p n = q n) : collapseRuns p l = collapseRuns q l :=
  collapseGo_congr p q l false h

theorem lowerCode_not_upper (m : Nat) :
    ¬ (65 ≤ lowerCode m ∧ lowerCode m ≤ 90) := by
  unfold lowerCode
  split <;> omega

theorem slugKeep_eq_on_lower (m : Nat) :
    slugKeepCode (lowerCode m) = slugKeepCodeSpec (lowerCode m) := by
  have h := lowerCode_not_upper m
  have h3 : (decide (65 ≤ lowerCode m) && decide (lowerCode m ≤ 90)) = false := by
    by_cases h1 : 65 ≤ lowerCode m
    · have h2 : ¬ lowerCode m ≤ 90 := fun h2 => h ⟨h1, h2⟩
      simp [h2]
    · simp [h1]
  unfold slugKeepCode slugKeepCodeSpec
  rw [h3, Bool.or_false]

/-- C10: the computed `CI_COMMIT_REF_SLUG` agrees, for every ref name, with
the specification's description (lowercase, collapse every maximal run of
characters outside `[0-9a-z]` to a single `-`, truncate to 63 characters,
trim leading/trailing `-`), and the ref name `"Feature/XYZ_123!"` yields
`"feature-xyz-123"`. -/
theorem c10_slug_spec_and_example :
    (∀ ref : String, ci_commit_ref_slug ref = ci_commit_ref_slug_spec ref) ∧
    ci_commit_ref_slug "Feature/XYZ_123!" = "feature-xyz-123" := by
  constructor
  · intro s
    have hcollapse : collapseRuns slugKeepCode ((s.data.map Char.toNat).map lowerCode)
        = collapseRuns slugKeepCodeSpec ((s.data.map Char.toNat).map lowerCode) := by
      apply collapseRuns_congr
      intro n hn
      obtain ⟨m, _, rfl⟩ := List.mem_map.mp hn
      exact slugKeep_eq_on_lower m
    simp only [ci_commit_ref_slug, ci_commit_ref_slug_spec]
    rw [hcollapse]
  · decide

/-- C9 counterexample: the entry `K ↦ ""` has a value that is already a
string (so it is coercible, and the claim says it survives, "including the
empty string"), yet `extract_str_dict` drops it, because the coerced value
is tested for truthiness and the empty string is falsy. -/
theorem c9_counterexample :
    extract_str_dict (.dict [("K", .str "")]) = [] := by decide

/-- C9 (amended): an entry of a job's `variables` mapping survives
`extract_str_dict` exactly when its value coerces (via `extract_str`) to a
nonempty string, and then with that coerced value; entries coercing to the
empty string, like entries that cannot be coerced at all, are dropped. -/
theorem c9_extract_str_dict_spec (d : List (String × Val)) (k : String)
    (hnd : (d.map Prod.fst).Nodup) :
    getKey? (extract_str_dict (.dict d)) k =
      match getKey? d k with
      | some v =>
        match extract_str_core v with
        | some s => if s ≠ "" then some s else Option.none
        | Option.none => Option.none
      | Option.none => Option.none := by
  have main : ∀ (l : List (String × Val)) (ret : List (String × String)),
      (l.map Prod.fst).Nodup →
      getKey? (l.foldl
        (fun ret kv =>
          match extract_str_core kv.2 with
          | some s => if s ≠ "" then setKey ret kv.1 s else ret
          | Option.none => ret) ret) k =
        (match getKey? l k with
         | some v =>
           match extract_str_core v with
           | some s => if s ≠ "" then some s else getKey? ret k
           | Option.none => getKey? ret k
         | Option.none => getKey? ret k) := by
    intro l
    induction l with
    | nil =>
      intro ret _
      simp [getKey?]
    | cons kv rest ih =>
      intro ret hnd2
      obtain ⟨k0, v0⟩ := kv
      simp only [List.map_cons, List.nodup_cons] at hnd2
      obtain ⟨hk0, hndrest⟩ := hnd2
      simp only [List.foldl_cons]
      rw [ih _ hndrest]
      by_cases hk : k0 = k
      · subst hk
        have hnone : getKey? rest k0 = Option.none := by
          apply getKey?_eq_none_of_not_hasKey
          cases hh : hasKey rest k0
          · rfl
          · exact absurd (mem_keys_of_hasKey rest k0 hh) hk0
        rw [hnone]
        simp only [getKey?, if_pos rfl]
        cases hes : extract_str_core v0 with
        | none => simp [hes]
        | some s =>
          by_cases hs : s = ""
          · simp [hes, hs]
          · simp [hes, hs, getKey?_setKey_self]
      · have hfk : getKey?
            ((fun (ret : List (String × String)) (kv : String × Val) =>
              match extract_str_core kv.2 with
              | some s => if s ≠ "" then setKey ret kv.1 s else ret
              | Option.none => ret) ret (k0, v0)) k = getKey? ret k := by
          cases hes : extract_str_core v0 with
          | none => simp [hes]
          | some s =>
            by_cases hs : s = ""
            · simp [hes, hs]
            · simp only [hes, ne_eq, hs, not_false_eq_true, if_true]
              exact getKey?_setKey_ne ret k0 k s (fun hh => hk hh.symm)
        rw [hfk]
        have hhd : getKey? ((k0, v0) :: rest) k = getKey? rest k := by
          simp only [getKey?]
          rw [if_neg hk]
        rw [hhd]
  simpa [extract_str_dict, getKey?] using main d [] hnd

/-- Witness for C9's amended theorem at a concrete dict: the int value `5`
coerces to `"5"` and survives, a `None` value is dropped. -/
theorem c9_extract_str_dict_spec_witness :
    getKey? (extract_str_dict (.dict [("L", .int 5), ("M", .none)])) "L" =
      some "5" := by
  rw [c9_extract_str_dict_spec [("L", .int 5), ("M", .none)] "L" (by decide)]
  decide

/-- C1 counterexample: normalization accepts this mapping root, but the
resulting job's `script` is still a mapping, not a list, contradicting the
claim that every job of an accepted input ends with a list-typed script. -/
theorem c1_counterexample :
    isOkE (parse_cidict defaultConfig c1input) = true ∧
    isListValB (jobField? (resultDict (parse_cidict defaultConfig c1input)) "job1" "script")
      = false := by decide

/-- C4 counterexample: the mapping root `{job1: "hello"}` makes
`_parse_cidict` raise (string item assignment in `_job_various_tweaks`),
so normalization does NOT complete without error for every mapping root. -/
theorem c4_counterexample :
    isOkE (parse_cidict defaultConfig c4input) = false := by decide

/-- C4 (amended): normalization raises whenever the root input is not a
mapping; but acceptance of every mapping root fails — some mapping roots,
such as one holding a bare-scalar job, raise as well. -/
theorem c4_error_behaviour :
    (∀ (cfg : Config) (v : Val), isDictB v = false →
      isOkE (parse_cidict cfg v) = false) ∧
    isOkE (parse_cidict defaultConfig c4input) = false := by
  constructor
  · intro cfg v h
    cases v <;> simp_all [parse_cidict, isOkE, isDictB]
  · decide

/-- Witness for C4's amended theorem: an integer root is rejected. -/
theorem c4_error_behaviour_witness :
    isOkE (parse_cidict defaultConfig (Val.int 0)) = false :=
  c4_error_behaviour.1 defaultConfig (Val.int 0) (by decide)

/-- C8 (code bug, line 359): for a job declaring
`artifacts: {name: "N", expire_in: "7 days"}` the normalized record's
`expire_in` is `"N"` — the declared `name` value — instead of the declared
`"7 days"`; without a declared `expire_in` the configured default is
used.  The specification states the intended behavior (use the declared
`expire_in`) and flags the code as defective. -/
theorem c8_expire_in_copies_name :
    strVal? (artifactField? (resultDict (parse_cidict defaultConfig c8input))
      "j" "expire_in") = some "N" ∧
    strVal? (artifactField? (resultDict (parse_cidict defaultConfig c8inputNoExpire))
      "j" "expire_in") = some "3 days" := by decide

/-- C3 (code bug): a job restricted to `only.refs = ["triggers"]` survives
`prepare_run_with` even for `pipeline_source = "push"`, which is not a
trigger-like source: `CI_PIPELINE_TRIGGERED` is stored as the bool `False`
but re-coerced by `_pipeline_add_buildinfo` to the string `"False"`, and
line 508 only tests that string for truthiness, which always holds.  The
claim (and the comments at lines 466-467 and 507) require the job to be
ref-eligible only for trigger-like sources. -/
theorem c3_triggers_job_kept_for_push :
    (["trigger", "api", "pipeline", "schedule", "web"].contains "push" = false) ∧
    jobVar? (runDict (prepare_run_with defaultConfig c3parsed [] 0 0
      "master" "push" "m" "s" Option.none)) "t" "CI_PIPELINE_TRIGGERED"
      = some "False" ∧
    isJobB (runDict (prepare_run_with defaultConfig c3parsed [] 0 0
      "master" "push" "m" "s" Option.none)) "t" = true := by decide

/-- C6 (code bug): evaluating job `b`'s condition `$FOO == "x"` depends on
job `a`'s variables and on evaluation order — with `a` first, `a`'s
`FOO=x` is still in the shared `os.environ` when `b` is evaluated and `b`
is kept; with `b` first, `b` is removed; and `FOO` remains bound in the
environment after `_evaluate_jobs` returns even though the initial
environment was empty.  The claim requires per-job isolation. -/
theorem c6_env_leak :
    isJobB (runDict (prepare_run_with defaultConfig
      (resultDict (parse_cidict defaultConfig c6inputAB)) [] 0 0
      "master" "push" "m" "s" Option.none)) "b" = true ∧
    isJobB (runDict (prepare_run_with defaultConfig
      (resultDict (parse_cidict defaultConfig c6inputBA)) [] 0 0
      "master" "push" "m" "s" Option.none)) "b" = false ∧
    getKey? (runEnv (prepare_run_with defaultConfig
      (resultDict (parse_cidict defaultConfig c6inputAB)) [] 0 0
      "master" "push" "m" "s" Option.none)) "FOO" = some "x" := by decide

/-- C2 counterexample: after `prepare_run_with` the job `a` survives while
listing the dependency `"image"`, which is a key of the pipeline dict (the
docker-image entry) but not the name of any remaining job: the pruning
check tests `dep in self._cidict.keys()`, and the keys include the
reserved entries. -/
theorem c2_counterexample :
    isJobB (runDict c2run) "a" = true ∧
    strListVal? (jobField? (runDict c2run) "a" "dependencies") = some ["image"] ∧
    isJobB (runDict c2run) "image" = false ∧
    hasKey (runDict c2run) "image" = true := by decide

/-- C5 counterexample: the job declares `X` (value `""`) in its own
`variables`, yet after variable combination the job's `X` is the
pipeline-level `"1"`: the declared value did not take precedence, because
the coercion step drops entries whose value coerces to the empty string
before the pipeline fill-in runs. -/
theorem c5_counterexample :
    jobVar? (resultDict (parse_cidict defaultConfig c5input)) "j" "X"
      = some "1" := by decide

/-- C5 (amended, lines 410-441): for every non-reserved job of the pipeline
dict and every variable name `X`, after `_job_combine_variables` the job's
`X` is, in priority order, the coerced caller-forced value, else the job's
own coerced declared value, else the coerced pipeline-level value; the
pipeline-level `variables` key is removed; and running the combination a
second time changes nothing. -/
theorem c5_variable_priority (cfg : Config) (cd : PyDict) (j X : String)
    (d : List (String × Val)) (hj : getKey? cd j = some (Val.dict d))
    (hres : isReserved j = false) :
    (match jobField? (job_combine_variables cfg cd []) j "variables" with
     | some (.dict vs) => getKey? vs X
     | _ => Option.none) =
      (match getKey? (extract_str_dict (Val.dict cfg.forced_variables)) X with
       | some s => some (Val.str s)
       | Option.none =>
         match getKey? (coercedVars ((getKey? d "variables").getD (Val.dict []))) X with
         | some v => some v
         | Option.none =>
           (getKey? (extract_str_dict ((getKey? cd "variables").getD (Val.dict []))) X).map
             (fun s => Val.str s)) ∧
    hasKey (job_combine_variables cfg cd []) "variables" = false ∧
    job_combine_variables cfg (job_combine_variables cfg cd []) []
      = job_combine_variables cfg cd [] := by
  have hjvne : j ≠ "variables" := by
    intro he
    rw [he] at hres
    exact absurd hres (by decide)
  have hresP : ¬ (isReserved j = true) := by
    rw [hres]
    exact Bool.false_ne_true
  refine ⟨?_, ?_, combine_idem cfg cd⟩
  · set pvars := extract_str_dict ((getKey? cd "variables").getD (Val.dict [])) with hpvdef
    have hstep1 : getKey? (setKey cd "variables" (strDictToVal pvars)) j
        = some (Val.dict d) := by
      rw [getKey?_setKey_ne cd "variables" j _ hjvne]
      exact hj
    have hstep2 : getKey? ((setKey cd "variables" (strDictToVal pvars)).map
        (combineJobVars cfg pvars [])) j
        = some ((combineJobVars cfg pvars [] (j, Val.dict d)).2) :=
      getKey?_map_keyfix _ (combineJobVars_fst cfg pvars []) _ j _ hstep1
    have hcjv : combineJobVars cfg pvars [] (j, Val.dict d)
        = (j, Val.dict (setKey d "variables" (Val.dict
            (List.foldl (fun jv cv => setKey jv cv.1 (Val.str cv.2))
              (List.foldl (fun jv pv =>
                  if hasKey jv pv.1 = true then jv else setKey jv pv.1 (Val.str pv.2))
                (coercedVars ((getKey? d "variables").getD (Val.dict []))) pvars)
              (extract_str_dict (Val.dict cfg.forced_variables)))))) := by
      rw [combineJobVars_dict_eq, if_neg hresP]
      simp only [List.foldl_nil]
    set jv0 := coercedVars ((getKey? d "variables").getD (Val.dict [])) with hjv0def
    set jvf := List.foldl (fun jv cv => setKey jv cv.1 (Val.str cv.2))
        (List.foldl (fun jv pv =>
            if hasKey jv pv.1 = true then jv else setKey jv pv.1 (Val.str pv.2)) jv0 pvars)
        (extract_str_dict (Val.dict cfg.forced_variables)) with hjvfdef
    have hstep3 : getKey? (job_combine_variables cfg cd []) j
        = some (Val.dict (setKey d "variables" (Val.dict jvf))) := by
      show getKey? (popKey ((setKey cd "variables" (strDictToVal pvars)).map
        (combineJobVars cfg pvars [])) "variables") j = _
      rw [getKey?_popKey_ne _ "variables" j hjvne, hstep2, hcjv]
    have hfield : jobField? (job_combine_variables cfg cd []) j "variables"
        = some (Val.dict jvf) := by
      unfold jobField?
      rw [hstep3]
      exact getKey?_setKey_self d "variables" (Val.dict jvf)
    rw [hfield]
    show getKey? jvf X = _
    rw [hjvfdef, getKey?_setFold _ _ X (extract_str_dict_keysNodup _)]
    cases hfx : getKey? (extract_str_dict (Val.dict cfg.forced_variables)) X with
    | some s => simp only [hfx]
    | none =>
      simp only [hfx]
      rw [getKey?_fillFold pvars jv0 X]
      by_cases hh : hasKey jv0 X = true
      · obtain ⟨v, hv⟩ := getKey?_isSome_of_hasKey jv0 X hh
        rw [if_pos hh]
        simp only [hv]
      · rw [if_neg hh]
        have hnone : getKey? jv0 X = Option.none :=
          getKey?_eq_none_of_not_hasKey jv0 X (by
            cases hb : hasKey jv0 X
            · rfl
            · exact absurd hb hh)
        simp only [hnone]
  · exact hasKey_popKey_self _ _

/-- C5 witness: the priority/removal/idempotence theorem applied to the
one-job pipeline `c5wcd` with variable `A`. -/
theorem c5_variable_priority_witness :
    getKey? c5wcd "job1" = some (Val.dict c5wd) ∧ isReserved "job1" = false ∧
    ((match jobField? (job_combine_variables defaultConfig c5wcd []) "job1" "variables" with
      | some (.dict vs) => getKey? vs "A"
      | _ => Option.none) =
       (match getKey? (extract_str_dict (Val.dict defaultConfig.forced_variables)) "A" with
        | some s => some (Val.str s)
        | Option.none =>
          match getKey? (coercedVars ((getKey? c5wd "variables").getD (Val.dict []))) "A" with
          | some v => some v
          | Option.none =>
            (getKey? (extract_str_dict ((getKey? c5wcd "variables").getD (Val.dict []))) "A").map
              (fun s => Val.str s)) ∧
     hasKey (job_combine_variables defaultConfig c5wcd []) "variables" = false ∧
     job_combine_variables defaultConfig (job_combine_variables defaultConfig c5wcd []) []
       = job_combine_variables defaultConfig c5wcd []) :=
  ⟨rfl, rfl, c5_variable_priority defaultConfig c5wcd "job1" "A" c5wd rfl rfl⟩

/-- C7 (code bug): the matrix returned by `convert_to_matrix` shares live
state with the internal pipeline — its `stages` entry is the internal
stages list object itself (same address), and appending to it through the
matrix changes the internal pipeline's stages from `[test]` to
`[test, X]` — although the method's docstring (lines 107-109) claims the
result "is a copy of an internal dict and changes don't affect the
internal dict".  `get_cidict` really is a deepcopy: its stages live at a
fresh address and mutating the copy leaves the internal pipeline
unchanged. -/
theorem c7_matrix_aliasing :
    stagesListOfPipeline c7heap 0 = [.str "test"] ∧
    stagesAddrOf c7afterMatrix.1 c7afterMatrix.2 = stagesAddrOf c7afterMatrix.1 0 ∧
    stagesListOfPipeline c7mutatedViaMatrix 0 = [.str "test", .str "X"] ∧
    (stagesAddrOf c7afterCopy.1 c7afterCopy.2 ≠ stagesAddrOf c7afterCopy.1 0) ∧
    stagesListOfPipeline c7mutatedViaCopy 0 = [.str "test"] := by decide

theorem all_congr_own {α : Type} (p q : α → Bool) (l : List α)
    (h : ∀ a ∈ l, p a = q a) : l.all p = l.all q := by
  induction l with
  | nil => rfl
  | cons x rest ih =>
    simp only [List.all_cons]
    rw [h x (List.mem_cons_self _ _), ih (fun a ha => h a (List.mem_cons_of_mem _ ha))]

theorem all_of_not_any_not {α : Type} (p : α → Bool) (l : List α)
    (h : l.any (fun x => !p x) = false) : l.all p = true := by
  induction l with
  | nil => rfl
  | cons x rest ih =>
    simp only [List.any_cons, Bool.or_eq_false_iff] at h
    simp only [List.all_cons, Bool.and_eq_true]
    constructor
    · cases hp : p x
      · rw [hp] at h
        simp at h
      · rfl
    · exact ih h.2

theorem findRemovableAux_some_ne (cd : PyDict) :
    ∀ (l : PyDict) (j : String), findRemovableAux cd l (some j) ≠ .ok Option.none := by
  intro l
  induction l with
  | nil => intro j h; simp [findRemovableAux] at h
  | cons kv rest ih =>
    intro j h
    obtain ⟨jobname, job⟩ := kv
    cases job
    case dict d =>
      simp only [findRemovableAux] at h
      by_cases hres : isReserved jobname = true
      · rw [if_pos hres] at h
        exact ih j h
      · rw [if_neg hres] at h
        simp only [Bind.bind] at h
        cases hd : pyGetItemStr (.dict d) "dependencies" with
        | error e => rw [hd] at h; simp [Except.bind] at h
        | ok depsV =>
          rw [hd] at h
          simp only [Except.bind] at h
          cases hi : pyIter depsV with
          | error e => rw [hi] at h; simp [Except.bind] at h
          | ok deps =>
            rw [hi] at h
            simp only [Except.bind] at h
            by_cases hmiss : (deps.any (fun dep => !depMatched cd dep)) = true
            · rw [if_pos hmiss] at h
              exact ih jobname h
            · rw [if_neg hmiss] at h
              exact ih j h
    all_goals (simp only [findRemovableAux] at h; exact ih j h)

theorem findRemovableAux_none_all (cd : PyDict) :
    ∀ (l : PyDict), findRemovableAux cd l Option.none = .ok Option.none →
      l.all (entryDepsOk cd) = true := by
  intro l
  induction l with
  | nil => intro _; rfl
  | cons kv rest ih =>
    intro h
    obtain ⟨jobname, job⟩ := kv
    rw [List.all_cons, Bool.and_eq_true]
    cases job
    case dict d =>
      simp only [findRemovableAux] at h
      by_cases hres : isReserved jobname = true
      · rw [if_pos hres] at h
        exact ⟨by simp [entryDepsOk, entryDeps?, hres], ih h⟩
      · rw [if_neg hres] at h
        simp only [Bind.bind] at h
        cases hd : pyGetItemStr (.dict d) "dependencies" with
        | error e => rw [hd] at h; simp [Except.bind] at h
        | ok depsV =>
          rw [hd] at h
          simp only [Except.bind] at h
          cases hi : pyIter depsV with
          | error e => rw [hi] at h; simp [Except.bind] at h
          | ok deps =>
            rw [hi] at h
            simp only [Except.bind] at h
            by_cases hmiss : (deps.any (fun dep => !depMatched cd dep)) = true
            · rw [if_pos hmiss] at h
              exact absurd h (findRemovableAux_some_ne cd rest jobname)
            · rw [if_neg hmiss] at h
              have hany : (deps.any (fun dep => !depMatched cd dep)) = false := by
                cases hb : (deps.any (fun dep => !depMatched cd dep))
                · rfl
                · exact absurd hb hmiss
              refine ⟨?_, ih h⟩
              have hde : entryDeps? (jobname, Val.dict d) = some deps := by
                simp only [entryDeps?]
                rw [if_neg hres]
                simp only [hd, hi]
              simp only [entryDepsOk, hde]
              exact all_of_not_any_not _ _ hany
    all_goals
      (simp only [findRemovableAux] at h
       exact ⟨by simp [entryDepsOk, entryDeps?], ih h⟩)

theorem depsClosedB_of_findRemovable_none (cd : PyDict)
    (h : findRemovable cd = .ok Option.none) : depsClosedB cd = true :=
  findRemovableAux_none_all cd cd h

/-- C2 part: the pruning loop always reaches the fixed point (and in
particular terminates, the fuel `length + 1` being one pass per job). -/
theorem pruneFixedB_true (cd : PyDict) : pruneFixedB cd = true := by
  unfold pruneFixedB
  cases hp : pruneLoop cd with
  | error e => rfl
  | ok cd2 =>
    show (match findRemovable cd2 with
          | .ok Option.none => true
          | _ => false) = true
    rw [pruneLoop_fixed cd cd2 hp]

theorem depMatched_update (cd : PyDict) (j : String) (vars : List (String × Val))
    (dep : Val) : depMatched (updateJobVars cd j vars) dep = depMatched cd dep := by
  unfold depMatched updateJobVars
  induction cd with
  | nil => rfl
  | cons kv rest ih =>
    obtain ⟨k0, v0⟩ := kv
    simp only [List.map_cons, List.any_cons]
    rw [ih]
    congr 1
    by_cases hk : k0 = j
    · rw [if_pos hk]
      cases v0 <;> rfl
    · rw [if_neg hk]

theorem entryDepsOk_congr (cd cd2 : PyDict) (kv : String × Val)
    (h : ∀ dep, depMatched cd2 dep = depMatched cd dep) :
    entryDepsOk cd2 kv = entryDepsOk cd kv := by
  unfold entryDepsOk
  cases entryDeps? kv with
  | none => rfl
  | some deps => exact all_congr_own _ _ deps (fun dep _ => h dep)

theorem entryDepsOk_update_self (cd cd2 : PyDict) (j : String)
    (vars : List (String × Val)) (kv : String × Val)
    (h : ∀ dep, depMatched cd2 dep = depMatched cd dep) :
    entryDepsOk cd2
      (if kv.1 = j then
        match kv.2 with
        | .dict d => (kv.1, Val.dict (setKey d "variables" (.dict vars)))
        | _ => kv
       else kv) = entryDepsOk cd kv := by
  obtain ⟨k0, v0⟩ := kv
  by_cases hk : k0 = j
  · rw [if_pos hk]
    cases v0 <;> first
      | exact entryDepsOk_congr cd cd2 _ h
      | skip
    rename_i d
    have hpres : pyGetItemStr (.dict (setKey d "variables" (.dict vars)))
        "dependencies" = pyGetItemStr (.dict d) "dependencies" := by
      simp only [pyGetItemStr]
      rw [getKey?_setKey_ne d "variables" "dependencies" _ (by decide)]
    have h0 : entryDeps? (k0, Val.dict (setKey d "variables" (.dict vars)))
        = entryDeps? (k0, Val.dict d) := by
      simp only [entryDeps?, hpres]
    have h1 : entryDepsOk cd2 (k0, Val.dict (setKey d "variables" (.dict vars)))
        = entryDepsOk cd2 (k0, .dict d) := by
      unfold entryDepsOk
      rw [h0]
    rw [h1]
    exact entryDepsOk_congr cd cd2 _ h
  · rw [if_neg hk]
    exact entryDepsOk_congr cd cd2 _ h

theorem depsClosedB_update (cd : PyDict) (j : String) (vars : List (String × Val)) :
    depsClosedB (updateJobVars cd j vars) = depsClosedB cd := by
  have hdm : ∀ dep, depMatched (updateJobVars cd j vars) dep = depMatched cd dep :=
    depMatched_update cd j vars
  unfold depsClosedB
  have hmap : updateJobVars cd j vars = cd.map
      (fun kv => if kv.1 = j then
        match kv.2 with
        | .dict d => (kv.1, Val.dict (setKey d "variables" (.dict vars)))
        | _ => kv
       else kv) := rfl
  rw [hmap, List.all_map]
  apply all_congr_own
  intro kv _
  simp only [Function.comp]
  exact entryDepsOk_update_self cd (updateJobVars cd j vars) j vars kv hdm

theorem depsClosedB_assignJob (cd : PyDict) (j pid jid : String) :
    depsClosedB (assignJob cd j pid jid) = depsClosedB cd := by
  unfold assignJob
  cases hg : getKey? cd j with
  | none => simp only [hg]
  | some v =>
    cases v
    all_goals simp only [hg]
    exact depsClosedB_update cd j _

theorem depsClosedB_groupFold (pid : String) :
    ∀ (group : List String) (acc : PyDict × Nat),
      depsClosedB (group.foldl
        (fun (acc2 : PyDict × Nat) j =>
          (assignJob acc2.1 j pid (toString (acc2.2 + 1)), acc2.2 + 1))
        acc).1 = depsClosedB acc.1 := by
  intro group
  induction group with
  | nil => intro acc; rfl
  | cons j rest ih =>
    intro acc
    simp only [List.foldl_cons]
    rw [ih]
    exact depsClosedB_assignJob acc.1 j pid _

theorem depsClosedB_stageFold (pid : String) :
    ∀ (stages : List Val) (acc res : PyDict × Nat),
      stages.foldlM (assignStageStep pid) acc = .ok res →
      depsClosedB acc.1 = true → depsClosedB res.1 = true := by
  intro stages
  induction stages with
  | nil =>
    intro acc res h hc
    simp only [List.foldlM_nil] at h
    cases h
    exact hc
  | cons stageV rest ih =>
    intro acc res h hc
    simp only [List.foldlM_cons, Bind.bind] at h
    cases hs : assignStageStep pid acc stageV with
    | error e => rw [hs] at h; simp [Except.bind] at h
    | ok acc2 =>
      rw [hs] at h
      simp only [Except.bind] at h
      apply ih acc2 res h
      unfold assignStageStep at hs
      simp only [Bind.bind] at hs
      cases hg : groupJobs acc.1 stageV with
      | error e => rw [hg] at hs; simp [Except.bind] at hs
      | ok group =>
        rw [hg] at hs
        simp only [Except.bind, Pure.pure, Except.pure] at hs
        cases hs
        rw [depsClosedB_groupFold pid group acc]
        exact hc

theorem assign_ids_closed (cd : PyDict) (lj lp : Nat)
    (res : PyDict × Nat × Nat) (h : assign_ids cd lj lp = .ok res)
    (hc : depsClosedB cd = true) : depsClosedB res.1 = true := by
  unfold assign_ids at h
  simp only [Bind.bind] at h
  cases hst : getKey? cd "stages" with
  | none => rw [hst] at h; simp [Except.bind] at h
  | some stagesV =>
    rw [hst] at h
    simp only [Except.bind] at h
    cases him : getKey? cd "image" with
    | none => rw [him] at h; simp at h
    | some imgV =>
      rw [him] at h
      simp only [Bind.bind] at h
      cases hit : pyIter stagesV with
      | error e => rw [hit] at h; simp [Except.bind] at h
      | ok stages =>
        rw [hit] at h
        simp only [Except.bind] at h
        cases hfold : stages.foldlM (assignStageStep (toString (lp + 1))) (cd, lj) with
        | error e => rw [hfold] at h; simp [Except.bind] at h
        | ok res0 =>
          rw [hfold] at h
          simp only [Except.bind, Pure.pure, Except.pure] at h
          cases h
          exact depsClosedB_stageFold _ stages (cd, lj) res0 hfold hc

theorem evaluate_jobs_closed (cd : PyDict) (env0 : List (String × String))
    (cd2 : PyDict) (env2 : List (String × String))
    (h : evaluate_jobs cd env0 = .ok (cd2, env2)) : depsClosedB cd2 = true := by
  unfold evaluate_jobs at h
  simp only [Bind.bind] at h
  cases hf : evalFilter cd env0 [] with
  | error e => rw [hf] at h; simp [Except.bind] at h
  | ok p =>
    rw [hf] at h
    simp only [Except.bind] at h
    obtain ⟨env, toRemove⟩ := p
    cases hp : pruneLoop (cd.filter (fun kv => ¬ toRemove.contains kv.1)) with
    | error e => rw [hp] at h; simp [Except.bind] at h
    | ok cd3 =>
      rw [hp] at h
      simp only [Except.bind, Pure.pure, Except.pure] at h
      cases h
      exact depsClosedB_of_findRemovable_none _ (pruneLoop_fixed _ _ hp)

/-- C2 (amended): after `prepare_run_with` completes, the surviving dict is
closed under the dependency relation up to dict KEYS — every name listed in
any remaining job's dependencies matches a key of the remaining mapping (a
remaining job name or a reserved entry such as `image` or `stages`, since
line 557 checks `dep in self._cidict.keys()`) — and the pruning loop always
reaches its fixed point (so it terminates, removing one job per pass). -/
theorem c2_deps_closed_up_to_keys :
    (∀ (cfg : Config) (cd : PyDict) (env0 : List (String × String))
       (lj lp : Nat) (refName source msg sha : String) (tag : Option String),
       runClosed (prepare_run_with cfg cd env0 lj lp refName source msg sha tag)
         = true) ∧
    (∀ cd : PyDict, pruneFixedB cd = true) := by
  constructor
  · intro cfg cd env0 lj lp refName source msg sha tag
    unfold prepare_run_with runClosed
    simp only [Bind.bind]
    cases hb : pipeline_add_buildinfo cfg cd refName source msg sha tag with
    | error e => simp [Except.bind]
    | ok cd1 =>
      simp only [Except.bind]
      cases he : evaluate_jobs cd1 env0 with
      | error e => simp [Except.bind]
      | ok p =>
        simp only [Except.bind]
        obtain ⟨cd2, env⟩ := p
        cases ha : assign_ids cd2 lj lp with
        | error e => simp [Except.bind]
        | ok res =>
          simp only [Except.bind, Pure.pure, Except.pure]
          exact assign_ids_closed cd2 lj lp res ha
            (evaluate_jobs_closed cd1 env0 cd2 env he)
  · exact pruneFixedB_true

theorem bind_ok_eq {α β : Type} (a : α) (g : α → Except String β) :
    (Except.ok a >>= g) = g a := rfl

theorem bind_pure_eq {α β : Type} (a : α) (g : α → Except String β) :
    ((pure a : Except String α) >>= g) = g a := rfl

theorem pyEq_str_self (s : String) : pyEq (.str s) (.str s) = true := by
  simp [pyEq]

theorem memV_append_left (x : Val) (L M : List Val) (h : memV x L = true) :
    memV x (L ++ M) = true := by
  unfold memV at *
  rw [List.any_append, h, Bool.true_or]

theorem memV_cons_of (x y : Val) (L : List Val) (h : memV x L = true) :
    memV x (y :: L) = true := by
  unfold memV at *
  rw [List.any_cons, h, Bool.or_true]

theorem memV_head_str (s : String) (L : List Val) :
    memV (.str s) (.str s :: L) = true := by
  unfold memV
  rw [List.any_cons, pyEq_str_self, Bool.true_or]

theorem memV_append_self (s : String) (L : List Val) :
    memV (.str s) (L ++ [.str s]) = true := by
  unfold memV
  rw [List.any_append, List.any_cons, pyEq_str_self]
  simp

theorem stagesStrs_append_str (L : List Val) (s : String) (hL : stagesStrs L = true)
    (hs : s ≠ "") : stagesStrs (L ++ [.str s]) = true := by
  unfold stagesStrs at *
  rw [List.all_append, hL, List.all_cons]
  simp [hs]

theorem stagesStrs_cons_str (L : List Val) (s : String) (hL : stagesStrs L = true)
    (hs : s ≠ "") : stagesStrs (.str s :: L) = true := by
  unfold stagesStrs at *
  rw [List.all_cons, hL]
  simp [hs]

theorem allJobs_mono {P Q : Val → Bool} (h : ∀ v, P v = true → Q v = true) :
    ∀ cd : PyDict, allJobs cd P = true → allJobs cd Q = true := by
  intro cd hall
  unfold allJobs at *
  rw [List.all_eq_true] at hall ⊢
  intro kv hkv
  have h1 := hall kv hkv
  cases hr : isReserved kv.1 with
  | true => rfl
  | false =>
    rw [hr, Bool.false_or] at h1
    rw [Bool.false_or]
    exact h kv.2 h1

theorem allJobs_filter (P : Val → Bool) (q : String × Val → Bool) (cd : PyDict)
    (h : allJobs cd P = true) : allJobs (cd.filter q) P = true := by
  unfold allJobs at *
  rw [List.all_eq_true] at h ⊢
  intro kv hkv
  exact h kv (List.mem_of_mem_filter hkv)

theorem allJobs_setKey (P : Val → Bool) (cd : PyDict) (k : String) (v : Val)
    (h : allJobs cd P = true) (hv : (isReserved k || P v) = true) :
    allJobs (setKey cd k v) P = true := by
  unfold allJobs at *
  rw [List.all_eq_true] at h ⊢
  intro kv hkv
  rcases mem_setKey cd k v kv hkv with h1 | h2
  · exact h kv h1
  · rw [h2]
    exact hv

theorem allJobs_map (g : (String × Val) → (String × Val)) (P Q : Val → Bool)
    (cd : PyDict)
    (hg : ∀ kv, kv ∈ cd → (isReserved kv.1 || P kv.2) = true →
      (isReserved (g kv).1 || Q (g kv).2) = true)
    (h : allJobs cd P = true) : allJobs (cd.map g) Q = true := by
  unfold allJobs at *
  rw [List.all_map, List.all_eq_true]
  rw [List.all_eq_true] at h
  intro kv hkv
  exact hg kv hkv (h kv hkv)

theorem getKey?_filter_true {α : Type} (q : String × α → Bool)
    (cd : List (String × α)) (j : String) (hj : ∀ v, q (j, v) = true) :
    getKey? (cd.filter q) j = getKey? cd j := by
  induction cd with
  | nil => rfl
  | cons kv rest ih =>
    obtain ⟨k, v⟩ := kv
    by_cases hk : k = j
    · subst hk
      rw [List.filter_cons, hj v]
      simp [getKey?]
    · rw [List.filter_cons]
      cases hq : q (k, v) with
      | true =>
        simp only [getKey?, if_neg hk]
        exact ih
      | false =>
        simp only [getKey?, if_neg hk]
        exact ih

theorem getKey?_map_id_at (g : (String × Val) → (String × Val))
    (hg : ∀ kv, (g kv).1 = kv.1) (j : String)
    (hid : ∀ kv : String × Val, kv.1 = j → g kv = kv) :
    ∀ cd : PyDict, getKey? (cd.map g) j = getKey? cd j := by
  intro cd
  induction cd with
  | nil => rfl
  | cons kv rest ih =>
    obtain ⟨k1, v1⟩ := kv
    rcases h2 : g (k1, v1) with ⟨k2, v2⟩
    have hk2 : k2 = k1 := by
      have h3 := hg (k1, v1)
      rw [h2] at h3
      exact h3
    rw [hk2] at h2
    simp only [List.map_cons, h2, getKey?]
    by_cases hk : k1 = j
    · rw [if_pos hk, if_pos hk]
      have h4 := hid (k1, v1) hk
      rw [h4] at h2
      have h5 : v1 = v2 := congrArg Prod.snd h2
      rw [h5]
    · rw [if_neg hk, if_neg hk]
      exact ih

theorem isReserved_cases (j : String) (h : isReserved j = true) :
    j = "stages" ∨ j = "image" ∨ j = "before_script" ∨ j = "after_script" ∨
    j = "variables" ∨ j = "services" := by
  have h2 : j ∈ PIPELINES_KEYS := by
    unfold isReserved at h
    exact List.elem_iff.mp h
  simp only [PIPELINES_KEYS, List.mem_cons, List.not_mem_nil, or_false] at h2
  exact h2

theorem setKey_setKey {α : Type} (d : List (String × α)) (k : String) (v w : α) :
    setKey (setKey d k v) k w = setKey d k w := by
  induction d with
  | nil => simp [setKey]
  | cons kv rest ih =>
    obtain ⟨k0, v0⟩ := kv
    by_cases hk : k0 = k
    · simp [setKey, hk]
    · simp only [setKey, if_neg hk]
      rw [ih]

theorem scriptShapeW_congr {d d' : List (String × Val)}
    (h : getKey? d' "script" = getKey? d "script") :
    scriptShapeW d' = scriptShapeW d := by
  unfold scriptShapeW
  rw [h]

theorem stageShapeW_congr {d d' : List (String × Val)}
    (h : getKey? d' "stage" = getKey? d "stage") :
    stageShapeW d' = stageShapeW d := by
  unfold stageShapeW
  rw [h]

theorem fieldAbsentOrDict_congr {d d' : List (String × Val)} (k : String)
    (h : getKey? d' k = getKey? d k) :
    fieldAbsentOrDict d' k = fieldAbsentOrDict d k := by
  unfold fieldAbsentOrDict
  rw [h]

theorem artifactsShapeW_congr {d d' : List (String × Val)}
    (h : getKey? d' "artifacts" = getKey? d "artifacts") :
    artifactsShapeW d' = artifactsShapeW d := by
  unfold artifactsShapeW
  rw [h]

theorem fieldIsList_congr {d d' : List (String × Val)} (k : String)
    (h : getKey? d' k = getKey? d k) :
    fieldIsList d' k = fieldIsList d k := by
  unfold fieldIsList
  rw [h]

theorem stageAssigned_congr {d d' : List (String × Val)} (L : List Val)
    (h : getKey? d' "stage" = getKey? d "stage") :
    stageAssigned L d' = stageAssigned L d := by
  unfold stageAssigned
  rw [h]

theorem onlyFull_congr {d d' : List (String × Val)}
    (h : getKey? d' "only" = getKey? d "only") :
    onlyFull d' = onlyFull d := by
  unfold onlyFull
  rw [h]

theorem artifactsFull_congr {d d' : List (String × Val)}
    (h : getKey? d' "artifacts" = getKey? d "artifacts") :
    artifactsFull d' = artifactsFull d := by
  unfold artifactsFull
  rw [h]

theorem jobRestW_setKey (d : List (String × Val)) (k : String) (v : Val)
    (h1 : k ≠ "script") (h2 : k ≠ "variables") (h3 : k ≠ "only")
    (h4 : k ≠ "artifacts") :
    jobRestW (setKey d k v) = jobRestW d := by
  unfold jobRestW
  rw [scriptShapeW_congr (getKey?_setKey_ne d k "script" v (Ne.symm h1)),
      fieldAbsentOrDict_congr "variables" (getKey?_setKey_ne d k "variables" v (Ne.symm h2)),
      fieldAbsentOrDict_congr "only" (getKey?_setKey_ne d k "only" v (Ne.symm h3)),
      artifactsShapeW_congr (getKey?_setKey_ne d k "artifacts" v (Ne.symm h4))]

theorem eachEntry_cons_ok (f : String → Val → Except String Val)
    (k : String) (v v' : Val) (rest rest' : PyDict)
    (h1 : f k v = .ok v') (h2 : eachEntry f rest = .ok rest') :
    eachEntry f ((k, v) :: rest) = .ok ((k, v') :: rest') := by
  unfold eachEntry
  rw [h1, bind_ok_eq, h2, bind_ok_eq]
  rfl

theorem eachEntry_spec (f : String → Val → Except String Val) (P Q : Val → Bool) :
    ∀ cd : PyDict,
    (∀ k v, (k, v) ∈ cd → isReserved k = true → f k v = .ok v) →
    (∀ k v, (k, v) ∈ cd → isReserved k = false → P v = true →
      ∃ v', f k v = .ok v' ∧ Q v' = true) →
    allJobs cd P = true →
    ∃ cd', eachEntry f cd = .ok cd' ∧ allJobs cd' Q = true ∧
      (∀ j, isReserved j = true → getKey? cd' j = getKey? cd j) := by
  intro cd
  induction cd with
  | nil =>
    intro _ _ _
    exact ⟨[], rfl, rfl, fun _ _ => rfl⟩
  | cons kv rest ih =>
    intro hres hf hall
    obtain ⟨k, v⟩ := kv
    unfold allJobs at hall
    rw [List.all_cons, Bool.and_eq_true] at hall
    obtain ⟨hhead, htail⟩ := hall
    obtain ⟨rest', hre, hrq, hrg⟩ := ih
      (fun k' v' hm hr => hres k' v' (List.mem_cons_of_mem _ hm) hr)
      (fun k' v' hm hr hp => hf k' v' (List.mem_cons_of_mem _ hm) hr hp)
      htail
    cases hrk : isReserved k with
    | true =>
      have hok := hres k v (List.mem_cons_self _ _) hrk
      refine ⟨(k, v) :: rest', eachEntry_cons_ok f k v v rest rest' hok hre, ?_, ?_⟩
      · unfold allJobs
        rw [List.all_cons, Bool.and_eq_true]
        exact ⟨by simp [hrk], hrq⟩
      · intro j hj
        simp only [getKey?]
        by_cases hk : k = j
        · rw [if_pos hk, if_pos hk]
        · rw [if_neg hk, if_neg hk]
          exact hrg j hj
    | false =>
      rw [hrk, Bool.false_or] at hhead
      obtain ⟨v', hok, hq⟩ := hf k v (List.mem_cons_self _ _) hrk hhead
      refine ⟨(k, v') :: rest', eachEntry_cons_ok f k v v' rest rest' hok hre, ?_, ?_⟩
      · unfold allJobs
        rw [List.all_cons, Bool.and_eq_true]
        exact ⟨by simp [hq], hrq⟩
      · intro j hj
        simp only [getKey?]
        by_cases hk : k = j
        · rw [hk] at hrk
          rw [hj] at hrk
          cases hrk
        · rw [if_neg hk, if_neg hk]
          exact hrg j hj

theorem scanStages_cons_dict (job : String) (d0 : List (String × Val))
    (rest : PyDict) (st : Val) :
    scanStages ((job, Val.dict d0) :: rest) st
      = (if isReserved job then scanStages rest st
         else if hasKey d0 "stage" then
           (if extract_str ((getKey? d0 "stage").getD .none) "" ≠ "" then
             pyInStr (extract_str ((getKey? d0 "stage").getD .none) "") st >>= fun mem =>
               if mem then scanStages rest st
               else pyAppend st (.str (extract_str ((getKey? d0 "stage").getD .none) "")) >>=
                 fun st2 => scanStages rest st2
           else scanStages rest st)
         else scanStages rest st) := rfl

theorem scanStages_spec :
    ∀ (cd : PyDict) (L0 : List Val), stagesStrs L0 = true →
    ∃ L1, scanStages cd (.list L0) = .ok (.list L1) ∧ stagesStrs L1 = true ∧
      (∀ x, memV x L0 = true → memV x L1 = true) ∧
      (∀ p, p ∈ cd → ∀ d, p.2 = Val.dict d → isReserved p.1 = false →
        hasKey d "stage" = true →
        extract_str ((getKey? d "stage").getD Val.none) "" ≠ "" →
        memV (.str (extract_str ((getKey? d "stage").getD Val.none) "")) L1 = true) := by
  intro cd
  induction cd with
  | nil =>
    intro L0 h
    exact ⟨L0, rfl, h, fun _ hx => hx, fun p hp => absurd hp (List.not_mem_nil p)⟩
  | cons kv rest ih =>
    intro L0 hL0
    obtain ⟨job, v⟩ := kv
    cases v
    case dict d0 =>
      by_cases hres : isReserved job = true
      · obtain ⟨L1, h1, h2, h3, h4⟩ := ih L0 hL0
        refine ⟨L1, ?_, h2, h3, ?_⟩
        · rw [scanStages_cons_dict, if_pos hres]
          exact h1
        · intro p hp d hpd hres2 hhk2 hne2
          rcases List.mem_cons.mp hp with he | hm
          · rw [he] at hres2
            have hres3 : isReserved job = false := hres2
            rw [hres] at hres3
            exact Bool.noConfusion hres3
          · exact h4 p hm d hpd hres2 hhk2 hne2
      · by_cases hhk : hasKey d0 "stage" = true
        · by_cases hne : extract_str ((getKey? d0 "stage").getD Val.none) "" = ""
          · obtain ⟨L1, h1, h2, h3, h4⟩ := ih L0 hL0
            refine ⟨L1, ?_, h2, h3, ?_⟩
            · rw [scanStages_cons_dict, if_neg hres, if_pos hhk,
                  if_neg (fun hcon => hcon hne)]
              exact h1
            · intro p hp d hpd hres2 hhk2 hne2
              rcases List.mem_cons.mp hp with he | hm
              · exfalso
                rw [he] at hpd
                have hdd : Val.dict d0 = Val.dict d := hpd
                injection hdd with hd
                subst hd
                exact hne2 hne
              · exact h4 p hm d hpd hres2 hhk2 hne2
          · cases hmem : memV (.str (extract_str ((getKey? d0 "stage").getD Val.none) "")) L0 with
            | true =>
              obtain ⟨L1, h1, h2, h3, h4⟩ := ih L0 hL0
              refine ⟨L1, ?_, h2, h3, ?_⟩
              · rw [scanStages_cons_dict, if_neg hres, if_pos hhk, if_pos hne,
                    show pyInStr (extract_str ((getKey? d0 "stage").getD Val.none) "") (.list L0)
                      = Except.ok (memV (.str (extract_str ((getKey? d0 "stage").getD Val.none) "")) L0) from rfl,
                    bind_ok_eq, hmem, if_pos rfl]
                exact h1
              · intro p hp d hpd hres2 hhk2 hne2
                rcases List.mem_cons.mp hp with he | hm
                · rw [he] at hpd
                  have hdd : Val.dict d0 = Val.dict d := hpd
                  injection hdd with hd
                  subst hd
                  exact h3 _ hmem
                · exact h4 p hm d hpd hres2 hhk2 hne2
            | false =>
              have hL0' : stagesStrs
                  (L0 ++ [.str (extract_str ((getKey? d0 "stage").getD Val.none) "")]) = true :=
                stagesStrs_append_str L0 _ hL0 hne
              obtain ⟨L1, h1, h2, h3, h4⟩ := ih _ hL0'
              refine ⟨L1, ?_, h2, ?_, ?_⟩
              · rw [scanStages_cons_dict, if_neg hres, if_pos hhk, if_pos hne,
                    show pyInStr (extract_str ((getKey? d0 "stage").getD Val.none) "") (.list L0)
                      = Except.ok (memV (.str (extract_str ((getKey? d0 "stage").getD Val.none) "")) L0) from rfl,
                    bind_ok_eq, hmem]
                rw [if_neg (fun hcon => Bool.noConfusion hcon)]
                rw [show pyAppend (Val.list L0)
                      (.str (extract_str ((getKey? d0 "stage").getD Val.none) ""))
                    = Except.ok (Val.list
                        (L0 ++ [.str (extract_str ((getKey? d0 "stage").getD Val.none) "")])) from rfl,
                  bind_ok_eq]
                exact h1
              · intro x hx
                exact h3 x (memV_append_left x L0 _ hx)
              · intro p hp d hpd hres2 hhk2 hne2
                rcases List.mem_cons.mp hp with he | hm
                · rw [he] at hpd
                  have hdd : Val.dict d0 = Val.dict d := hpd
                  injection hdd with hd
                  subst hd
                  exact h3 _ (memV_append_self _ L0)
                · exact h4 p hm d hpd hres2 hhk2 hne2
        · obtain ⟨L1, h1, h2, h3, h4⟩ := ih L0 hL0
          refine ⟨L1, ?_, h2, h3, ?_⟩
          · rw [scanStages_cons_dict, if_neg hres, if_neg hhk]
            exact h1
          · intro p hp d hpd hres2 hhk2 hne2
            rcases List.mem_cons.mp hp with he | hm
            · exfalso
              rw [he] at hpd
              have hdd : Val.dict d0 = Val.dict d := hpd
              injection hdd with hd
              subst hd
              exact hhk hhk2
            · exact h4 p hm d hpd hres2 hhk2 hne2
    all_goals
      obtain ⟨L1, h1, h2, h3, h4⟩ := ih L0 hL0
      refine ⟨L1, h1, h2, h3, ?_⟩
      intro p hp d hpd hres2 hhk2 hne2
      rcases List.mem_cons.mp hp with he | hm
      · rw [he] at hpd
        exact Val.noConfusion hpd
      · exact h4 p hm d hpd hres2 hhk2 hne2

theorem bool_ne_true {b : Bool} (h : b = false) : ¬ b = true := by
  rw [h]
  exact Bool.false_ne_true

theorem job_scan_apply_stages_eq (cfg : Config) (cd : PyDict) :
    job_scan_apply_stages cfg cd =
      (scanStages (popKey cd "stages") ((getKey? cd "stages").getD (.list [])) >>=
        fun stages1 =>
          eachEntry (scanApplyBody
              (if pyTruthy stages1 then stages1 else .list [.str cfg.default_stage]))
            (popKey cd "stages") >>= fun cd1 =>
            pure (setKey cd1 "stages"
              (if pyTruthy stages1 then stages1 else .list [.str cfg.default_stage]))) := rfl

theorem scanApplyBody_dict (st : Val) (jobname : String) (d : List (String × Val)) :
    scanApplyBody st jobname (.dict d)
      = (if isReserved jobname then pure (.dict d)
         else pySubscript0 st >>= fun s0 =>
           pure (.dict (setKey d "stage"
             (match extract_str_core ((getKey? d "stage").getD s0) with
              | some s => Val.str s
              | Option.none => s0)))) := rfl

theorem job_scan_apply_stages_spec (cfg : Config) (R : List (String × Val) → Bool)
    (LB : List Val → Bool)
    (hR : ∀ d sv, R d = true → R (setKey d "stage" sv) = true)
    (cd : PyDict) (hds : cfg.default_stage ≠ "")
    (hst : stagesShapeW cd = true)
    (hjobs : allJobs cd (fun v => match v with
       | .dict d => stageShapeW d && R d
       | .list xs => LB xs
       | _ => false) = true) :
    ∃ cd2 L, job_scan_apply_stages cfg cd = .ok cd2 ∧
      getKey? cd2 "stages" = some (.list L) ∧ stagesStrs L = true ∧
      allJobs cd2 (fun v => match v with
        | .dict d => stageAssigned L d && R d
        | .list xs => LB xs
        | _ => false) = true ∧
      (∀ j, isReserved j = true → j ≠ "stages" → getKey? cd2 j = getKey? cd j) := by
  have hL0 : ∃ L0, (getKey? cd "stages").getD (.list []) = Val.list L0 ∧
      stagesStrs L0 = true := by
    unfold stagesShapeW at hst
    cases hg : getKey? cd "stages" with
    | none => exact ⟨[], rfl, rfl⟩
    | some v =>
      rw [hg] at hst
      cases v
      case list L0 => exact ⟨L0, rfl, hst⟩
      all_goals exact Bool.noConfusion hst
  obtain ⟨L0, hgd, hL0s⟩ := hL0
  obtain ⟨L1, hsc, hscS, hscMono, hscJobs⟩ := scanStages_spec (popKey cd "stages") L0 hL0s
  have hLf : ∃ Lf : List Val,
      (if pyTruthy (.list L1) then Val.list L1
       else Val.list [.str cfg.default_stage]) = Val.list Lf ∧
      stagesStrs Lf = true ∧ Lf ≠ [] ∧
      (∀ x, memV x L1 = true → memV x Lf = true) := by
    cases L1 with
    | nil =>
      refine ⟨[.str cfg.default_stage], rfl, ?_, by simp, ?_⟩
      · unfold stagesStrs
        simp [hds]
      · intro x hx
        exact absurd hx (by simp [memV])
    | cons y ys =>
      exact ⟨y :: ys, rfl, hscS, by simp, fun _ hx => hx⟩
  obtain ⟨Lf, hif, hLfS, hLfne, hLfmono⟩ := hLf
  cases Lf with
  | nil => exact absurd rfl hLfne
  | cons hd tl =>
  have hhd : ∃ t, hd = Val.str t ∧ t ≠ "" := by
    unfold stagesStrs at hLfS
    rw [List.all_cons, Bool.and_eq_true] at hLfS
    obtain ⟨h1, _⟩ := hLfS
    cases hd
    case str t =>
      refine ⟨t, rfl, ?_⟩
      simpa using h1
    all_goals exact Bool.noConfusion h1
  obtain ⟨t, rfl, htne⟩ := hhd
  have hall0 : allJobs (popKey cd "stages") (fun v => match v with
       | .dict d => stageShapeW d && R d
       | .list xs => LB xs
       | _ => false) = true := allJobs_filter _ _ cd hjobs
  obtain ⟨cd1, he1, hQall, hg1⟩ := eachEntry_spec (scanApplyBody (Val.list (Val.str t :: tl)))
    (fun v => match v with
      | .dict d => stageShapeW d && R d
      | .list xs => LB xs
      | _ => false)
    (fun v => match v with
      | .dict d => stageAssigned (Val.str t :: tl) d && R d
      | .list xs => LB xs
      | _ => false)
    (popKey cd "stages")
    (by
      intro k v hm hr
      cases v
      case dict d =>
        rw [scanApplyBody_dict, if_pos hr]
        rfl
      all_goals rfl)
    (by
      intro k v hm hr hp
      have hrneg : ¬ isReserved k = true := bool_ne_true hr
      cases v
      case dict d =>
        rw [Bool.and_eq_true] at hp
        obtain ⟨hsw, hRd⟩ := hp
        by_cases hk : hasKey d "stage" = true
        · obtain ⟨v0, hgk⟩ := getKey?_isSome_of_hasKey d "stage" hk
          cases hesc : extract_str_core v0 with
          | some s =>
            have hsne : s ≠ "" := by
              unfold stageShapeW at hsw
              simp only [hgk] at hsw
              rw [hesc] at hsw
              intro hcon
              rw [hcon] at hsw
              simp at hsw
            have hmem1 : memV (.str s) L1 = true := by
              have hx := hscJobs (k, Val.dict d) hm d rfl hr hk
              have hex : extract_str ((getKey? d "stage").getD Val.none) "" = s := by
                unfold extract_str
                rw [hgk]
                simp only [Option.getD_some, hesc]
              rw [hex] at hx
              exact hx hsne
            refine ⟨.dict (setKey d "stage" (Val.str s)), ?_, ?_⟩
            · rw [scanApplyBody_dict, if_neg hrneg,
                  show pySubscript0 (Val.list (Val.str t :: tl)) = Except.ok (Val.str t) from rfl,
                  bind_ok_eq]
              simp only [hgk, Option.getD_some, hesc]
              rfl
            · show (stageAssigned (Val.str t :: tl) (setKey d "stage" (Val.str s)) &&
                R (setKey d "stage" (Val.str s))) = true
              rw [Bool.and_eq_true]
              refine ⟨?_, hR d _ hRd⟩
              show stageAssigned (Val.str t :: tl) (setKey d "stage" (Val.str s)) = true
              unfold stageAssigned
              rw [getKey?_setKey_self]
              show (!(s == "") && memV (Val.str s) (Val.str t :: tl)) = true
              rw [Bool.and_eq_true]
              exact ⟨by simp [hsne], hLfmono _ hmem1⟩
          | none =>
            refine ⟨.dict (setKey d "stage" (Val.str t)), ?_, ?_⟩
            · rw [scanApplyBody_dict, if_neg hrneg,
                  show pySubscript0 (Val.list (Val.str t :: tl)) = Except.ok (Val.str t) from rfl,
                  bind_ok_eq]
              simp only [hgk, Option.getD_some, hesc]
              rfl
            · show (stageAssigned (Val.str t :: tl) (setKey d "stage" (Val.str t)) &&
                R (setKey d "stage" (Val.str t))) = true
              rw [Bool.and_eq_true]
              refine ⟨?_, hR d _ hRd⟩
              unfold stageAssigned
              rw [getKey?_setKey_self]
              show (!(t == "") && memV (Val.str t) (Val.str t :: tl)) = true
              rw [Bool.and_eq_true]
              exact ⟨by simp [htne], memV_head_str t tl⟩
        · have hgk : getKey? d "stage" = Option.none := by
            apply getKey?_eq_none_of_not_hasKey
            cases hb : hasKey d "stage"
            · rfl
            · exact absurd hb hk
          refine ⟨.dict (setKey d "stage" (Val.str t)), ?_, ?_⟩
          · rw [scanApplyBody_dict, if_neg hrneg,
                show pySubscript0 (Val.list (Val.str t :: tl)) = Except.ok (Val.str t) from rfl,
                bind_ok_eq]
            simp only [hgk, Option.getD_none]
            rfl
          · show (stageAssigned (Val.str t :: tl) (setKey d "stage" (Val.str t)) &&
              R (setKey d "stage" (Val.str t))) = true
            rw [Bool.and_eq_true]
            refine ⟨?_, hR d _ hRd⟩
            unfold stageAssigned
            rw [getKey?_setKey_self]
            show (!(t == "") && memV (Val.str t) (Val.str t :: tl)) = true
            rw [Bool.and_eq_true]
            exact ⟨by simp [htne], memV_head_str t tl⟩
      case list xs => exact ⟨.list xs, rfl, hp⟩
      all_goals exact Bool.noConfusion hp)
    hall0
  refine ⟨setKey cd1 "stages" (Val.list (Val.str t :: tl)), Val.str t :: tl, ?_, ?_, hLfS, ?_, ?_⟩
  · rw [job_scan_apply_stages_eq]
    simp only [hgd, hsc, bind_ok_eq]
    rw [hif]
    simp only [he1, bind_ok_eq]
    rfl
  · exact getKey?_setKey_self cd1 "stages" _
  · exact allJobs_setKey _ cd1 "stages" _ hQall (by simp [isReserved, PIPELINES_KEYS])
  · intro j hj hjne
    rw [getKey?_setKey_ne cd1 "stages" j _ hjne]
    rw [hg1 j hj]
    exact getKey?_popKey_ne cd "stages" j hjne

theorem stageShapeW_of_assigned (L : List Val) (d : List (String × Val))
    (h : stageAssigned L d = true) : stageShapeW d = true := by
  unfold stageAssigned at h
  unfold stageShapeW
  cases hg : getKey? d "stage" with
  | none => rfl
  | some v =>
    rw [hg] at h
    cases v
    case str s =>
      rw [Bool.and_eq_true] at h
      simp only [extract_str_core]
      simpa using h.1
    all_goals exact Bool.noConfusion h

theorem jobM4_mono (L L' : List Val)
    (hmono : ∀ x, memV x L = true → memV x L' = true) (v : Val)
    (h : jobM4 L v = true) : jobM4 L' v = true := by
  cases v
  case dict d =>
    show (stageAssigned L' d && jobRestW d) = true
    have h2 : (stageAssigned L d && jobRestW d) = true := h
    rw [Bool.and_eq_true] at h2 ⊢
    refine ⟨?_, h2.2⟩
    have h3 := h2.1
    unfold stageAssigned at h3 ⊢
    cases hg : getKey? d "stage" with
    | none => rw [hg] at h3; exact Bool.noConfusion h3
    | some v0 =>
      rw [hg] at h3
      cases v0
      case str s =>
        rw [Bool.and_eq_true] at h3 ⊢
        exact ⟨h3.1, hmono _ h3.2⟩
      all_goals exact Bool.noConfusion h3
  all_goals exact Bool.noConfusion h

theorem pipeline_various_tweaks_spec (cfg : Config) (cd : PyDict)
    (h : allJobs cd jobW = true) :
    allJobs (pipeline_various_tweaks cfg cd) jobW = true ∧
    (∀ j, isReserved j = true → j ≠ "image" →
      getKey? (pipeline_various_tweaks cfg cd) j = getKey? cd j) := by
  unfold pipeline_various_tweaks
  constructor
  · apply allJobs_setKey
    · exact allJobs_filter _ _ cd h
    · simp [isReserved, PIPELINES_KEYS]
  · intro j hj hjne
    rw [getKey?_setKey_ne _ "image" j _ hjne]
    apply getKey?_filter_true
    intro v
    rcases isReserved_cases j hj with h1|h1|h1|h1|h1|h1 <;> subst h1 <;> rfl

theorem job_convert_list_to_script_eq (cd : PyDict) :
    job_convert_list_to_script cd = cd.map convListBody := rfl

theorem convListBody_fst (kv : String × Val) : (convListBody kv).1 = kv.1 := by
  unfold convListBody
  repeat' split
  all_goals rfl

theorem jobDW_of_jobW_dict (v : Val) (hd : ∀ xs, v = Val.list xs → False)
    (h : jobW v = true) : jobDW v = true := by
  cases v
  case dict d => exact h
  case list xs => exact absurd rfl (hd xs)
  all_goals exact Bool.noConfusion h

theorem convListBody_snd_good (kv : String × Val) (hkv : (isReserved kv.1 || jobW kv.2) = true) :
    (isReserved (convListBody kv).1 || jobDW (convListBody kv).2) = true := by
  rw [convListBody_fst kv]
  cases hrk : isReserved kv.1 with
  | true => rfl
  | false =>
    rw [hrk, Bool.false_or] at hkv
    rw [Bool.false_or]
    unfold convListBody
    split
    · split
      · split
        · simp [jobDW, stageShapeW, jobRestW, scriptShapeW, fieldAbsentOrDict,
            artifactsShapeW, getKey?]
        · rename_i heq hne
          rw [heq] at hkv
          have hconv : listConvertible _ = true := hkv
          unfold listConvertible at hconv
          exfalso
          apply hne
          intro hcon
          rw [hcon] at hconv
          exact Bool.noConfusion hconv
      · rename_i hnl
        exact jobDW_of_jobW_dict kv.2 hnl hkv
    · rename_i hcon
      rw [hrk] at hcon
      exact absurd rfl hcon

theorem job_convert_list_to_script_spec (cd : PyDict)
    (h : allJobs cd jobW = true) :
    allJobs (job_convert_list_to_script cd) jobDW = true ∧
    (∀ j, isReserved j = true →
      getKey? (job_convert_list_to_script cd) j = getKey? cd j) := by
  rw [job_convert_list_to_script_eq]
  constructor
  · exact allJobs_map convListBody jobW jobDW cd
      (fun kv _ hkv => convListBody_snd_good kv hkv) h
  · intro j hj
    apply getKey?_map_id_at convListBody convListBody_fst j
    intro kv hk
    have hr : isReserved kv.1 = true := by rw [hk]; exact hj
    unfold convListBody
    rw [if_neg (by rw [hr]; exact fun hcon => Bool.noConfusion hcon)]

theorem basShapeW_congr (k : String) {cd cd' : PyDict}
    (h : getKey? cd' k = getKey? cd k) : basShapeW cd' k = basShapeW cd k := by
  unfold basShapeW
  rw [h]

theorem jobM4_newjob (L' : List Val) (jk : String) (v : Val) (hv : basValB v = true)
    (hjkne : (jk == "") = false) (hmem : memV (.str jk) L' = true) :
    jobM4 L' (.dict [("stage", .str jk), ("script", v)]) = true := by
  show (stageAssigned L' [("stage", .str jk), ("script", v)] &&
    jobRestW [("stage", .str jk), ("script", v)]) = true
  rw [Bool.and_eq_true]
  constructor
  · unfold stageAssigned
    rw [show getKey? [("stage", Val.str jk), ("script", v)] "stage" = some (.str jk) from by
      simp [getKey?]]
    show (!(jk == "") && memV (.str jk) L') = true
    rw [Bool.and_eq_true]
    exact ⟨by rw [hjkne]; rfl, hmem⟩
  · unfold jobRestW
    rw [Bool.and_eq_true, Bool.and_eq_true, Bool.and_eq_true]
    refine ⟨⟨⟨?_, ?_⟩, ?_⟩, ?_⟩
    · unfold scriptShapeW
      rw [show getKey? [("stage", Val.str jk), ("script", v)] "script" = some v from by
        simp [getKey?]]
      cases v
      case str s => rfl
      case list xs => rfl
      all_goals exact Bool.noConfusion hv
    · unfold fieldAbsentOrDict
      rw [show getKey? [("stage", Val.str jk), ("script", v)] "variables"
        = (Option.none : Option Val) from by simp [getKey?]]
    · unfold fieldAbsentOrDict
      rw [show getKey? [("stage", Val.str jk), ("script", v)] "only"
        = (Option.none : Option Val) from by simp [getKey?]]
    · unfold artifactsShapeW
      rw [show getKey? [("stage", Val.str jk), ("script", v)] "artifacts"
        = (Option.none : Option Val) from by simp [getKey?]]

theorem convertScriptKey_eq (jobkey : String) (cd : PyDict) :
    convertScriptKey jobkey cd =
      (pyLen ((getKey? cd jobkey).getD (.list [])) >>= fun n =>
        if n > 0 then convertBranch jobkey cd ((getKey? cd jobkey).getD (.list []))
        else pure cd) := rfl

theorem convertBranch_spec (jobkey : String) (cd : PyDict) (L : List Val) (sv : Val)
    (hsv : basValB sv = true)
    (hjkstages : jobkey ≠ "stages")
    (hnkres : isReserved (replaceChar '_' ':' jobkey) = false)
    (hnkstages : replaceChar '_' ':' jobkey ≠ "stages")
    (hjkne : (jobkey == "") = false)
    (hst : getKey? cd "stages" = some (.list L)) (hL : stagesStrs L = true)
    (hjobs : allJobs cd (jobM4 L) = true) :
    ∃ cd' L', convertBranch jobkey cd sv = .ok cd' ∧
      getKey? cd' "stages" = some (.list L') ∧ stagesStrs L' = true ∧
      (∀ x, memV x L = true → memV x L' = true) ∧
      allJobs cd' (jobM4 L') = true ∧
      (∀ j, isReserved j = true → j ≠ "stages" → j ≠ jobkey →
        getKey? cd' j = getKey? cd j) := by
  have hjknestr : jobkey ≠ "" := ne_of_beq_false hjkne
  have hgstB : getKey? (setKey (popKey cd jobkey) (replaceChar '_' ':' jobkey)
      (.dict [("stage", .str jobkey), ("script", sv)])) "stages" = some (.list L) := by
    rw [getKey?_setKey_ne _ _ "stages" _ (Ne.symm hnkstages)]
    rw [getKey?_popKey_ne cd jobkey "stages" (Ne.symm hjkstages)]
    exact hst
  have hjobsB : ∀ L' : List Val, (∀ x, memV x L = true → memV x L' = true) →
      memV (.str jobkey) L' = true →
      allJobs (setKey (popKey cd jobkey) (replaceChar '_' ':' jobkey)
        (.dict [("stage", .str jobkey), ("script", sv)])) (jobM4 L') = true := by
    intro L' hmono hmem
    apply allJobs_setKey
    · apply allJobs_filter
      exact allJobs_mono (jobM4_mono L L' hmono) cd hjobs
    · rw [jobM4_newjob L' jobkey sv hsv hjkne hmem]
      simp
  have hpres : ∀ (stv : Val) (j : String), isReserved j = true → j ≠ "stages" → j ≠ jobkey →
      getKey? (setKey (setKey (popKey cd jobkey) (replaceChar '_' ':' jobkey)
        (.dict [("stage", .str jobkey), ("script", sv)])) "stages" stv) j
        = getKey? cd j := by
    intro stv j hj hjs hjk
    rw [getKey?_setKey_ne _ "stages" j _ hjs]
    rw [getKey?_setKey_ne _ _ j _ (by
      intro he
      rw [he] at hj
      rw [hj] at hnkres
      exact Bool.noConfusion hnkres)]
    exact getKey?_popKey_ne cd jobkey j hjk
  unfold convertBranch
  by_cases hbk : jobkey = "before_script"
  · simp only [hgstB, if_pos hbk]
    refine ⟨_, .str jobkey :: L, rfl, getKey?_setKey_self _ _ _,
      stagesStrs_cons_str L jobkey hL hjknestr,
      fun x hx => memV_cons_of x _ L hx, ?_, fun j hj hjs hjk => hpres _ j hj hjs hjk⟩
    apply allJobs_setKey
    · exact hjobsB _ (fun x hx => memV_cons_of x _ L hx) (memV_head_str jobkey L)
    · simp [isReserved, PIPELINES_KEYS]
  · simp only [hgstB, if_neg hbk]
    rw [show pyAppend (Val.list L) (Val.str jobkey)
      = Except.ok (Val.list (L ++ [Val.str jobkey])) from rfl]
    simp only [bind_ok_eq]
    refine ⟨_, L ++ [.str jobkey], rfl, getKey?_setKey_self _ _ _,
      stagesStrs_append_str L jobkey hL hjknestr,
      fun x hx => memV_append_left x L _ hx, ?_, fun j hj hjs hjk => hpres _ j hj hjs hjk⟩
    apply allJobs_setKey
    · exact hjobsB _ (fun x hx => memV_append_left x L _ hx) (memV_append_self jobkey L)
    · simp [isReserved, PIPELINES_KEYS]

theorem convertScriptKey_spec (jobkey : String) (cd : PyDict) (L : List Val)
    (hjkstages : jobkey ≠ "stages")
    (hnkres : isReserved (replaceChar '_' ':' jobkey) = false)
    (hnkstages : replaceChar '_' ':' jobkey ≠ "stages")
    (hjkne : (jobkey == "") = false)
    (hst : getKey? cd "stages" = some (.list L)) (hL : stagesStrs L = true)
    (hbas : basShapeW cd jobkey = true)
    (hjobs : allJobs cd (jobM4 L) = true) :
    ∃ cd' L', convertScriptKey jobkey cd = .ok cd' ∧
      getKey? cd' "stages" = some (.list L') ∧ stagesStrs L' = true ∧
      (∀ x, memV x L = true → memV x L' = true) ∧
      allJobs cd' (jobM4 L') = true ∧
      (∀ j, isReserved j = true → j ≠ "stages" → j ≠ jobkey →
        getKey? cd' j = getKey? cd j) := by
  cases hgv : getKey? cd jobkey with
  | none =>
    refine ⟨cd, L, ?_, hst, hL, fun _ hx => hx, hjobs, fun _ _ _ _ => rfl⟩
    rw [convertScriptKey_eq, hgv]
    rw [show pyLen ((Option.none : Option Val).getD (Val.list [])) = Except.ok 0 from rfl]
    simp only [bind_ok_eq]
    rw [if_neg (by decide)]
    rfl
  | some v =>
    have hbv : basValB v = true := by
      unfold basShapeW at hbas
      simp only [hgv] at hbas
      exact hbas
    cases v
    case str s =>
      by_cases hn : s.length > 0
      · obtain ⟨cd', L', hbeq, h1, h2, h3, h4, h5⟩ :=
          convertBranch_spec jobkey cd L (.str s) rfl hjkstages hnkres hnkstages
            hjkne hst hL hjobs
        refine ⟨cd', L', ?_, h1, h2, h3, h4, h5⟩
        rw [convertScriptKey_eq, hgv]
        rw [show pyLen ((some (Val.str s)).getD (Val.list [])) = Except.ok s.length from rfl]
        simp only [bind_ok_eq]
        rw [if_pos hn]
        exact hbeq
      · refine ⟨cd, L, ?_, hst, hL, fun _ hx => hx, hjobs, fun _ _ _ _ => rfl⟩
        rw [convertScriptKey_eq, hgv]
        rw [show pyLen ((some (Val.str s)).getD (Val.list [])) = Except.ok s.length from rfl]
        simp only [bind_ok_eq]
        rw [if_neg hn]
        rfl
    case list xs =>
      by_cases hn : xs.length > 0
      · obtain ⟨cd', L', hbeq, h1, h2, h3, h4, h5⟩ :=
          convertBranch_spec jobkey cd L (.list xs) rfl hjkstages hnkres hnkstages
            hjkne hst hL hjobs
        refine ⟨cd', L', ?_, h1, h2, h3, h4, h5⟩
        rw [convertScriptKey_eq, hgv]
        rw [show pyLen ((some (Val.list xs)).getD (Val.list [])) = Except.ok xs.length from rfl]
        simp only [bind_ok_eq]
        rw [if_pos hn]
        exact hbeq
      · refine ⟨cd, L, ?_, hst, hL, fun _ hx => hx, hjobs, fun _ _ _ _ => rfl⟩
        rw [convertScriptKey_eq, hgv]
        rw [show pyLen ((some (Val.list xs)).getD (Val.list [])) = Except.ok xs.length from rfl]
        simp only [bind_ok_eq]
        rw [if_neg hn]
        rfl
    all_goals exact Bool.noConfusion hbv

theorem job_convert_before_after_script_spec (cd : PyDict) (L : List Val)
    (hst : getKey? cd "stages" = some (.list L)) (hL : stagesStrs L = true)
    (hbas1 : basShapeW cd "before_script" = true)
    (hbas2 : basShapeW cd "after_script" = true)
    (hjobs : allJobs cd (jobM4 L) = true) :
    ∃ cd' L', job_convert_before_after_script cd = .ok cd' ∧
      getKey? cd' "stages" = some (.list L') ∧ stagesStrs L' = true ∧
      allJobs cd' (jobM4 L') = true ∧
      (∀ j, isReserved j = true → j ≠ "stages" → j ≠ "before_script" →
        j ≠ "after_script" → getKey? cd' j = getKey? cd j) := by
  obtain ⟨cdB, L1, hbeq, hst1, hL1, _, hjobs1, hpres1⟩ :=
    convertScriptKey_spec "before_script" cd L (by decide) (by decide) (by decide)
      (by decide) hst hL hbas1 hjobs
  have hbas2' : basShapeW cdB "after_script" = true := by
    rw [basShapeW_congr "after_script"
      (hpres1 "after_script" (by decide) (by decide) (by decide))]
    exact hbas2
  obtain ⟨cdC, L2, haeq, hst2, hL2, _, hjobs2, hpres2⟩ :=
    convertScriptKey_spec "after_script" cdB L1 (by decide) (by decide) (by decide)
      (by decide) hst1 hL1 hbas2' hjobs1
  refine ⟨cdC, L2, ?_, hst2, hL2, hjobs2, ?_⟩
  · rw [show job_convert_before_after_script cd
      = (convertScriptKey "before_script" cd >>= fun cd2 =>
          convertScriptKey "after_script" cd2) from rfl, hbeq, bind_ok_eq]
    exact haeq
  · intro j hj h1 h2 h3
    rw [hpres2 j hj h1 h3]
    exact hpres1 j hj h1 h2

theorem jobRestW_parts (d : List (String × Val)) (h : jobRestW d = true) :
    scriptShapeW d = true ∧ fieldAbsentOrDict d "variables" = true ∧
    fieldAbsentOrDict d "only" = true ∧ artifactsShapeW d = true := by
  unfold jobRestW at h
  rw [Bool.and_eq_true, Bool.and_eq_true, Bool.and_eq_true] at h
  exact ⟨h.1.1.1, h.1.1.2, h.1.2, h.2⟩

theorem ensureStrList_dict (d : List (String × Val)) (key : String) :
    ∃ l : List String, ensureStrList (.dict d) key
      = .ok (.dict (setKey d key (.list (l.map .str)))) := by
  unfold ensureStrList
  rw [show pyInStr key (Val.dict d) = .ok (hasKey d key) from rfl]
  simp only [bind_ok_eq]
  cases hk : hasKey d key with
  | true =>
    obtain ⟨v0, hg⟩ := getKey?_isSome_of_hasKey d key hk
    refine ⟨extract_str_list v0 [], ?_⟩
    rw [if_pos rfl]
    rw [show pyGetItemStr (Val.dict d) key = Except.ok v0 from by
      show (match getKey? d key with
            | some x => Except.ok x
            | Option.none => Except.error "KeyError") = Except.ok v0
      rw [hg]]
    simp only [bind_ok_eq]
    rfl
  | false =>
    refine ⟨[], ?_⟩
    rw [if_neg (fun hcon => Bool.noConfusion hcon)]
    rw [show (pure (Val.list []) : Except String Val) = Except.ok (.list []) from rfl]
    simp only [bind_ok_eq]
    rfl

theorem job_various_tweaks_eq (cd : PyDict) :
    job_various_tweaks cd = eachEntry variousTweaksBody cd := rfl

theorem jobM6_of (L : List Val) (d : List (String × Val)) (lt ld : List Val)
    (h : jobM4 L (.dict d) = true) :
    jobM6 L (.dict (setKey (setKey d "tags" (.list lt)) "dependencies" (.list ld)))
      = true := by
  have h2 : (stageAssigned L d && jobRestW d) = true := h
  rw [Bool.and_eq_true] at h2
  obtain ⟨hsa, hrw⟩ := h2
  show (stageAssigned L (setKey (setKey d "tags" (Val.list lt)) "dependencies" (Val.list ld)) &&
      jobRestW (setKey (setKey d "tags" (Val.list lt)) "dependencies" (Val.list ld)) &&
      fieldIsList (setKey (setKey d "tags" (Val.list lt)) "dependencies" (Val.list ld)) "tags" &&
      fieldIsList (setKey (setKey d "tags" (Val.list lt)) "dependencies" (Val.list ld))
        "dependencies") = true
  rw [Bool.and_eq_true, Bool.and_eq_true, Bool.and_eq_true]
  refine ⟨⟨⟨?_, ?_⟩, ?_⟩, ?_⟩
  · have e1 : getKey? (setKey (setKey d "tags" (Val.list lt)) "dependencies" (Val.list ld))
        "stage" = getKey? d "stage" := by
      rw [getKey?_setKey_ne _ "dependencies" "stage" _ (by decide),
          getKey?_setKey_ne d "tags" "stage" _ (by decide)]
    rw [stageAssigned_congr L e1]
    exact hsa
  · rw [jobRestW_setKey _ "dependencies" _ (by decide) (by decide) (by decide) (by decide),
        jobRestW_setKey d "tags" _ (by decide) (by decide) (by decide) (by decide)]
    exact hrw
  · unfold fieldIsList
    rw [getKey?_setKey_ne _ "dependencies" "tags" _ (by decide), getKey?_setKey_self]
  · unfold fieldIsList
    rw [getKey?_setKey_self]

theorem job_various_tweaks_spec (cd : PyDict) (L : List Val)
    (h : allJobs cd (jobM4 L) = true) :
    ∃ cd', job_various_tweaks cd = .ok cd' ∧ allJobs cd' (jobM6 L) = true ∧
      (∀ j, isReserved j = true → getKey? cd' j = getKey? cd j) := by
  rw [job_various_tweaks_eq]
  apply eachEntry_spec variousTweaksBody (jobM4 L) (jobM6 L) cd
  · intro k v _ hr
    unfold variousTweaksBody
    rw [if_pos hr]
    rfl
  · intro k v _ hr hp
    obtain s | n | b | f | _ | xs | d := v
    · exact Bool.noConfusion hp
    · exact Bool.noConfusion hp
    · exact Bool.noConfusion hp
    · exact Bool.noConfusion hp
    · exact Bool.noConfusion hp
    · exact Bool.noConfusion hp
    · obtain ⟨lt, hlt⟩ := ensureStrList_dict d "tags"
      obtain ⟨ld, hld⟩ := ensureStrList_dict (setKey d "tags" (.list (lt.map .str)))
        "dependencies"
      refine ⟨_, ?_, jobM6_of L d (lt.map .str) (ld.map .str) hp⟩
      unfold variousTweaksBody
      rw [if_neg (bool_ne_true hr), hlt, bind_ok_eq]
      exact hld
  · exact h

theorem jobM7_of_set (L : List Val) (d : List (String × Val)) (xs : List Val)
    (h : jobM6 L (.dict d) = true) :
    jobM7 L (.dict (setKey d "script" (.list xs))) = true := by
  have h2 : (stageAssigned L d && jobRestW d && fieldIsList d "tags" &&
    fieldIsList d "dependencies") = true := h
  rw [Bool.and_eq_true, Bool.and_eq_true, Bool.and_eq_true] at h2
  obtain ⟨⟨⟨hsa, hrw⟩, htg⟩, hdp⟩ := h2
  obtain ⟨_, hvar, honly, hart⟩ := jobRestW_parts d hrw
  show (stageAssigned L (setKey d "script" (.list xs)) &&
    fieldIsList (setKey d "script" (.list xs)) "script" &&
    fieldAbsentOrDict (setKey d "script" (.list xs)) "variables" &&
    fieldAbsentOrDict (setKey d "script" (.list xs)) "only" &&
    artifactsShapeW (setKey d "script" (.list xs)) &&
    fieldIsList (setKey d "script" (.list xs)) "tags" &&
    fieldIsList (setKey d "script" (.list xs)) "dependencies") = true
  rw [stageAssigned_congr L (getKey?_setKey_ne d "script" "stage" (Val.list xs) (by decide)),
      fieldIsList_congr "tags" (getKey?_setKey_ne d "script" "tags" (Val.list xs) (by decide)),
      fieldIsList_congr "dependencies"
        (getKey?_setKey_ne d "script" "dependencies" (Val.list xs) (by decide)),
      fieldAbsentOrDict_congr "variables"
        (getKey?_setKey_ne d "script" "variables" (Val.list xs) (by decide)),
      fieldAbsentOrDict_congr "only"
        (getKey?_setKey_ne d "script" "only" (Val.list xs) (by decide)),
      artifactsShapeW_congr
        (getKey?_setKey_ne d "script" "artifacts" (Val.list xs) (by decide))]
  rw [hsa, htg, hdp, hvar, honly, hart]
  have hsl : fieldIsList (setKey d "script" (.list xs)) "script" = true := by
    unfold fieldIsList
    rw [getKey?_setKey_self]
  rw [hsl]
  rfl

theorem jobM7_of_keep (L : List Val) (d : List (String × Val))
    (h : jobM6 L (.dict d) = true) (hs : fieldIsList d "script" = true) :
    jobM7 L (.dict d) = true := by
  have h2 : (stageAssigned L d && jobRestW d && fieldIsList d "tags" &&
    fieldIsList d "dependencies") = true := h
  rw [Bool.and_eq_true, Bool.and_eq_true, Bool.and_eq_true] at h2
  obtain ⟨⟨⟨hsa, hrw⟩, htg⟩, hdp⟩ := h2
  obtain ⟨_, hvar, honly, hart⟩ := jobRestW_parts d hrw
  show (stageAssigned L d && fieldIsList d "script" && fieldAbsentOrDict d "variables" &&
    fieldAbsentOrDict d "only" && artifactsShapeW d && fieldIsList d "tags" &&
    fieldIsList d "dependencies") = true
  rw [hsa, hs, hvar, honly, hart, htg, hdp]
  rfl

theorem job_script_always_list_eq (cd : PyDict) :
    job_script_always_list cd = eachEntry scriptAlwaysBody cd := rfl

theorem scriptAlwaysBody_dict (k : String) (d : List (String × Val))
    (hr : isReserved k = false) :
    scriptAlwaysBody k (.dict d)
      = ((if hasKey d "script" then pure (Val.dict d)
          else pySetItemStr (Val.dict d) "script" (.list [])) >>= fun job =>
         pyGetItemStr job "script" >>= fun sv =>
         if ((extract_str_list_core sv).getD []) ≠ [] then
           pySetItemStr job "script" (.list (((extract_str_list_core sv).getD []).map .str))
         else pure job) := by
  unfold scriptAlwaysBody
  rw [if_neg (bool_ne_true hr)]
  rw [show pyInStr "script" (Val.dict d) = Except.ok (hasKey d "script") from rfl, bind_ok_eq]
  cases hasKey d "script" <;> rfl

theorem job_script_always_list_spec (cd : PyDict) (L : List Val)
    (h : allJobs cd (jobM6 L) = true) :
    ∃ cd', job_script_always_list cd = .ok cd' ∧ allJobs cd' (jobM7 L) = true ∧
      (∀ j, isReserved j = true → getKey? cd' j = getKey? cd j) := by
  rw [job_script_always_list_eq]
  apply eachEntry_spec scriptAlwaysBody (jobM6 L) (jobM7 L) cd
  · intro k v _ hr
    unfold scriptAlwaysBody
    rw [if_pos hr]
    rfl
  · intro k v _ hr hp
    obtain s | n | b | f | _ | xs | d := v
    · exact Bool.noConfusion hp
    · exact Bool.noConfusion hp
    · exact Bool.noConfusion hp
    · exact Bool.noConfusion hp
    · exact Bool.noConfusion hp
    · exact Bool.noConfusion hp
    · rw [scriptAlwaysBody_dict k d hr]
      cases hk : hasKey d "script" with
      | true =>
        rw [if_pos rfl]
        rw [show (pure (Val.dict d) : Except String Val) = Except.ok (.dict d) from rfl,
          bind_ok_eq]
        obtain ⟨v0, hg⟩ := getKey?_isSome_of_hasKey d "script" hk
        rw [show pyGetItemStr (Val.dict d) "script" = Except.ok v0 from by
          show (match getKey? d "script" with
                | some x => Except.ok x
                | Option.none => Except.error "KeyError") = Except.ok v0
          rw [hg]]
        simp only [bind_ok_eq]
        have hss : scriptShapeW d = true := by
          have h2 : (stageAssigned L d && jobRestW d && fieldIsList d "tags" &&
            fieldIsList d "dependencies") = true := hp
          rw [Bool.and_eq_true, Bool.and_eq_true, Bool.and_eq_true] at h2
          exact (jobRestW_parts d h2.1.1.2).1
        unfold scriptShapeW at hss
        rw [hg] at hss
        obtain s | n | b | f | _ | xs | dd := v0
        · rw [if_pos (by
            show ((extract_str_list_core (Val.str s)).getD []) ≠ []
            intro hcon
            exact List.noConfusion (show ([s] : List String) = [] from hcon))]
          exact ⟨_, rfl, jobM7_of_set L d _ hp⟩
        · exact Bool.noConfusion hss
        · exact Bool.noConfusion hss
        · exact Bool.noConfusion hss
        · exact Bool.noConfusion hss
        · by_cases hsc : ((extract_str_list_core (Val.list xs)).getD []) ≠ []
          · rw [if_pos hsc]
            exact ⟨_, rfl, jobM7_of_set L d _ hp⟩
          · rw [if_neg hsc]
            refine ⟨_, rfl, jobM7_of_keep L d hp ?_⟩
            unfold fieldIsList
            rw [hg]
        · exact Bool.noConfusion hss
      | false =>
        rw [if_neg (fun hcon => Bool.noConfusion hcon)]
        rw [show pySetItemStr (Val.dict d) "script" (.list [])
          = Except.ok (.dict (setKey d "script" (.list []))) from rfl, bind_ok_eq]
        rw [show pyGetItemStr (Val.dict (setKey d "script" (.list []))) "script"
          = Except.ok (.list []) from by
          show (match getKey? (setKey d "script" (Val.list [])) "script" with
                | some x => Except.ok x
                | Option.none => Except.error "KeyError") = Except.ok (Val.list [])
          rw [getKey?_setKey_self]]
        simp only [bind_ok_eq]
        rw [if_neg (by
          show ¬ ((extract_str_list_core (Val.list [])).getD []) ≠ []
          intro hcon
          exact hcon rfl)]
        exact ⟨_, rfl, jobM7_of_set L d [] hp⟩
  · exact h

theorem combineJobVars_reserved_id (cfg : Config) (pvars : List (String × String))
    (inj : List (String × Val)) (kv : String × Val) (h : isReserved kv.1 = true) :
    combineJobVars cfg pvars inj kv = kv := by
  obtain ⟨k, v⟩ := kv
  obtain s | n | b | f | _ | xs | d := v
  · rfl
  · rfl
  · rfl
  · rfl
  · rfl
  · rfl
  · rw [combineJobVars_dict_eq, if_pos h]

theorem jobM7_parts (L : List Val) (d : List (String × Val))
    (h : jobM7 L (.dict d) = true) :
    stageAssigned L d = true ∧ fieldIsList d "script" = true ∧
    fieldAbsentOrDict d "variables" = true ∧ fieldAbsentOrDict d "only" = true ∧
    artifactsShapeW d = true ∧ fieldIsList d "tags" = true ∧
    fieldIsList d "dependencies" = true := by
  have h2 : (stageAssigned L d && fieldIsList d "script" &&
    fieldAbsentOrDict d "variables" && fieldAbsentOrDict d "only" &&
    artifactsShapeW d && fieldIsList d "tags" && fieldIsList d "dependencies") = true := h
  rw [Bool.and_eq_true, Bool.and_eq_true, Bool.and_eq_true, Bool.and_eq_true,
    Bool.and_eq_true, Bool.and_eq_true] at h2
  exact ⟨h2.1.1.1.1.1.1, h2.1.1.1.1.1.2, h2.1.1.1.1.2, h2.1.1.1.2, h2.1.1.2,
    h2.1.2, h2.2⟩

theorem jobM8_of (L : List Val) (d : List (String × Val)) (jv : List (String × Val))
    (h : jobM7 L (.dict d) = true) :
    jobM8 L (.dict (setKey d "variables" (.dict jv))) = true := by
  obtain ⟨h1, h2, _, h4, h5, h6, h7⟩ := jobM7_parts L d h
  show (stageAssigned L (setKey d "variables" (.dict jv)) &&
    fieldIsList (setKey d "variables" (.dict jv)) "script" &&
    fieldAbsentOrDict (setKey d "variables" (.dict jv)) "only" &&
    artifactsShapeW (setKey d "variables" (.dict jv)) &&
    fieldIsList (setKey d "variables" (.dict jv)) "tags" &&
    fieldIsList (setKey d "variables" (.dict jv)) "dependencies") = true
  rw [stageAssigned_congr L (getKey?_setKey_ne d "variables" "stage" _ (by decide)),
      fieldIsList_congr "script" (getKey?_setKey_ne d "variables" "script" _ (by decide)),
      fieldAbsentOrDict_congr "only" (getKey?_setKey_ne d "variables" "only" _ (by decide)),
      artifactsShapeW_congr (getKey?_setKey_ne d "variables" "artifacts" _ (by decide)),
      fieldIsList_congr "tags" (getKey?_setKey_ne d "variables" "tags" _ (by decide)),
      fieldIsList_congr "dependencies"
        (getKey?_setKey_ne d "variables" "dependencies" _ (by decide))]
  rw [h1, h2, h4, h5, h6, h7]
  rfl

theorem job_combine_variables_spec2 (cfg : Config) (cd : PyDict) (L : List Val)
    (h : allJobs cd (jobM7 L) = true) :
    allJobs (job_combine_variables cfg cd []) (jobM8 L) = true ∧
    (∀ j, isReserved j = true → j ≠ "variables" →
      getKey? (job_combine_variables cfg cd []) j = getKey? cd j) := by
  constructor
  · show allJobs (popKey ((setKey cd "variables"
      (strDictToVal (extract_str_dict ((getKey? cd "variables").getD (.dict []))))).map
      (combineJobVars cfg (extract_str_dict ((getKey? cd "variables").getD (.dict []))) []))
      "variables") (jobM8 L) = true
    apply allJobs_filter
    apply allJobs_map _ (jobM7 L) (jobM8 L)
    · intro kv _ hkv
      cases hrk : isReserved kv.1 with
      | true =>
        rw [combineJobVars_reserved_id _ _ _ kv hrk, hrk]
        rfl
      | false =>
        rw [hrk, Bool.false_or] at hkv
        rw [combineJobVars_fst]
        rw [hrk, Bool.false_or]
        obtain ⟨k, v⟩ := kv
        obtain s | n | b | f | _ | xs | d := v
        · exact Bool.noConfusion hkv
        · exact Bool.noConfusion hkv
        · exact Bool.noConfusion hkv
        · exact Bool.noConfusion hkv
        · exact Bool.noConfusion hkv
        · exact Bool.noConfusion hkv
        · rw [combineJobVars_dict_eq, if_neg (bool_ne_true hrk)]
          exact jobM8_of L d _ hkv
    · exact allJobs_setKey _ cd "variables" _ h (by simp [isReserved, PIPELINES_KEYS])
  · intro j hj hjv
    show getKey? (popKey ((setKey cd "variables"
      (strDictToVal (extract_str_dict ((getKey? cd "variables").getD (.dict []))))).map
      (combineJobVars cfg (extract_str_dict ((getKey? cd "variables").getD (.dict []))) []))
      "variables") j = getKey? cd j
    rw [getKey?_popKey_ne _ "variables" j hjv]
    rw [getKey?_map_id_at _ (combineJobVars_fst cfg _ []) j
      (fun kv hk => combineJobVars_reserved_id _ _ _ kv (by rw [hk]; exact hj))]
    exact getKey?_setKey_ne cd "variables" j _ hjv

theorem jobM8_parts (L : List Val) (d : List (String × Val))
    (h : jobM8 L (.dict d) = true) :
    stageAssigned L d = true ∧ fieldIsList d "script" = true ∧
    fieldAbsentOrDict d "only" = true ∧ artifactsShapeW d = true ∧
    fieldIsList d "tags" = true ∧ fieldIsList d "dependencies" = true := by
  have h2 : (stageAssigned L d && fieldIsList d "script" &&
    fieldAbsentOrDict d "only" && artifactsShapeW d && fieldIsList d "tags" &&
    fieldIsList d "dependencies") = true := h
  rw [Bool.and_eq_true, Bool.and_eq_true, Bool.and_eq_true, Bool.and_eq_true,
    Bool.and_eq_true] at h2
  exact ⟨h2.1.1.1.1.1, h2.1.1.1.1.2, h2.1.1.1.2, h2.1.1.2, h2.1.2, h2.2⟩

theorem job_streamline_only_eq (cd : PyDict) :
    job_streamline_only cd = eachEntry streamlineOnlyBody cd := rfl

theorem jobM9_of (L : List Val) (d : List (String × Val)) (fr fv : List String)
    (h : jobM8 L (.dict d) = true) :
    jobM9 L (.dict (setKey d "only"
      (.dict [("refs", .list (fr.map .str)), ("variables", .list (fv.map .str))])))
      = true := by
  obtain ⟨h1, h2, _, h4, h5, h6⟩ := jobM8_parts L d h
  show (stageAssigned L (setKey d "only"
      (.dict [("refs", .list (fr.map .str)), ("variables", .list (fv.map .str))])) &&
    fieldIsList (setKey d "only" _) "script" &&
    onlyFull (setKey d "only" _) &&
    artifactsShapeW (setKey d "only" _) &&
    fieldIsList (setKey d "only" _) "tags" &&
    fieldIsList (setKey d "only" _) "dependencies") = true
  rw [stageAssigned_congr L (getKey?_setKey_ne d "only" "stage" _ (by decide)),
      fieldIsList_congr "script" (getKey?_setKey_ne d "only" "script" _ (by decide)),
      artifactsShapeW_congr (getKey?_setKey_ne d "only" "artifacts" _ (by decide)),
      fieldIsList_congr "tags" (getKey?_setKey_ne d "only" "tags" _ (by decide)),
      fieldIsList_congr "dependencies"
        (getKey?_setKey_ne d "only" "dependencies" _ (by decide))]
  rw [h1, h2, h4, h5, h6]
  have ho : onlyFull (setKey d "only"
      (.dict [("refs", .list (fr.map .str)), ("variables", .list (fv.map .str))])) = true := by
    unfold onlyFull
    rw [getKey?_setKey_self]
    simp [fieldIsList, getKey?]
  rw [ho]
  rfl

theorem streamlineOnlyBody_ok (L : List Val) (k : String) (d : List (String × Val))
    (hr : isReserved k = false) (hp : jobM8 L (.dict d) = true) :
    ∃ v', streamlineOnlyBody k (.dict d) = .ok v' ∧ jobM9 L v' = true := by
  obtain ⟨_, _, honly, _, _, _⟩ := jobM8_parts L d hp
  unfold streamlineOnlyBody
  rw [if_neg (bool_ne_true hr)]
  rw [show pyInStr "only" (Val.dict d) = Except.ok (hasKey d "only") from rfl]
  simp only [bind_ok_eq]
  cases hc : hasKey d "only" with
  | true =>
    obtain ⟨v0, hg⟩ := getKey?_isSome_of_hasKey d "only" hc
    have hod : ∃ o, v0 = Val.dict o := by
      unfold fieldAbsentOrDict at honly
      simp only [hg] at honly
      obtain s | n | b | f | _ | xs | o := v0
      · exact Bool.noConfusion honly
      · exact Bool.noConfusion honly
      · exact Bool.noConfusion honly
      · exact Bool.noConfusion honly
      · exact Bool.noConfusion honly
      · exact Bool.noConfusion honly
      · exact ⟨o, rfl⟩
    obtain ⟨o, rfl⟩ := hod
    rw [if_pos rfl]
    simp only [bind_pure_eq]
    rw [show pyGetItemStr (Val.dict d) "only" = Except.ok (Val.dict o) from by
      show (match getKey? d "only" with
            | some x => Except.ok x
            | Option.none => Except.error "KeyError") = Except.ok (Val.dict o)
      rw [hg]]
    simp only [bind_ok_eq]
    rw [show pyInStr "variables" (Val.dict o) = Except.ok (hasKey o "variables") from rfl]
    simp only [bind_ok_eq]
    cases hcv : hasKey o "variables" with
    | true =>
      obtain ⟨x0, hgv⟩ := getKey?_isSome_of_hasKey o "variables" hcv
      rw [if_pos rfl]
      rw [show pyGetItemStr (Val.dict o) "variables" = Except.ok x0 from by
        show (match getKey? o "variables" with
              | some x => Except.ok x
              | Option.none => Except.error "KeyError") = Except.ok x0
        rw [hgv]]
      simp only [bind_ok_eq, bind_pure_eq]
      rw [show pyInStr "refs" (Val.dict o) = Except.ok (hasKey o "refs") from rfl]
      simp only [bind_ok_eq]
      cases hcr : hasKey o "refs" with
      | true =>
        obtain ⟨x1, hgr⟩ := getKey?_isSome_of_hasKey o "refs" hcr
        rw [if_pos rfl]
        rw [show pyGetItemStr (Val.dict o) "refs" = Except.ok x1 from by
          show (match getKey? o "refs" with
                | some x => Except.ok x
                | Option.none => Except.error "KeyError") = Except.ok x1
          rw [hgr]]
        try simp only [bind_ok_eq, bind_pure_eq]
        exact ⟨_, rfl, jobM9_of L d _ _ hp⟩
      | false =>
        rw [if_neg (fun hcon => Bool.noConfusion hcon)]
        try simp only [bind_pure_eq]
        exact ⟨_, rfl, jobM9_of L d _ _ hp⟩
    | false =>
      rw [if_neg (fun hcon => Bool.noConfusion hcon)]
      try simp only [bind_pure_eq]
      rw [show pyInStr "refs" (Val.dict o) = Except.ok (hasKey o "refs") from rfl]
      simp only [bind_ok_eq]
      cases hcr : hasKey o "refs" with
      | true =>
        obtain ⟨x1, hgr⟩ := getKey?_isSome_of_hasKey o "refs" hcr
        rw [if_pos rfl]
        rw [show pyGetItemStr (Val.dict o) "refs" = Except.ok x1 from by
          show (match getKey? o "refs" with
                | some x => Except.ok x
                | Option.none => Except.error "KeyError") = Except.ok x1
          rw [hgr]]
        try simp only [bind_ok_eq, bind_pure_eq]
        exact ⟨_, rfl, jobM9_of L d _ _ hp⟩
      | false =>
        rw [if_neg (fun hcon => Bool.noConfusion hcon)]
        try simp only [bind_pure_eq]
        exact ⟨_, rfl, jobM9_of L d _ _ hp⟩
  | false =>
    rw [if_neg (fun hcon => Bool.noConfusion hcon)]
    rw [show pySetItemStr (Val.dict d) "only" (.dict [])
      = Except.ok (.dict (setKey d "only" (.dict []))) from rfl]
    simp only [bind_ok_eq]
    rw [show pyGetItemStr (Val.dict (setKey d "only" (.dict []))) "only"
      = Except.ok (Val.dict []) from by
      show (match getKey? (setKey d "only" (Val.dict [])) "only" with
            | some x => Except.ok x
            | Option.none => Except.error "KeyError") = Except.ok (Val.dict [])
      rw [getKey?_setKey_self]]
    simp only [bind_ok_eq]
    rw [show pyInStr "variables" (Val.dict ([] : List (String × Val)))
      = Except.ok false from rfl]
    simp only [bind_ok_eq]
    rw [if_neg (fun hcon => Bool.noConfusion hcon)]
    try simp only [bind_pure_eq]
    rw [show pyInStr "refs" (Val.dict ([] : List (String × Val)))
      = Except.ok false from rfl]
    simp only [bind_ok_eq]
    rw [if_neg (fun hcon => Bool.noConfusion hcon)]
    try simp only [bind_pure_eq]
    refine ⟨_, rfl, ?_⟩
    rw [show (setKey (setKey d "only" (Val.dict [])) "only") = setKey d "only" from by
      funext v
      exact setKey_setKey d "only" (Val.dict []) v]
    exact jobM9_of L d _ _ hp

theorem job_streamline_only_spec (cd : PyDict) (L : List Val)
    (h : allJobs cd (jobM8 L) = true) :
    ∃ cd', job_streamline_only cd = .ok cd' ∧ allJobs cd' (jobM9 L) = true ∧
      (∀ j, isReserved j = true → getKey? cd' j = getKey? cd j) := by
  rw [job_streamline_only_eq]
  apply eachEntry_spec streamlineOnlyBody (jobM8 L) (jobM9 L) cd
  · intro k v _ hr
    unfold streamlineOnlyBody
    rw [if_pos hr]
    rfl
  · intro k v _ hr hp
    obtain s | n | b | f | _ | xs | d := v
    · exact Bool.noConfusion hp
    · exact Bool.noConfusion hp
    · exact Bool.noConfusion hp
    · exact Bool.noConfusion hp
    · exact Bool.noConfusion hp
    · exact Bool.noConfusion hp
    · exact streamlineOnlyBody_ok L k d hr hp
  · exact h

theorem jobM9_parts (L : List Val) (d : List (String × Val))
    (h : jobM9 L (.dict d) = true) :
    stageAssigned L d = true ∧ fieldIsList d "script" = true ∧
    onlyFull d = true ∧ artifactsShapeW d = true ∧
    fieldIsList d "tags" = true ∧ fieldIsList d "dependencies" = true := by
  have h2 : (stageAssigned L d && fieldIsList d "script" &&
    onlyFull d && artifactsShapeW d && fieldIsList d "tags" &&
    fieldIsList d "dependencies") = true := h
  rw [Bool.and_eq_true, Bool.and_eq_true, Bool.and_eq_true, Bool.and_eq_true,
    Bool.and_eq_true] at h2
  exact ⟨h2.1.1.1.1.1, h2.1.1.1.1.2, h2.1.1.1.2, h2.1.1.2, h2.1.2, h2.2⟩

theorem job_streamline_artifacts_eq (cfg : Config) (cd : PyDict) :
    job_streamline_artifacts cfg cd = eachEntry (streamlineArtifactsBody cfg) cd := rfl

theorem canonJobB_of (L : List Val) (d : List (String × Val)) (nv ev : Val)
    (ps : List String) (h : jobM9 L (.dict d) = true) :
    canonJobB L (.dict (setKey d "artifacts"
      (.dict [("name", nv), ("expire_in", ev), ("paths", .list (ps.map .str))]))) = true := by
  obtain ⟨h1, h2, h3, _, h5, h6⟩ := jobM9_parts L d h
  show (stageAssigned L (setKey d "artifacts"
      (.dict [("name", nv), ("expire_in", ev), ("paths", .list (ps.map .str))])) &&
    fieldIsList (setKey d "artifacts" _) "script" &&
    fieldIsList (setKey d "artifacts" _) "tags" &&
    fieldIsList (setKey d "artifacts" _) "dependencies" &&
    artifactsFull (setKey d "artifacts" _) &&
    onlyFull (setKey d "artifacts" _)) = true
  rw [stageAssigned_congr L (getKey?_setKey_ne d "artifacts" "stage" _ (by decide)),
      fieldIsList_congr "script" (getKey?_setKey_ne d "artifacts" "script" _ (by decide)),
      fieldIsList_congr "tags" (getKey?_setKey_ne d "artifacts" "tags" _ (by decide)),
      fieldIsList_congr "dependencies"
        (getKey?_setKey_ne d "artifacts" "dependencies" _ (by decide)),
      onlyFull_congr (getKey?_setKey_ne d "artifacts" "only" _ (by decide))]
  rw [h1, h2, h3, h5, h6]
  have ha : artifactsFull (setKey d "artifacts"
      (.dict [("name", nv), ("expire_in", ev), ("paths", .list (ps.map .str))])) = true := by
    unfold artifactsFull
    rw [getKey?_setKey_self]
    simp [hasKey]
  rw [ha]
  rfl

theorem streamlineArtifactsBody_ok (cfg : Config) (L : List Val) (k : String)
    (d : List (String × Val)) (hr : isReserved k = false)
    (hp : jobM9 L (.dict d) = true) :
    ∃ v', streamlineArtifactsBody cfg k (.dict d) = .ok v' ∧ canonJobB L v' = true := by
  obtain ⟨_, _, _, hart, _, _⟩ := jobM9_parts L d hp
  unfold streamlineArtifactsBody
  rw [if_neg (bool_ne_true hr)]
  rw [show pyInStr "artifacts" (Val.dict d) = Except.ok (hasKey d "artifacts") from rfl]
  simp only [bind_ok_eq]
  cases ha : hasKey d "artifacts" with
  | false =>
    rw [if_neg (fun hcon => Bool.noConfusion hcon)]
    exact ⟨_, rfl, canonJobB_of L d _ _ [] hp⟩
  | true =>
    obtain ⟨v0, hg⟩ := getKey?_isSome_of_hasKey d "artifacts" ha
    have had : ∃ a, v0 = Val.dict a ∧ (!hasKey a "expire_in" || hasKey a "name") = true := by
      unfold artifactsShapeW at hart
      simp only [hg] at hart
      obtain s | n | b | f | _ | xs | a := v0
      · exact Bool.noConfusion hart
      · exact Bool.noConfusion hart
      · exact Bool.noConfusion hart
      · exact Bool.noConfusion hart
      · exact Bool.noConfusion hart
      · exact Bool.noConfusion hart
      · exact ⟨a, rfl, hart⟩
    obtain ⟨a, rfl, hcond⟩ := had
    rw [if_pos rfl]
    rw [show pyGetItemStr (Val.dict d) "artifacts" = Except.ok (Val.dict a) from by
      show (match getKey? d "artifacts" with
            | some x => Except.ok x
            | Option.none => Except.error "KeyError") = Except.ok (Val.dict a)
      rw [hg]]
    simp only [bind_ok_eq]
    rw [show pyInStr "paths" (Val.dict a) = Except.ok (hasKey a "paths") from rfl]
    simp only [bind_ok_eq]
    cases hcp : hasKey a "paths" with
    | true =>
      obtain ⟨x0, hgp⟩ := getKey?_isSome_of_hasKey a "paths" hcp
      rw [if_pos rfl]
      rw [show pyGetItemStr (Val.dict a) "paths" = Except.ok x0 from by
        show (match getKey? a "paths" with
              | some x => Except.ok x
              | Option.none => Except.error "KeyError") = Except.ok x0
        rw [hgp]]
      simp only [bind_ok_eq]
      try simp only [bind_pure_eq]
      rw [show pyInStr "name" (Val.dict a) = Except.ok (hasKey a "name") from rfl]
      simp only [bind_ok_eq]
      cases hcn : hasKey a "name" with
      | true =>
        obtain ⟨nv, hgn⟩ := getKey?_isSome_of_hasKey a "name" hcn
        rw [if_pos rfl]
        rw [show pyGetItemStr (Val.dict a) "name" = Except.ok nv from by
          show (match getKey? a "name" with
                | some x => Except.ok x
                | Option.none => Except.error "KeyError") = Except.ok nv
          rw [hgn]]
        simp only [bind_ok_eq]
        rw [show pyInStr "expire_in" (Val.dict a) = Except.ok (hasKey a "expire_in") from rfl]
        simp only [bind_ok_eq]
        cases hce : hasKey a "expire_in" with
        | true =>
          rw [if_pos rfl]
          try simp only [bind_ok_eq]
          exact ⟨_, rfl, canonJobB_of L d _ _ _ hp⟩
        | false =>
          rw [if_neg (fun hcon => Bool.noConfusion hcon)]
          try simp only [bind_pure_eq]
          exact ⟨_, rfl, canonJobB_of L d _ _ _ hp⟩
      | false =>
        rw [if_neg (fun hcon => Bool.noConfusion hcon)]
        try simp only [bind_pure_eq]
        rw [show pyInStr "expire_in" (Val.dict a) = Except.ok (hasKey a "expire_in") from rfl]
        simp only [bind_ok_eq]
        cases hce : hasKey a "expire_in" with
        | true =>
          exfalso
          rw [hce, hcn] at hcond
          exact Bool.noConfusion hcond
        | false =>
          rw [if_neg (fun hcon => Bool.noConfusion hcon)]
          try simp only [bind_pure_eq]
          exact ⟨_, rfl, canonJobB_of L d _ _ _ hp⟩
    | false =>
      rw [if_neg (fun hcon => Bool.noConfusion hcon)]
      try simp only [bind_pure_eq]
      rw [show pyInStr "name" (Val.dict a) = Except.ok (hasKey a "name") from rfl]
      simp only [bind_ok_eq]
      cases hcn : hasKey a "name" with
      | true =>
        obtain ⟨nv, hgn⟩ := getKey?_isSome_of_hasKey a "name" hcn
        rw [if_pos rfl]
        rw [show pyGetItemStr (Val.dict a) "name" = Except.ok nv from by
          show (match getKey? a "name" with
                | some x => Except.ok x
                | Option.none => Except.error "KeyError") = Except.ok nv
          rw [hgn]]
        simp only [bind_ok_eq]
        rw [show pyInStr "expire_in" (Val.dict a) = Except.ok (hasKey a "expire_in") from rfl]
        simp only [bind_ok_eq]
        cases hce : hasKey a "expire_in" with
        | true =>
          rw [if_pos rfl]
          try simp only [bind_ok_eq]
          exact ⟨_, rfl, canonJobB_of L d _ _ _ hp⟩
        | false =>
          rw [if_neg (fun hcon => Bool.noConfusion hcon)]
          try simp only [bind_pure_eq]
          exact ⟨_, rfl, canonJobB_of L d _ _ _ hp⟩
      | false =>
        rw [if_neg (fun hcon => Bool.noConfusion hcon)]
        try simp only [bind_pure_eq]
        rw [show pyInStr "expire_in" (Val.dict a) = Except.ok (hasKey a "expire_in") from rfl]
        simp only [bind_ok_eq]
        cases hce : hasKey a "expire_in" with
        | true =>
          exfalso
          rw [hce, hcn] at hcond
          exact Bool.noConfusion hcond
        | false =>
          rw [if_neg (fun hcon => Bool.noConfusion hcon)]
          try simp only [bind_pure_eq]
          exact ⟨_, rfl, canonJobB_of L d _ _ _ hp⟩

theorem job_streamline_artifacts_spec (cfg : Config) (cd : PyDict) (L : List Val)
    (h : allJobs cd (jobM9 L) = true) :
    ∃ cd', job_streamline_artifacts cfg cd = .ok cd' ∧ allJobs cd' (canonJobB L) = true ∧
      (∀ j, isReserved j = true → getKey? cd' j = getKey? cd j) := by
  rw [job_streamline_artifacts_eq]
  apply eachEntry_spec (streamlineArtifactsBody cfg) (jobM9 L) (canonJobB L) cd
  · intro k v _ hr
    unfold streamlineArtifactsBody
    rw [if_pos hr]
    rfl
  · intro k v _ hr hp
    obtain s | n | b | f | _ | xs | d := v
    · exact Bool.noConfusion hp
    · exact Bool.noConfusion hp
    · exact Bool.noConfusion hp
    · exact Bool.noConfusion hp
    · exact Bool.noConfusion hp
    · exact Bool.noConfusion hp
    · exact streamlineArtifactsBody_ok cfg L k d hr hp
  · exact h

theorem stagesShapeW_congr {cd cd' : PyDict}
    (h : getKey? cd' "stages" = getKey? cd "stages") :
    stagesShapeW cd' = stagesShapeW cd := by
  unfold stagesShapeW
  rw [h]

/-- C1 (amended, lines 141-168 with the passes they call): for every root
dict in the well-formed class `WinputB` - nonempty default stage; `stages`
absent or a list of nonempty strings; `before_script`/`after_script`
absent, strings or lists; every non-reserved entry either a dict whose
declared `stage` does not coerce to the empty string, whose `script` is
absent, a string or a list, whose `variables` and `only` are absent or
dicts, and whose `artifacts` is absent or a dict declaring `name` whenever
it declares `expire_in`, or else a bare list with a coercible element -
normalization succeeds and every non-reserved entry of the canonical
pipeline is a dict whose `stage` is a nonempty string contained in the
`stages` list, whose `script`, `tags` and `dependencies` are lists, and
whose `artifacts` (`name`/`expire_in`/`paths`) and `only`
(`refs`/`variables`) records are fully populated. -/
theorem c1_canonical_shape (cfg : Config) (cd : PyDict)
    (h : WinputB cfg cd = true) :
    canonOKB (parse_cidict cfg (.dict cd)) = true := by
  unfold WinputB at h
  rw [Bool.and_eq_true, Bool.and_eq_true, Bool.and_eq_true, Bool.and_eq_true] at h
  obtain ⟨⟨⟨⟨hds0, hstW⟩, hbasb⟩, hbasa⟩, hjobs0⟩ := h
  have hds : cfg.default_stage ≠ "" := by
    intro hcon
    rw [hcon] at hds0
    exact Bool.noConfusion hds0
  have hR : ∀ d sv, jobRestW d = true → jobRestW (setKey d "stage" sv) = true := by
    intro d sv hd
    rw [jobRestW_setKey d "stage" sv (by decide) (by decide) (by decide) (by decide)]
    exact hd
  -- pass 1
  obtain ⟨hall1, hpres1⟩ := pipeline_various_tweaks_spec cfg cd hjobs0
  have hst1 : stagesShapeW (pipeline_various_tweaks cfg cd) = true := by
    rw [stagesShapeW_congr (hpres1 "stages" (by decide) (by decide))]
    exact hstW
  -- pass 2
  obtain ⟨cd2, L2, heq2, hst2, hL2s, hall2, hpres2⟩ :=
    job_scan_apply_stages_spec cfg jobRestW listConvertible hR
      (pipeline_various_tweaks cfg cd) hds hst1 hall1
  have hall2' : allJobs cd2 jobW = true := by
    apply allJobs_mono ?_ cd2 hall2
    intro v hv
    obtain s | n | b | f | _ | xs | d := v
    · exact Bool.noConfusion hv
    · exact Bool.noConfusion hv
    · exact Bool.noConfusion hv
    · exact Bool.noConfusion hv
    · exact Bool.noConfusion hv
    · exact hv
    · have hv2 : (stageAssigned L2 d && jobRestW d) = true := hv
      rw [Bool.and_eq_true] at hv2
      show (stageShapeW d && jobRestW d) = true
      rw [Bool.and_eq_true]
      exact ⟨stageShapeW_of_assigned L2 d hv2.1, hv2.2⟩
  -- pass 3
  obtain ⟨hall3, hpres3⟩ := job_convert_list_to_script_spec cd2 hall2'
  have hst3 : stagesShapeW (job_convert_list_to_script cd2) = true := by
    rw [stagesShapeW_congr (hpres3 "stages" (by decide))]
    unfold stagesShapeW
    rw [hst2]
    exact hL2s
  have hall3' : allJobs (job_convert_list_to_script cd2)
      (fun v => match v with
        | Val.dict d => stageShapeW d && jobRestW d
        | Val.list xs => (fun _ => false) xs
        | _ => false) = true := by
    apply allJobs_mono ?_ _ hall3
    intro v hv
    obtain s | n | b | f | _ | xs | d := v
    · exact Bool.noConfusion hv
    · exact Bool.noConfusion hv
    · exact Bool.noConfusion hv
    · exact Bool.noConfusion hv
    · exact Bool.noConfusion hv
    · exact Bool.noConfusion hv
    · exact hv
  -- pass 4
  obtain ⟨cd4, L4, heq4, hst4, hL4s, hall4, hpres4⟩ :=
    job_scan_apply_stages_spec cfg jobRestW (fun _ => false) hR
      (job_convert_list_to_script cd2) hds hst3 hall3'
  have hall4' : allJobs cd4 (jobM4 L4) = true := by
    apply allJobs_mono ?_ cd4 hall4
    intro v hv
    obtain s | n | b | f | _ | xs | d := v
    · exact Bool.noConfusion hv
    · exact Bool.noConfusion hv
    · exact Bool.noConfusion hv
    · exact Bool.noConfusion hv
    · exact Bool.noConfusion hv
    · exact Bool.noConfusion hv
    · exact hv
  -- before/after script shapes survive to cd4
  have hbasb4 : basShapeW cd4 "before_script" = true := by
    rw [basShapeW_congr "before_script" (hpres4 "before_script" (by decide) (by decide)),
        basShapeW_congr "before_script" (hpres3 "before_script" (by decide)),
        basShapeW_congr "before_script" (hpres2 "before_script" (by decide) (by decide)),
        basShapeW_congr "before_script" (hpres1 "before_script" (by decide) (by decide))]
    exact hbasb
  have hbasa4 : basShapeW cd4 "after_script" = true := by
    rw [basShapeW_congr "after_script" (hpres4 "after_script" (by decide) (by decide)),
        basShapeW_congr "after_script" (hpres3 "after_script" (by decide)),
        basShapeW_congr "after_script" (hpres2 "after_script" (by decide) (by decide)),
        basShapeW_congr "after_script" (hpres1 "after_script" (by decide) (by decide))]
    exact hbasa
  -- pass 5
  obtain ⟨cd5, L5, heq5, hst5, hL5s, hall5, hpres5⟩ :=
    job_convert_before_after_script_spec cd4 L4 hst4 hL4s hbasb4 hbasa4 hall4'
  -- pass 6
  obtain ⟨cd6, heq6, hall6, hpres6⟩ := job_various_tweaks_spec cd5 L5 hall5
  -- pass 7
  obtain ⟨cd7, heq7, hall7, hpres7⟩ := job_script_always_list_spec cd6 L5 hall6
  -- pass 8
  obtain ⟨hall8, hpres8⟩ := job_combine_variables_spec2 cfg cd7 L5 hall7
  -- pass 9
  obtain ⟨cd9, heq9, hall9, hpres9⟩ :=
    job_streamline_only_spec (job_combine_variables cfg cd7 []) L5 hall8
  -- pass 10
  obtain ⟨cd10, heq10, hall10, hpres10⟩ := job_streamline_artifacts_spec cfg cd9 L5 hall9
  have hstages10 : getKey? cd10 "stages" = some (Val.list L5) := by
    rw [hpres10 "stages" (by decide), hpres9 "stages" (by decide),
        hpres8 "stages" (by decide) (by decide), hpres7 "stages" (by decide),
        hpres6 "stages" (by decide)]
    exact hst5
  have hrun : parse_cidict cfg (.dict cd) = .ok cd10 := by
    show (job_scan_apply_stages cfg (pipeline_various_tweaks cfg cd) >>= fun cda =>
      job_scan_apply_stages cfg (job_convert_list_to_script cda) >>= fun cdb =>
      job_convert_before_after_script cdb >>= fun cdc =>
      job_various_tweaks cdc >>= fun cdd =>
      job_script_always_list cdd >>= fun cde =>
      job_streamline_only (job_combine_variables cfg cde []) >>= fun cdf =>
      job_streamline_artifacts cfg cdf) = .ok cd10
    rw [heq2]
    simp only [bind_ok_eq]
    rw [heq4]
    simp only [bind_ok_eq]
    rw [heq5]
    simp only [bind_ok_eq]
    rw [heq6]
    simp only [bind_ok_eq]
    rw [heq7]
    simp only [bind_ok_eq]
    rw [heq9]
    simp only [bind_ok_eq]
    exact heq10
  unfold canonOKB
  rw [hrun]
  simp only [hstages10]
  exact hall10

/-- C1 witness: the canonical-shape theorem applied to the one-job pipeline
`c1w`. -/
theorem c1_canonical_shape_witness :
    WinputB defaultConfig c1w = true ∧
    canonOKB (parse_cidict defaultConfig (.dict c1w)) = true :=
  ⟨by decide, c1_canonical_shape defaultConfig c1w (by decide)⟩

end Flux
